import Mathlib

/-!
# Peephole optimisation of the JIT graph IR

A shallow embedding of `torch/csrc/jit/passes/peephole.cpp`.

The IR is an arena: a node is named by its index in `Graph.nodes`, a block by
its index in `Graph.blocks`, and a `Value` by its defining node together with
its position among that node's outputs (the `node_` / `offset_` pair of the
C++ `Value`).  Use lists are not stored: the uses of a value are the input
slots of the arena that hold it, and `replaceAllUsesWith` rewrites exactly
those slots.
-/

namespace Peephole

/-! ## Data model -/

/-- Operation tag of a node (`Symbol`): the kinds the pass inspects or creates,
the two block delimiters, and every other kind. -/
inductive Symbol where
  | expand
  | t
  | type_as
  | add
  | mm
  | addmm
  | Param
  | Return
  | other (tag : Nat)
  deriving DecidableEq, Repr

/-- A `Node*`: the index of the node in the arena. -/
abbrev NodeId := Nat

/-- A `Block*`: the index of the block in the arena. -/
abbrev BlockId := Nat

/-- A `Value*`: the node that defines it and its index among that node's
outputs. -/
structure Value where
  node : NodeId
  offset : Nat
  deriving DecidableEq, Repr

/-- Type descriptor of a value.  `TensorType` is the only kind with a static
shape; a value whose shape is not known statically is `DynamicType`. -/
inductive JitType where
  | DynamicType
  | TensorType (scalarType : Nat) (device : Int) (sizes : List Int) (strides : List Int)
  | OtherType (tag : Nat)
  deriving DecidableEq, Repr

/-- The test `type()->kind() == TypeKind::TensorType`, which is also
`Value::isTensor()`. -/
def JitType.isTensor : JitType → Bool
  | .TensorType _ _ _ _ => true
  | _ => false

deriving instance DecidableEq for Except

/-- Why a run of the pass did not produce a graph: a failed `JIT_ASSERT`, a
checked index out of range, or the recursion budget of the model used up. -/
inductive Failure where
  | assertion
  | outOfRange
  | outOfFuel
  deriving DecidableEq, Repr

/-- A node: kind, ordered inputs, the metadata of each output value, the two
attributes the pass reads (`attr::size`, and `attr::alpha` as the number
`tensor_as<double>` yields), `beta` for the fused node, and the nested blocks
it owns. -/
structure Node where
  kind : Symbol
  inputs : List Value
  outputs : List JitType
  size : Option (List Int)
  alpha : Option Rat
  beta : Option Rat
  blocks : List BlockId
  deriving DecidableEq, Repr

/-- A block: its parameter node, the nodes of `block->nodes()` in order, and
its return node (whose inputs are the block outputs). -/
structure Block where
  param : NodeId
  nodes : List NodeId
  ret : NodeId
  deriving DecidableEq, Repr

/-- The graph as an arena; block `0` is `graph->block()`. -/
structure Graph where
  nodes : List Node
  blocks : List Block
  deriving DecidableEq, Repr

/-- The record read through an index that names no node of the arena. -/
def Node.absent : Node :=
  { kind := .other 0, inputs := [], outputs := [], size := none, alpha := none,
    beta := none, blocks := [] }

/-- The record read through an index that names no block. -/
def Block.absent : Block :=
  { param := 0, nodes := [], ret := 0 }

/-- The node named by `n`. -/
def Graph.node (g : Graph) (n : NodeId) : Node :=
  g.nodes.getD n Node.absent

/-- The block named by `b`. -/
def Graph.block (g : Graph) (b : BlockId) : Block :=
  g.blocks.getD b Block.absent

/-- The type of a value, `v->type()`. -/
def Graph.typeOf (g : Graph) (v : Value) : JitType :=
  (g.node v.node).outputs.getD v.offset .DynamicType

/-- Input slot `i` of node `m` holds the value `v`: node `m` consumes `v` in
position `i`. -/
def Graph.reads (g : Graph) (m : NodeId) (i : Nat) (v : Value) : Prop :=
  (g.node m).inputs[i]? = some v

instance (g : Graph) (m : NodeId) (i : Nat) (v : Value) : Decidable (g.reads m i v) :=
  inferInstanceAs (Decidable (_ = _))

/-! ## IR primitives used by the pass -/

/-- Modelled from the spec: `Node::input()` of the IR model (ir.h is not part
of the sources): the single input of a node.  It is defined only for a node
with exactly one input and is a failed assertion otherwise. -/
def Node.input (nd : Node) : Except Failure Value :=
  match nd.inputs with
  | [v] => .ok v
  | _ => .error .assertion

/-- Modelled from the spec: `Node::input(i)` of the IR model, the checked
ordered input access `inputs_.at(i)`. -/
def Node.inputAt (nd : Node) (i : Nat) : Except Failure Value :=
  match nd.inputs[i]? with
  | some v => .ok v
  | none => .error .outOfRange

/-- Modelled from the spec: `Node::output()` of the IR model: the single output
value of node `n`, defined only when the node has exactly one output. -/
def Graph.output (g : Graph) (n : NodeId) : Except Failure Value :=
  if (g.node n).outputs.length = 1 then .ok ⟨n, 0⟩ else .error .assertion

/-- Replace `v` by `w` in a list of inputs. -/
def substInputs (v w : Value) (ins : List Value) : List Value :=
  ins.map (fun u => if u = v then w else u)

/-- Modelled from the spec: `Value::replaceAllUsesWith`, the primitive that
rewires every consumer of `v` to `w`: every input slot of every node (return
nodes included) that holds `v` holds `w` afterwards; nothing else changes. -/
def Graph.replaceAllUsesWith (g : Graph) (v w : Value) : Graph :=
  { g with nodes := g.nodes.map (fun nd => { nd with inputs := substInputs v w nd.inputs }) }

/-- Insert `new` immediately before `n` in a node list. -/
def insertBefore (new n : NodeId) : List NodeId → List NodeId
  | [] => []
  | m :: rest => if m = n then new :: m :: rest else m :: insertBefore new n rest

/-- Modelled from the spec: `SymbolicVariable::addmm` under `WithInsertPoint
guard(n)` (symbolic_variable.h and the graph builder are not part of the
sources): a new node of kind `addmm` with the three given operands, unit
coefficients and one output of not yet known type is created and spliced into
the owning block of `n` immediately before `n`.  The result is the graph and
the output value of the new node. -/
def Graph.insertAddmm (g : Graph) (n : NodeId) (mat mat1 mat2 : Value) : Graph × Value :=
  let new : NodeId := g.nodes.length
  ({ nodes := g.nodes ++ [{ kind := .addmm, inputs := [mat, mat1, mat2],
                            outputs := [.DynamicType], size := none, alpha := some 1,
                            beta := some 1, blocks := [] }],
     blocks := g.blocks.map (fun b => { b with nodes := insertBefore new n b.nodes }) },
   ⟨new, 0⟩)

/-- Apply `f` to the record at index `i` of the arena, if there is one. -/
def modifyNode (f : Node → Node) : Nat → List Node → List Node
  | _, [] => []
  | 0, nd :: rest => f nd :: rest
  | i + 1, nd :: rest => nd :: modifyNode f i rest

/-- Modelled from the spec: `Value::copyMetadata`: the metadata of `v` becomes
that of `src`. -/
def Graph.copyMetadata (g : Graph) (v src : Value) : Graph :=
  let ty := g.typeOf src
  { g with nodes := modifyNode (fun nd => { nd with outputs := nd.outputs.set v.offset ty }) v.node g.nodes }

/-! ## The pass -/

/-- The `switch (n->kind())` of `PeepholeOptimize(Block*)` applied to node `n`
in graph `g`. -/
def rewriteNode (g : Graph) (n : NodeId) : Except Failure Graph :=
  let nd := g.node n
  match nd.kind with
  | .expand =>
    -- if (!n->input()->isTensor()) break;
    match nd.input with
    | .error e => .error e
    | .ok x =>
      if (g.typeOf x).isTensor = false then .ok g
      -- if (n->inputs().size() != 1) break;
      else if nd.inputs.length ≠ 1 then .ok g
      else
        match g.typeOf x with
        | .TensorType _ _ sizes _ =>
          if nd.size = some sizes then
            match g.output n with
            | .error e => .error e
            | .ok out => .ok (g.replaceAllUsesWith out x)
          else .ok g
        | _ => .error .assertion
  | .t =>
    match nd.input with
    | .error e => .error e
    | .ok x =>
      let input_node := g.node x.node
      if input_node.kind = .t then
        match g.output n with
        | .error e => .error e
        | .ok out =>
          match input_node.input with
          | .error e => .error e
          | .ok y => .ok (g.replaceAllUsesWith out y)
      else .ok g
  | .type_as =>
    -- JIT_ASSERT(n->inputs().size() == 2);
    if nd.inputs.length ≠ 2 then .error .assertion
    else
      match nd.inputAt 0 with
      | .error e => .error e
      | .ok lhs =>
        match nd.inputAt 1 with
        | .error e => .error e
        | .ok rhs =>
          match g.typeOf lhs, g.typeOf rhs with
          | .TensorType lscalar ldevice _ _, .TensorType rscalar rdevice _ _ =>
            if ldevice = rdevice ∧ lscalar = rscalar then
              match g.output n with
              | .error e => .error e
              | .ok out => .ok (g.replaceAllUsesWith out lhs)
            else .ok g
          | _, _ => .ok g
  | .add =>
    if nd.inputs.length = 2 ∧ nd.alpha = some 1 then
      match nd.inputAt 1 with
      | .error e => .error e
      | .ok y =>
        let input_node := g.node y.node
        if input_node.kind = .mm then
          match nd.inputAt 0 with
          | .error e => .error e
          | .ok mat =>
            match input_node.inputAt 0 with
            | .error e => .error e
            | .ok mat1 =>
              match input_node.inputAt 1 with
              | .error e => .error e
              | .ok mat2 =>
                let r := g.insertAddmm n mat mat1 mat2
                match r.1.output n with
                | .error e => .error e
                | .ok out =>
                  .ok ((r.1.copyMetadata r.2 out).replaceAllUsesWith out r.2)
        else .ok g
    else .ok g
  | _ => .ok g

/-- Loop over the nested blocks of a node: `for (Block* sub_block : n->blocks())`,
with `opt` the recursive call. -/
def optimizeSubBlocks (opt : Graph → BlockId → Except Failure Graph) :
    List BlockId → Graph → Except Failure Graph
  | [], g => .ok g
  | sb :: rest, g =>
    match opt g sb with
    | .error e => .error e
    | .ok g1 => optimizeSubBlocks opt rest g1

/-- The body of the node loop for node `n`: optimise the nested blocks, then
pattern-match the node itself. -/
def visitNode (opt : Graph → BlockId → Except Failure Graph) (g : Graph) (n : NodeId) :
    Except Failure Graph :=
  match optimizeSubBlocks opt (g.node n).blocks g with
  | .error e => .error e
  | .ok g1 => rewriteNode g1 n

/-- The node loop `for (auto it = block->nodes().begin(); ...; ++it)` over the
nodes still ahead of the cursor.  A node inserted by a rewrite is placed
before the cursor of the innermost running loop and no node is ever removed,
so the nodes ahead of the cursor are those of the list at loop entry. -/
def visitNodes (opt : Graph → BlockId → Except Failure Graph) :
    List NodeId → Graph → Except Failure Graph
  | [], g => .ok g
  | n :: rest, g =>
    match visitNode opt g n with
    | .error e => .error e
    | .ok g1 => visitNodes opt rest g1

/-- The function `PeepholeOptimize(Block*)`.  The recursion into nested blocks is bounded by
`fuel`; running out of it is reported as `Failure.outOfFuel`. -/
def PeepholeOptimizeBlock : Nat → Graph → BlockId → Except Failure Graph
  | 0, _, _ => .error .outOfFuel
  | fuel + 1, g, b => visitNodes (PeepholeOptimizeBlock fuel) (g.block b).nodes g

/-! ## Predicates on graphs -/

/-- Node `n` is met by the traversal of block `b`: it is listed in `b`, or it
is met by the traversal of a nested block of a node listed in `b`. -/
inductive Reach (g : Graph) : BlockId → NodeId → Prop where
  | here {b : BlockId} {n : NodeId} : n ∈ (g.block b).nodes → Reach g b n
  | nested {b : BlockId} {m : NodeId} {sb : BlockId} {n : NodeId} :
      m ∈ (g.block b).nodes → sb ∈ (g.node m).blocks → Reach g sb n → Reach g b n

/-- The function `depth` bounds the nesting of blocks: a block nested in a node
of block `b` has a smaller depth than `b`.  Such a function exists exactly
when no block is nested in itself, as in any IR built from owned blocks. -/
def Graph.NestedBelow (g : Graph) (depth : BlockId → Nat) : Prop :=
  ∀ b, b < g.blocks.length → ∀ n ∈ (g.block b).nodes, ∀ sb ∈ (g.node n).blocks,
    depth sb < depth b

instance (g : Graph) (depth : BlockId → Nat) : Decidable (g.NestedBelow depth) :=
  inferInstanceAs (Decidable (∀ b, b < g.blocks.length → ∀ n ∈ (g.block b).nodes,
    ∀ sb ∈ (g.node n).blocks, depth sb < depth b))

/-- The arities the accessors of the pass rely on: one input for `expand` and
`t`, two for `type_as`, at least two for `mm`, and one output for each of the
four kinds that may be rewritten. -/
def Node.ArityOK (nd : Node) : Prop :=
  (nd.kind = .expand → nd.inputs.length = 1) ∧
  (nd.kind = .t → nd.inputs.length = 1) ∧
  (nd.kind = .type_as → nd.inputs.length = 2) ∧
  (nd.kind = .mm → 2 ≤ nd.inputs.length) ∧
  (nd.kind = .expand ∨ nd.kind = .t ∨ nd.kind = .type_as ∨ nd.kind = .add →
    nd.outputs.length = 1)

instance (nd : Node) : Decidable nd.ArityOK :=
  inferInstanceAs (Decidable (_ ∧ _))

/-- Every node of the arena has the arities of `Node.ArityOK`. -/
def Graph.ArityOK (g : Graph) : Prop :=
  ∀ nd ∈ g.nodes, nd.ArityOK

instance (g : Graph) : Decidable g.ArityOK :=
  inferInstanceAs (Decidable (∀ nd ∈ g.nodes, nd.ArityOK))

/-- What a run of the traversal may change between `g` and `g1`: the arena
only grows, by nodes of kind `addmm`; a node keeps its kind, its numbers of
inputs and outputs and its nested blocks; a block keeps the nodes it lists and
gains only new ones; the blocks stay the same in number and keep their
return and parameter nodes. -/
structure Extends (g g1 : Graph) : Prop where
  length_le : g.nodes.length ≤ g1.nodes.length
  kind_eq : ∀ n, n < g.nodes.length → (g1.node n).kind = (g.node n).kind
  inputs_length : ∀ n, n < g.nodes.length →
    (g1.node n).inputs.length = (g.node n).inputs.length
  outputs_length : ∀ n, n < g.nodes.length →
    (g1.node n).outputs.length = (g.node n).outputs.length
  new_kind : ∀ n, g.nodes.length ≤ n → n < g1.nodes.length → (g1.node n).kind = .addmm
  blocks_eq : ∀ n, (g1.node n).blocks = (g.node n).blocks
  mem_nodes : ∀ b n, n ∈ (g.block b).nodes → n ∈ (g1.block b).nodes
  mem_old_or_new : ∀ b n, n ∈ (g1.block b).nodes →
    n ∈ (g.block b).nodes ∨ g.nodes.length ≤ n
  blocks_length : g1.blocks.length = g.blocks.length
  ret_eq : ∀ b, (g1.block b).ret = (g.block b).ret
  param_eq : ∀ b, (g1.block b).param = (g.block b).param

/-- A `type_as` node whose number of inputs is not two. -/
def BadTypeAs (g : Graph) (n : NodeId) : Prop :=
  (g.node n).kind = .type_as ∧ (g.node n).inputs.length ≠ 2

/-- The result `r` of a run is a graph, or a failure that satisfies `A`. -/
def Allowed (A : Failure → Prop) : Except Failure Graph → Prop
  | .ok _ => True
  | .error e => A e

/-! ## Decisions of the switch, visit order, ranking, dead-code elimination -/

/-- What the switch decides to do with a node. -/
inductive Action where
  | skip
  | replace (out x : Value)
  | fuse (mat mat1 mat2 out : Value)
  deriving DecidableEq, Repr

/-- The decision taken by the switch on node `n`: the conditions of
`rewriteNode`, with the rewrite named and not yet carried out. -/
def matchNode (g : Graph) (n : NodeId) : Except Failure Action :=
  let nd := g.node n
  match nd.kind with
  | .expand =>
    match nd.input with
    | .error e => .error e
    | .ok x =>
      if (g.typeOf x).isTensor = false then .ok .skip
      else if nd.inputs.length ≠ 1 then .ok .skip
      else
        match g.typeOf x with
        | .TensorType _ _ sizes _ =>
          if nd.size = some sizes then
            match g.output n with
            | .error e => .error e
            | .ok out => .ok (.replace out x)
          else .ok .skip
        | _ => .error .assertion
  | .t =>
    match nd.input with
    | .error e => .error e
    | .ok x =>
      let input_node := g.node x.node
      if input_node.kind = .t then
        match g.output n with
        | .error e => .error e
        | .ok out =>
          match input_node.input with
          | .error e => .error e
          | .ok y => .ok (.replace out y)
      else .ok .skip
  | .type_as =>
    if nd.inputs.length ≠ 2 then .error .assertion
    else
      match nd.inputAt 0 with
      | .error e => .error e
      | .ok lhs =>
        match nd.inputAt 1 with
        | .error e => .error e
        | .ok rhs =>
          match g.typeOf lhs, g.typeOf rhs with
          | .TensorType lscalar ldevice _ _, .TensorType rscalar rdevice _ _ =>
            if ldevice = rdevice ∧ lscalar = rscalar then
              match g.output n with
              | .error e => .error e
              | .ok out => .ok (.replace out lhs)
            else .ok .skip
          | _, _ => .ok .skip
  | .add =>
    if nd.inputs.length = 2 ∧ nd.alpha = some 1 then
      match nd.inputAt 1 with
      | .error e => .error e
      | .ok y =>
        let input_node := g.node y.node
        if input_node.kind = .mm then
          match nd.inputAt 0 with
          | .error e => .error e
          | .ok mat =>
            match input_node.inputAt 0 with
            | .error e => .error e
            | .ok mat1 =>
              match input_node.inputAt 1 with
              | .error e => .error e
              | .ok mat2 =>
                match g.output n with
                | .error e => .error e
                | .ok out => .ok (.fuse mat mat1 mat2 out)
        else .ok .skip
    else .ok .skip
  | _ => .ok .skip

/-- Carry out a decision of the switch on node `n`. -/
def perform (g : Graph) (n : NodeId) : Action → Graph
  | .skip => g
  | .replace out x => g.replaceAllUsesWith out x
  | .fuse mat mat1 mat2 out =>
    ((g.insertAddmm n mat mat1 mat2).1.copyMetadata (g.insertAddmm n mat mat1 mat2).2
      out).replaceAllUsesWith out (g.insertAddmm n mat mat1 mat2).2

/-- The switch applied to the nodes of a list in turn. -/
def rewriteNodes : List NodeId → Graph → Except Failure Graph
  | [], g => .ok g
  | n :: rest, g =>
    match rewriteNode g n with
    | .error e => .error e
    | .ok g1 => rewriteNodes rest g1

/-- The nodes met by `optimizeSubBlocks`, in the order of their switch. -/
def orderSubBlocks (ord : BlockId → List NodeId) : List BlockId → List NodeId
  | [] => []
  | sb :: rest => ord sb ++ orderSubBlocks ord rest

/-- The nodes met by `visitNodes`, in the order of their switch: for each node
of the list the nodes of its nested blocks, then the node. -/
def orderNodes (ord : BlockId → List NodeId) (g : Graph) : List NodeId → List NodeId
  | [] => []
  | n :: rest => (orderSubBlocks ord (g.node n).blocks ++ [n]) ++ orderNodes ord g rest

/-- The nodes met by `PeepholeOptimizeBlock fuel g b`, in the order in which
the switch is applied to them. -/
def visitOrder : Nat → Graph → BlockId → List NodeId
  | 0, _, _ => []
  | fuel + 1, g, b => orderNodes (visitOrder fuel g) g (g.block b).nodes

/-- Between `g` and `g1` no node changed its nested blocks, and a block that
lists no node of `M` kept its node list. -/
def SameOutside (M : List NodeId) (g g1 : Graph) : Prop :=
  (∀ n, (g1.node n).blocks = (g.node n).blocks) ∧
  (∀ b, (∀ k ∈ M, k ∉ (g.block b).nodes) → (g1.block b).nodes = (g.block b).nodes)

/-- No node of the arena consumes an output of node `a`. -/
def Unused (g : Graph) (a : NodeId) : Prop :=
  ∀ m, ∀ v ∈ (g.node m).inputs, v.node ≠ a

/-- Every value consumed in the graph is an output of a node of the arena and
its producer has a smaller rank than its consumer. -/
def Ranked (g : Graph) (rank : NodeId → Nat) : Prop :=
  ∀ m, m < g.nodes.length → ∀ v ∈ (g.node m).inputs,
    v.node < g.nodes.length ∧ v.offset < (g.node v.node).outputs.length ∧ rank v.node < rank m

instance (g : Graph) (rank : NodeId → Nat) : Decidable (Ranked g rank) :=
  inferInstanceAs (Decidable (∀ m, m < g.nodes.length → ∀ v ∈ (g.node m).inputs,
    v.node < g.nodes.length ∧ v.offset < (g.node v.node).outputs.length ∧
      rank v.node < rank m))

/-- The switch has nothing left to do on node `a`: it skips `a`, or no node
consumes an output of `a`. -/
def Settled (g : Graph) (a : NodeId) : Prop :=
  matchNode g a = .ok .skip ∨ Unused g a

/-- The graph with the fused node in place, its metadata copied, before the
consumers of the `add` are rewired. -/
def Graph.withAddmm (g : Graph) (k : NodeId) (mat mat1 mat2 out : Value) : Graph :=
  (g.insertAddmm k mat mat1 mat2).1.copyMetadata (g.insertAddmm k mat mat1 mat2).2 out

/-- Node `u` consumes an output of node `n`. -/
def Graph.consumes (g : Graph) (u n : NodeId) : Bool :=
  (g.node u).inputs.any (fun v => v.node == n)

/-- Node `n` is the return node or the parameter node of the block `b`. -/
def Graph.delimitsBlock (g : Graph) (b : BlockId) (n : NodeId) : Bool :=
  match g.blocks[b]? with
  | some blk => blk.ret == n || blk.param == n
  | none => false

/-- Node `n` is the return node or the parameter node of a block nested in
node `u`. -/
def Graph.delimits (g : Graph) (u n : NodeId) : Bool :=
  (g.node u).blocks.any (fun sb => g.delimitsBlock sb n)

/-- The mark of node `n` in a list of marks indexed by the arena. -/
def isLive (live : List Bool) (n : NodeId) : Bool :=
  live.getD n false

/-- One round of marking: a node is marked when it was, or when a marked node
consumes one of its outputs or owns the block it delimits. -/
def markStep (g : Graph) (live : List Bool) : List Bool :=
  (List.range g.nodes.length).map (fun n =>
    isLive live n ||
      (List.range g.nodes.length).any (fun u =>
        isLive live u && (g.consumes u n || g.delimits u n)))

/-- Rounds of marking until nothing changes. -/
def markLive : Nat → Graph → List Bool → Except Failure (List Bool)
  | 0, _, _ => .error .outOfFuel
  | k + 1, g, live =>
    if markStep g live = live then .ok live else markLive k g (markStep g live)

/-- The marks to start from: the return node and the parameter node of the
given block. -/
def liveRoots (g : Graph) (b : BlockId) : List Bool :=
  (List.range g.nodes.length).map (fun n => g.delimitsBlock b n)

/-- Remove the nodes that are not marked: they leave the node list of their
block and their slot reads as absent afterwards. -/
def Graph.purge (g : Graph) (live : List Bool) : Graph :=
  { nodes := List.zipWith (fun n nd => if isLive live n then nd else Node.absent)
      (List.range g.nodes.length) g.nodes,
    blocks := g.blocks.map (fun blk => { blk with nodes := blk.nodes.filter (isLive live) }) }

/-- Modelled from the spec: `EliminateDeadCode(block)` of the dead-code
elimination pass (dead_code_elimination.h is not part of the sources), the
pass that removes the nodes with no live consumers.  A node is live when it
is the return or the parameter node of the given block, when a live node
consumes one of its outputs, or when it is the return or the parameter node
of a block nested in a live node.  The nodes that are not live are purged
from the blocks of the arena, all of which are nested below the root block
the pass is called on. -/
def EliminateDeadCode (g : Graph) (b : BlockId) : Except Failure Graph :=
  match markLive (g.nodes.length + 1) g (liveRoots g b) with
  | .error e => .error e
  | .ok live => .ok (g.purge live)

/-- The function `PeepholeOptimize(std::shared_ptr<Graph>&)`: the traversal of the root
block followed by dead-code elimination. -/
def PeepholeOptimize (fuel : Nat) (g : Graph) : Except Failure Graph :=
  match PeepholeOptimizeBlock fuel g 0 with
  | .error e => .error e
  | .ok g1 => EliminateDeadCode g1 0

/-- Every mark has a reason: the node delimits the given block, or a marked
node consumes one of its outputs or owns the block it delimits. -/
def Justified (g : Graph) (b : BlockId) (live : List Bool) : Prop :=
  ∀ n, isLive live n = true → g.delimitsBlock b n = true ∨
    ∃ u, isLive live u = true ∧ (g.consumes u n = true ∨ g.delimits u n = true)

/-- Well-formed graphs, for a traversal with the given fuel: blocks are nested
below `depth` with the root block below the fuel; every consumed value is an
output of an arena node of smaller `rank` than its consumer; the nodes met by
the traversal are arena nodes and are met in the order of their rank; the
blocks are delimited by nodes of kind `Return` and `Param`. -/
structure WellFormed (g : Graph) (fuel : Nat) (rank : NodeId → Nat) (depth : BlockId → Nat) :
    Prop where
  nested : g.NestedBelow depth
  fuel_ok : depth 0 < fuel
  ranked : Ranked g rank
  ordered : (visitOrder fuel g 0).Pairwise (fun a c => rank a < rank c)
  listed : ∀ n ∈ visitOrder fuel g 0, n < g.nodes.length
  delimiters : ∀ blk ∈ g.blocks, (g.node blk.ret).kind = .Return ∧ (g.node blk.param).kind = .Param

/-! ## Concrete graphs -/

/-- A node without attributes and without nested blocks. -/
def Node.op (kind : Symbol) (inputs : List Value) (outputs : List JitType) : Node :=
  { kind := kind, inputs := inputs, outputs := outputs, size := none, alpha := none,
    beta := none, blocks := [] }

/-- A float tensor type on device 0 with the given sizes. -/
def floatTensor (sizes : List Int) : JitType :=
  .TensorType 6 0 sizes []

/-- One block `x = param; e = expand(x, size); u = use(e); return (u, e)` with
`x` of sizes `[2, 3]`. -/
def expandGraph (size : List Int) : Graph :=
  { nodes := [ Node.op .Param [] [floatTensor [2, 3]],
               { Node.op .expand [⟨0, 0⟩] [.DynamicType] with size := some size },
               Node.op (.other 7) [⟨1, 0⟩] [.DynamicType],
               Node.op .Return [⟨2, 0⟩, ⟨1, 0⟩] [] ],
    blocks := [ { param := 0, nodes := [1, 2], ret := 3 } ] }

/-- One block `x = param; t1 = t(x); t2 = t(t1); u = use(t2); w = use(t2, t1);
return (u, w)`. -/
def transposeGraph : Graph :=
  { nodes := [ Node.op .Param [] [floatTensor [2, 3]],
               Node.op .t [⟨0, 0⟩] [floatTensor [3, 2]],
               Node.op .t [⟨1, 0⟩] [floatTensor [2, 3]],
               Node.op (.other 7) [⟨2, 0⟩] [.DynamicType],
               Node.op (.other 8) [⟨2, 0⟩, ⟨1, 0⟩] [.DynamicType],
               Node.op .Return [⟨3, 0⟩, ⟨4, 0⟩] [] ],
    blocks := [ { param := 0, nodes := [1, 2, 3, 4], ret := 5 } ] }

/-- One block `(a, b) = param; c = type_as(a, b); return c`, with `a` a float
tensor on device 0 and `b` of the given type. -/
def typeAsGraph (rhs : JitType) : Graph :=
  { nodes := [ Node.op .Param [] [floatTensor [2, 3], rhs],
               Node.op .type_as [⟨0, 0⟩, ⟨0, 1⟩] [.DynamicType],
               Node.op .Return [⟨1, 0⟩] [] ],
    blocks := [ { param := 0, nodes := [1], ret := 2 } ] }

/-- One block `(m1, m2, bias) = param; y = mm(m1, m2); z = add(bias, y, alpha);
return z`. -/
def addmmGraph (alpha : Option Rat) : Graph :=
  { nodes := [ Node.op .Param [] [floatTensor [2, 3], floatTensor [3, 4], floatTensor [2, 4]],
               Node.op .mm [⟨0, 0⟩, ⟨0, 1⟩] [floatTensor [2, 4]],
               { Node.op .add [⟨0, 2⟩, ⟨1, 0⟩] [floatTensor [2, 4]] with alpha := alpha },
               Node.op .Return [⟨2, 0⟩] [] ],
    blocks := [ { param := 0, nodes := [1, 2], ret := 3 } ] }

/-- Two blocks: the root block `x = param; l = loop(x) { ... }; return l` and
the block nested in `l`, `p = param; a = t(p); inner; return inner`, where
`inner` is the given node 5. -/
def nestedGraph (inner : Node) : Graph :=
  { nodes := [ Node.op .Param [] [floatTensor [2, 3]],
               { Node.op (.other 9) [⟨0, 0⟩] [.DynamicType] with blocks := [1] },
               Node.op .Return [⟨1, 0⟩] [],
               Node.op .Param [] [floatTensor [2, 3]],
               Node.op .t [⟨3, 0⟩] [floatTensor [3, 2]],
               inner,
               Node.op .Return [⟨5, 0⟩] [] ],
    blocks := [ { param := 0, nodes := [1], ret := 2 },
                { param := 3, nodes := [4, 5], ret := 6 } ] }

/-- A `type_as` node with three inputs. -/
def typeAsThree : Node :=
  Node.op .type_as [⟨4, 0⟩, ⟨3, 0⟩, ⟨3, 0⟩] [.DynamicType]

/-- One block `x = param; e = expand(x, s); return e` in which the target size
is the second input `s` of the expand node and not an attribute. -/
def dynamicExpandGraph : Graph :=
  { nodes := [ Node.op .Param [] [floatTensor [2, 3], .DynamicType],
               Node.op .expand [⟨0, 0⟩, ⟨0, 1⟩] [.DynamicType],
               Node.op .Return [⟨1, 0⟩] [] ],
    blocks := [ { param := 0, nodes := [1], ret := 2 } ] }

/-- One block `x = param; e = k(); return e` whose only node has kind `k` and
no input at all. -/
def noInputGraph (k : Symbol) : Graph :=
  { nodes := [ Node.op .Param [] [floatTensor [2, 3]],
               Node.op k [] [.DynamicType],
               Node.op .Return [⟨1, 0⟩] [] ],
    blocks := [ { param := 0, nodes := [1], ret := 2 } ] }

/-- One block `(m1, bias) = param; y = mm(m1); z = add(bias, y, alpha = 1);
return z`: the `mm` node has a single operand. -/
def shortMmGraph : Graph :=
  { nodes := [ Node.op .Param [] [floatTensor [2, 3], floatTensor [2, 4]],
               Node.op .mm [⟨0, 0⟩] [floatTensor [2, 4]],
               { Node.op .add [⟨0, 1⟩, ⟨1, 0⟩] [floatTensor [2, 4]] with alpha := some 1 },
               Node.op .Return [⟨2, 0⟩] [] ],
    blocks := [ { param := 0, nodes := [1, 2], ret := 3 } ] }

/-- Root block `(x, w, bias) = param; a = t(x); b = t(a); y = mm(b, w);
z = add(bias, y, alpha = 1); l = loop(z) { ... }; return l`, and the block
nested in `l`: `p = param; e = expand(p, size = [2, 4]); c = type_as(e, p);
return c`. -/
def sampleGraph : Graph :=
  { nodes := [ Node.op .Param [] [floatTensor [2, 3], floatTensor [3, 4], floatTensor [2, 4]],
               Node.op .t [⟨0, 0⟩] [floatTensor [3, 2]],
               Node.op .t [⟨1, 0⟩] [floatTensor [2, 3]],
               Node.op .mm [⟨2, 0⟩, ⟨0, 1⟩] [floatTensor [2, 4]],
               { Node.op .add [⟨0, 2⟩, ⟨3, 0⟩] [floatTensor [2, 4]] with alpha := some 1 },
               { Node.op (.other 9) [⟨4, 0⟩] [floatTensor [2, 4]] with blocks := [1] },
               Node.op .Return [⟨5, 0⟩] [],
               Node.op .Param [] [floatTensor [2, 4]],
               { Node.op .expand [⟨7, 0⟩] [floatTensor [2, 4]] with size := some [2, 4] },
               Node.op .type_as [⟨8, 0⟩, ⟨7, 0⟩] [floatTensor [2, 4]],
               Node.op .Return [⟨9, 0⟩] [] ],
    blocks := [ { param := 0, nodes := [1, 2, 3, 4, 5], ret := 6 },
                { param := 7, nodes := [8, 9], ret := 10 } ] }

/-- A rank for `sampleGraph`: parameter nodes first, then the nodes in the
order of the traversal, return nodes last. -/
def sampleRank (n : NodeId) : Nat :=
  [0, 1, 2, 3, 4, 8, 20, 5, 6, 7, 20].getD n 0

/-- The nesting depth of the blocks of `sampleGraph`. -/
def sampleDepth (b : BlockId) : Nat :=
  if b = 0 then 1 else 0

/-- What `PeepholeOptimize` makes of `sampleGraph`: the root block is
`f = addmm(bias, x, w); l = loop(f) { ... }; return l` with the fused node in
slot 11, the nested block is `p = param; return p`, and the slots of the
removed nodes read as absent. -/
def sampleOptimized : Graph :=
  { nodes := [ Node.op .Param [] [floatTensor [2, 3], floatTensor [3, 4], floatTensor [2, 4]],
               Node.absent,
               Node.absent,
               Node.absent,
               Node.absent,
               { Node.op (.other 9) [⟨11, 0⟩] [floatTensor [2, 4]] with blocks := [1] },
               Node.op .Return [⟨5, 0⟩] [],
               Node.op .Param [] [floatTensor [2, 4]],
               Node.absent,
               Node.absent,
               Node.op .Return [⟨7, 0⟩] [],
               { Node.op .addmm [⟨0, 2⟩, ⟨0, 0⟩, ⟨0, 1⟩] [floatTensor [2, 4]] with
                 alpha := some 1, beta := some 1 } ],
    blocks := [ { param := 0, nodes := [11, 5], ret := 6 },
                { param := 7, nodes := [], ret := 10 } ] }

/-- One block `x = param; t1 = t(x); t2 = t(t1); u = use(t2); return u`, with
`x` of type `ty` and `use` any operator the pass does not know. -/
def endToEndGraph (tag : Nat) (ty : JitType) : Graph :=
  { nodes := [ Node.op .Param [] [ty],
               Node.op .t [⟨0, 0⟩] [.DynamicType],
               Node.op .t [⟨1, 0⟩] [.DynamicType],
               Node.op (.other tag) [⟨2, 0⟩] [.DynamicType],
               Node.op .Return [⟨3, 0⟩] [] ],
    blocks := [ { param := 0, nodes := [1, 2, 3], ret := 4 } ] }

/-- The graph `x = param; u = use(x); return u` left in the arena of
`endToEndGraph`: the slots 1 and 2 of the two transposes read as absent. -/
def endToEndOptimized (tag : Nat) (ty : JitType) : Graph :=
  { nodes := [ Node.op .Param [] [ty],
               Node.absent,
               Node.absent,
               Node.op (.other tag) [⟨0, 0⟩] [.DynamicType],
               Node.op .Return [⟨3, 0⟩] [] ],
    blocks := [ { param := 0, nodes := [3], ret := 4 } ] }

/-- Root block `(a, b, c) = param; y = mm(a, b); l = loop(y) { ... };
u = use(l, c); return u`, and the block nested in `l`:
`p = param; f = addmm(p, p, p); return f`.  No node has one of the four kinds
the pass rewrites. -/
def passThroughGraph : Graph :=
  { nodes := [ Node.op .Param [] [floatTensor [2, 2], floatTensor [2, 2], .DynamicType],
               Node.op .mm [⟨0, 0⟩, ⟨0, 1⟩] [floatTensor [2, 2]],
               { Node.op (.other 9) [⟨1, 0⟩] [floatTensor [2, 2]] with blocks := [1] },
               Node.op (.other 7) [⟨2, 0⟩, ⟨0, 2⟩] [.DynamicType],
               Node.op .Return [⟨3, 0⟩] [],
               Node.op .Param [] [floatTensor [2, 2]],
               { Node.op .addmm [⟨5, 0⟩, ⟨5, 0⟩, ⟨5, 0⟩] [floatTensor [2, 2]] with
                 alpha := some 1, beta := some 1 },
               Node.op .Return [⟨6, 0⟩] [] ],
    blocks := [ { param := 0, nodes := [1, 2, 3], ret := 4 },
                { param := 5, nodes := [6], ret := 7 } ] }

/-- The decision is a fusion (Rule D fires). -/
def Action.isFuse : Action → Bool
  | .fuse _ _ _ _ => true
  | _ => false

/-- The number of firings of Rule D, on nodes that satisfy `P`, when the
switch is applied to the nodes of a list in turn. -/
def fusions (P : NodeId → Bool) : List NodeId → Graph → Nat
  | [], _ => 0
  | k :: rest, g =>
    match matchNode g k with
    | .error _ => 0
    | .ok act => (if act.isFuse && P k then 1 else 0) + fusions P rest (perform g k act)

/-! ## Reference evaluation -/

/-- Modelled from the spec: a tensor of the reference evaluation, in exact
arithmetic: its scalar type, its device, its sizes, and the rational entry at
each index. -/
structure Tensor where
  scalarType : Nat
  device : Int
  sizes : List Int
  data : List Int → Rat

/-- Swap the two coordinates of a 2-D index. -/
def swapIndex : List Int → List Int
  | [i, j] => [j, i]
  | idx => idx

/-- Modelled from the spec: the 2-D transpose of the reference evaluation,
defined on tensors with two dimensions. -/
def Tensor.t (x : Tensor) : Option Tensor :=
  match x.sizes with
  | [r, c] => some { x with sizes := [c, r], data := fun idx => x.data (swapIndex idx) }
  | _ => none

/-- The index read in a tensor of sizes `sizes` for the index `idx` of its
expansion to `target`: a coordinate along a dimension that is stretched reads
coordinate 0. -/
def alignIndex : List Int → List Int → List Int → List Int
  | s :: sizes, t :: target, i :: idx => (if s = t then i else 0) :: alignIndex sizes target idx
  | _, _, _ => []

/-- The sizes `sizes` can be stretched to `target`: the trailing dimensions
agree or have size 1 in `sizes`. -/
def stretches : List Int → List Int → Bool
  | [], [] => true
  | s :: sizes, t :: target => (s == t || s == 1) && stretches sizes target
  | _, _ => false

/-- Modelled from the spec: expand to a given size in the reference
evaluation.  The result has the given sizes; leading dimensions may be added
and dimensions of size 1 stretched. -/
def Tensor.expand (x : Tensor) (size : List Int) : Option Tensor :=
  if x.sizes.length ≤ size.length ∧
      stretches x.sizes (size.drop (size.length - x.sizes.length)) = true then
    some { x with
      sizes := size,
      data := fun idx =>
        if idx.length = size.length then
          x.data (alignIndex x.sizes (size.drop (size.length - x.sizes.length))
            (idx.drop (size.length - x.sizes.length)))
        else x.data idx }
  else none

/-- Modelled from the spec: `type_as` in the reference evaluation: the first
operand with the scalar type and the device of the second; in exact
arithmetic the entries are kept. -/
def Tensor.type_as (a b : Tensor) : Tensor :=
  { a with scalarType := b.scalarType, device := b.device }

/-- The sizes two operands are broadcast to, with the sizes listed from the
last dimension backwards: two dimensions are compatible when they are equal or
one of them is 1, and a missing leading dimension counts as 1. -/
def broadcastRev : List Int → List Int → Option (List Int)
  | [], t => some t
  | s :: ss, [] => some (s :: ss)
  | s :: ss, t :: ts =>
    if s = t ∨ t = 1 then (broadcastRev ss ts).map (fun r => s :: r)
    else if s = 1 then (broadcastRev ss ts).map (fun r => t :: r)
    else none

/-- The common sizes the two operands of an elementwise operator are broadcast
to, if their sizes are compatible. -/
def broadcastSizes (a b : List Int) : Option (List Int) :=
  (broadcastRev a.reverse b.reverse).map List.reverse

/-- Modelled from the spec: `add` with `alpha` in the reference evaluation:
both operands are broadcast to their common sizes and the result is
`a + alpha * b` entry by entry, with the type of the first operand.  On
operands of equal sizes the result has the shape of the first operand. -/
def Tensor.add (a b : Tensor) (alpha : Rat) : Option Tensor :=
  match broadcastSizes a.sizes b.sizes with
  | none => none
  | some size =>
    match a.expand size, b.expand size with
    | some a1, some b1 => some { a1 with data := fun idx => a1.data idx + alpha * b1.data idx }
    | _, _ => none

/-- Modelled from the spec: the matrix product of the reference evaluation. -/
def Tensor.mm (a b : Tensor) : Option Tensor :=
  match a.sizes, b.sizes with
  | [n, k], [k2, p] =>
    if k = k2 then
      some { scalarType := a.scalarType, device := a.device, sizes := [n, p],
             data := fun idx =>
               match idx with
               | [i, j] => ((List.range k.toNat).map
                   (fun l => a.data [i, (l : Int)] * b.data [(l : Int), j])).sum
               | _ => 0 }
    else none
  | _, _ => none

/-- Modelled from the spec: `addmm` in the reference evaluation,
matrix-multiply-then-add: the product `m1 · m2` is formed, `bias` and the
product are broadcast to their common sizes, and the result is
`beta * bias + alpha * (m1 · m2)` entry by entry, with the type of `bias`. -/
def Tensor.addmm (bias m1 m2 : Tensor) (beta alpha : Rat) : Option Tensor :=
  match m1.mm m2 with
  | none => none
  | some p =>
    match broadcastSizes bias.sizes p.sizes with
    | none => none
    | some size =>
      match bias.expand size, p.expand size with
      | some b1, some p1 =>
        some { b1 with data := fun idx => beta * b1.data idx + alpha * p1.data idx }
      | _, _ => none

/-- Modelled from the spec: the reference evaluation of one node of one of the
six kinds `expand`, `t`, `type_as`, `add`, `mm`, `addmm` on the values of its
inputs.  The result is `none` for a node of another kind or without the
operands or attributes of its kind, `some none` when the operator is not
defined on the operands, and `some (some r)` when the output of the node is
`r`. -/
def denote (nd : Node) (args : List Tensor) : Option (Option Tensor) :=
  match nd.kind, args with
  | .expand, [x] => nd.size.map (fun size => x.expand size)
  | .t, [x] => some x.t
  | .type_as, [a, b] => some (some (a.type_as b))
  | .add, [a, b] => nd.alpha.map (fun alpha => a.add b alpha)
  | .mm, [a, b] => some (a.mm b)
  | .addmm, [bias, m1, m2] =>
    match nd.beta, nd.alpha with
    | some beta, some alpha => some (bias.addmm m1 m2 beta alpha)
    | _, _ => none
  | _, _ => none

/-- Modelled from the spec: the assignment `env` of tensors to values is an
evaluation of the graph.  The output of every node of one of the six kinds of
the reference evaluation is the result of its operator on the values of its
inputs.  A node of any other operator kind computes each of its outputs from
the tensors it reads: `ops n j` is the function that node `n` (with its
attributes and nested blocks) computes for its output `j`.  The outputs of
`Param` nodes are the inputs and carry no equation. -/
structure Evaluates (g : Graph) (ops : NodeId → Nat → List Tensor → Tensor)
    (env : Value → Tensor) : Prop where
  known : ∀ n r, denote (g.node n) ((g.node n).inputs.map env) = some r →
    r = some (env ⟨n, 0⟩)
  other : ∀ n tag j, (g.node n).kind = .other tag → j < (g.node n).outputs.length →
    env ⟨n, j⟩ = ops n j ((g.node n).inputs.map env)

/-- The static tensor types of the graph are those of the values at run time. -/
def WellTyped (g : Graph) (env : Value → Tensor) : Prop :=
  ∀ v scalar device sizes strides, g.typeOf v = .TensorType scalar device sizes strides →
    (env v).scalarType = scalar ∧ (env v).device = device ∧ (env v).sizes = sizes

/-- The operators `t` and `mm` are used with their schema: one output, and two
inputs for `mm`. -/
def Graph.Schema (g : Graph) : Prop :=
  ∀ nd ∈ g.nodes, (nd.kind = .t → nd.outputs.length = 1) ∧
    (nd.kind = .mm → nd.inputs.length = 2 ∧ nd.outputs.length = 1)

instance (g : Graph) : Decidable g.Schema :=
  inferInstanceAs (Decidable (∀ nd ∈ g.nodes, _))

/-- The values of the graph outputs: those read by the return node of the
root block. -/
def graphOutputs (g : Graph) (env : Value → Tensor) : List Tensor :=
  (g.node (g.block 0).ret).inputs.map env

/-- Every evaluation of `g` carries over to `g1`: there is an evaluation of
`g1`, for the same functions of the other operators, that agrees with it on
the values of `g` and gives every input slot of a node of `g` the value it
had. -/
def Preserves (g g1 : Graph) : Prop :=
  ∀ ops env, Evaluates g ops env → WellTyped g env →
    ∃ env1, Evaluates g1 ops env1 ∧ WellTyped g1 env1 ∧
      (∀ v, v.node < g.nodes.length → env1 v = env v) ∧
      (∀ m, m < g.nodes.length → (g1.node m).inputs.map env1 = (g.node m).inputs.map env)

/-- A 2 x 3 float tensor on device 0 with the entries `3 i + j`. -/
def sampleTensor : Tensor :=
  { scalarType := 6, device := 0, sizes := [2, 3],
    data := fun idx =>
      match idx with
      | [i, j] => ((3 * i + j : Int) : Rat)
      | _ => 0 }

/-- A 3 x 4 float tensor on device 0 with the entries `i - 2 j`. -/
def sampleMatrix : Tensor :=
  { scalarType := 6, device := 0, sizes := [3, 4],
    data := fun idx =>
      match idx with
      | [i, j] => ((i - 2 * j : Int) : Rat)
      | _ => 0 }

/-- A float vector of 4 entries `j + 1` on device 0. -/
def sampleBias : Tensor :=
  { scalarType := 6, device := 0, sizes := [4],
    data := fun idx =>
      match idx with
      | [j] => ((j + 1 : Int) : Rat)
      | _ => 0 }

/-- One block `(a, b, bias) = param; t1 = t(a); t2 = t(t1); y = mm(t2, b);
z = add(bias, y, alpha = 1); u = use(z); return u`, where `bias` is a vector
that the `add` broadcasts along the rows of `y`. -/
def evalGraph : Graph :=
  { nodes := [ Node.op .Param [] [floatTensor [2, 3], floatTensor [3, 4], floatTensor [4]],
               Node.op .t [⟨0, 0⟩] [floatTensor [3, 2]],
               Node.op .t [⟨1, 0⟩] [floatTensor [2, 3]],
               Node.op .mm [⟨2, 0⟩, ⟨0, 1⟩] [floatTensor [2, 4]],
               { Node.op .add [⟨0, 2⟩, ⟨3, 0⟩] [floatTensor [2, 4]] with alpha := some 1 },
               Node.op (.other 7) [⟨4, 0⟩] [floatTensor [2, 4]],
               Node.op .Return [⟨5, 0⟩] [] ],
    blocks := [ { param := 0, nodes := [1, 2, 3, 4, 5], ret := 6 } ] }

/-- What `PeepholeOptimize` makes of `evalGraph`: the root block is
`f = addmm(bias, a, b); u = use(f); return u` with the fused node in slot 7,
and the slots of the removed nodes read as absent. -/
def evalOptimized : Graph :=
  { nodes := [ Node.op .Param [] [floatTensor [2, 3], floatTensor [3, 4], floatTensor [4]],
               Node.absent,
               Node.absent,
               Node.absent,
               Node.absent,
               Node.op (.other 7) [⟨7, 0⟩] [floatTensor [2, 4]],
               Node.op .Return [⟨5, 0⟩] [],
               { Node.op .addmm [⟨0, 2⟩, ⟨0, 0⟩, ⟨0, 1⟩] [floatTensor [2, 4]] with
                 alpha := some 1, beta := some 1 } ],
    blocks := [ { param := 0, nodes := [7, 5], ret := 6 } ] }

/-- The functions of the other operators in the sample evaluation: every node
returns the first tensor it reads. -/
def sampleOps (_ : NodeId) (_ : Nat) (args : List Tensor) : Tensor :=
  args.headD sampleTensor

/-- The transpose of `sampleTensor`. -/
def sampleT1 : Tensor := (sampleTensor.t).getD sampleTensor

/-- The transpose of `sampleT1`. -/
def sampleT2 : Tensor := (sampleT1.t).getD sampleTensor

/-- The product of `sampleT2` and `sampleMatrix`. -/
def sampleY : Tensor := (sampleT2.mm sampleMatrix).getD sampleTensor

/-- The sum of `sampleBias`, broadcast along the rows, and `sampleY`. -/
def sampleZ : Tensor := (sampleBias.add sampleY 1).getD sampleTensor

/-- An evaluation of `evalGraph` for `sampleOps`: the inputs are
`sampleTensor`, `sampleMatrix` and `sampleBias`, and every other value is the
result of its operator. -/
def sampleEnv (v : Value) : Tensor :=
  match v.node, v.offset with
  | 0, 1 => sampleMatrix
  | 0, 2 => sampleBias
  | 1, _ => sampleT1
  | 2, _ => sampleT2
  | 3, _ => sampleY
  | 4, _ => sampleZ
  | 5, _ => sampleOps 5 0 [sampleZ]
  | _, _ => sampleTensor

/-! ## Scopes -/

/-- The table of the blocks in a list, each checked by `chk` in the scope
`env`. -/
def scopesSub (chk : List NodeId → BlockId → List (NodeId × List NodeId))
    (env : List NodeId) : List BlockId → List (NodeId × List NodeId)
  | [] => []
  | sb :: rest => chk env sb ++ scopesSub chk env rest

/-- The table of a node list followed by the return node `ret`: each node with
the nodes in scope at it, then the tables of its nested blocks (in the same
scope), then the rest of the list with the node added to the scope. -/
def scopesNodes (chk : List NodeId → BlockId → List (NodeId × List NodeId))
    (sub : NodeId → List BlockId) (ret : NodeId) :
    List NodeId → List NodeId → List (NodeId × List NodeId)
  | env, [] => [(ret, env)]
  | env, n :: rest =>
    (n, env) :: (scopesSub chk env (sub n) ++ scopesNodes chk sub ret (n :: env) rest)

/-- The table of block `b` entered with the nodes `env` in scope: each node of
the block and of the blocks nested in it, at any depth up to `fuel`, with the
nodes in scope at it, that is the nodes that occur earlier in the same block
or in an enclosing block, parameter nodes included. -/
def scopesCore (blocks : List Block) (sub : NodeId → List BlockId) :
    Nat → List NodeId → BlockId → List (NodeId × List NodeId)
  | 0, _, _ => []
  | fuel + 1, env, b =>
    match blocks[b]? with
    | none => []
    | some blk =>
      (blk.param, env) ::
        scopesNodes (scopesCore blocks sub fuel) sub blk.ret (blk.param :: env) blk.nodes

/-- The table of the graph: every node of the root block and of the blocks
nested in it, with the nodes in scope at it. -/
def Graph.scopes (g : Graph) (fuel : Nat) : List (NodeId × List NodeId) :=
  scopesCore g.blocks (fun n => (g.node n).blocks) fuel [] 0

/-- Well-ordering: every value used by a node (return nodes included) is
defined by a node, or is an input of a block, that occurs earlier in the same
block or in an enclosing block. -/
def WellOrdered (fuel : Nat) (g : Graph) : Prop :=
  ∀ e ∈ g.scopes fuel, ∀ v ∈ (g.node e.1).inputs, v.node ∈ e.2

instance (fuel : Nat) (g : Graph) : Decidable (WellOrdered fuel g) :=
  inferInstanceAs (Decidable (∀ e ∈ g.scopes fuel, ∀ v ∈ (g.node e.1).inputs, v.node ∈ e.2))

/-- The nodes of the blocks are nodes of the arena. -/
def Listed (fuel : Nat) (g : Graph) : Prop :=
  ∀ e ∈ g.scopes fuel, e.1 < g.nodes.length

instance (fuel : Nat) (g : Graph) : Decidable (Listed fuel g) :=
  inferInstanceAs (Decidable (∀ e ∈ g.scopes fuel, e.1 < g.nodes.length))

/-- The inputs of the blocks are nodes of kind `Param`. -/
def ParamKinds (g : Graph) : Prop :=
  ∀ blk ∈ g.blocks, (g.node blk.param).kind = .Param

instance (g : Graph) : Decidable (ParamKinds g) :=
  inferInstanceAs (Decidable (∀ blk ∈ g.blocks, (g.node blk.param).kind = .Param))

/-- Scope `env1` extends scope `env`, and holds `a` when `env` holds `k`. -/
def ScopeExt (k a : NodeId) (env env1 : List NodeId) : Prop :=
  (∀ p ∈ env, p ∈ env1) ∧ (k ∈ env → a ∈ env1)

/-! ## Transpose chains -/

/-- A chain of `k` transposes `t_1 = t(x), t_2 = t(t_1), ..., t_k = t(t_{k-1})`
in the graph, with `c i` the node of `t_{i+1}`: every `c i` is an `aten::t`
node, the first reads `x`, each next one reads the output of the one before,
`x` is not produced by an `aten::t` node, and each transpose but the last is
consumed by the next one only. -/
structure TransposeChain (g : Graph) (c : Nat → NodeId) (k : Nat) (x : Value) : Prop where
  pos : 0 < k
  kind : ∀ i, i < k → (g.node (c i)).kind = .t
  first : (g.node (c 0)).inputs = [x]
  next : ∀ i, i < k - 1 → (g.node (c (i + 1))).inputs = [⟨c i, 0⟩]
  source : (g.node x.node).kind ≠ .t
  only : ∀ i, i < k - 1 → ∀ m, m < g.nodes.length → ∀ v ∈ (g.node m).inputs,
    v.node = c i → m = c (i + 1)

/-- A rule fires on node `p`: in the run of the switch over the nodes of the
list in turn, the switch decides a rewrite (Rule A, B, C or D) when it is
applied to `p`. -/
def rewritesAt (p : NodeId) : List NodeId → Graph → Bool
  | [], _ => false
  | k :: rest, g =>
    match matchNode g k with
    | .error _ => false
    | .ok act => (decide (k = p) && decide (act ≠ .skip)) || rewritesAt p rest (perform g k act)

/-- The input of `c i` once the nodes of `pre` have been visited: `x` for the
first transpose and for an odd-numbered transpose `t_{i+1}` whose predecessor
`t_i` has been visited (and has fired), the output of the predecessor
otherwise. -/
def chainInput (c : Nat → NodeId) (x : Value) (pre : List NodeId) (i : Nat) : Value :=
  if i = 0 then x else if i % 2 = 0 ∧ c (i - 1) ∈ pre then x else ⟨c (i - 1), 0⟩

/-- The state of a chain after the visit of the nodes of `pre`, in the graph
`g1` reached from `g`. -/
structure ChainInv (g : Graph) (rank : NodeId → Nat) (c : Nat → NodeId) (k : Nat) (x : Value)
    (pre : List NodeId) (g1 : Graph) : Prop where
  ext : Extends g g1
  ranked : ∃ rank1, Ranked g1 rank1 ∧ ∀ n, n < g.nodes.length → rank1 n = rank n
  inputs : ∀ i, i < k → (g1.node (c i)).inputs = [chainInput c x pre i]
  slots : ∀ m s, g.reads m s ⟨c (k - 1), 0⟩ →
    g1.reads m s (if k % 2 = 0 ∧ c (k - 1) ∈ pre then x else ⟨c (k - 1), 0⟩)
  only : ∀ i, i < k - 1 → ∀ m, ∀ v ∈ (g1.node m).inputs, v.node = c i → m = c (i + 1)
  unused : ∀ i, i < k → i % 2 = 1 → c i ∈ pre → Unused g1 (c i)

/-- Block `b` is the root block or is nested, at any depth, in a node of the
root block. -/
inductive Under (g : Graph) : BlockId → Prop where
  | root : Under g 0
  | nested {b : BlockId} {m : NodeId} {sb : BlockId} :
      Under g b → m ∈ (g.block b).nodes → sb ∈ (g.node m).blocks → Under g sb

/-- One block `w = param; s = t(w); x = expand(s, size = [2, 3]); t1 = t(x);
u = use(t1); return u`: the value `x` read by the transpose `t1` is the
output of an `expand` to the sizes `s` already has. -/
def chainBreakGraph : Graph :=
  { nodes := [ Node.op .Param [] [floatTensor [3, 2]],
               Node.op .t [⟨0, 0⟩] [floatTensor [2, 3]],
               { Node.op .expand [⟨1, 0⟩] [floatTensor [2, 3]] with size := some [2, 3] },
               Node.op .t [⟨2, 0⟩] [floatTensor [3, 2]],
               Node.op (.other 7) [⟨3, 0⟩] [.DynamicType],
               Node.op .Return [⟨4, 0⟩] [] ],
    blocks := [ { param := 0, nodes := [1, 2, 3, 4], ret := 5 } ] }

/-- One block `w = param; x = expand(w, size = [2, 3]); t1 = t(x); t2 = t(t1);
t3 = t(t2); t4 = t(t3); u = use(t4); return u`: the `expand` changes the sizes
of `w`, so that no rule fires on it. -/
def idleExpandChain : Graph :=
  { nodes := [ Node.op .Param [] [floatTensor [1, 3]],
               { Node.op .expand [⟨0, 0⟩] [floatTensor [2, 3]] with size := some [2, 3] },
               Node.op .t [⟨1, 0⟩] [floatTensor [3, 2]],
               Node.op .t [⟨2, 0⟩] [floatTensor [2, 3]],
               Node.op .t [⟨3, 0⟩] [floatTensor [3, 2]],
               Node.op .t [⟨4, 0⟩] [floatTensor [2, 3]],
               Node.op (.other 7) [⟨5, 0⟩] [.DynamicType],
               Node.op .Return [⟨6, 0⟩] [] ],
    blocks := [ { param := 0, nodes := [1, 2, 3, 4, 5, 6], ret := 7 } ] }

/-! ## The fused pair -/

/-- The state of a pair `z = add(_, y)`, with `n` the node of `z` and `y` an
output of an `mm` node, after the visit of the nodes of `pre`, in the graph
`g1` reached from `g`: input slot 1 of `n` holds `y`, no other input slot of
the arena holds an output of the `mm` node, and once `n` has been visited no
node consumes an output of `n`. -/
structure FusedPair (g : Graph) (rank : NodeId → Nat) (n : NodeId) (y : Value)
    (pre : List NodeId) (g1 : Graph) : Prop where
  ext : Extends g g1
  ranked : ∃ rank1, Ranked g1 rank1 ∧ ∀ m, m < g.nodes.length → rank1 m = rank m
  alpha : (g1.node n).alpha = some 1
  slot : g1.reads n 1 y
  only : ∀ m s v, g1.reads m s v → v.node = y.node → m = n ∧ s = 1
  unused : n ∈ pre → Unused g1 n

/-- One block `(m1, m2, b) = param; bias = expand(b, size = [2, 4]);
y = mm(m1, m2); z = add(bias, y, alpha = 1); u = use(z); return u`: the
first operand of the `add` is the output of an `expand` to the sizes `b`
already has. -/
def biasExpandGraph : Graph :=
  { nodes := [ Node.op .Param [] [floatTensor [2, 3], floatTensor [3, 4], floatTensor [2, 4]],
               { Node.op .expand [⟨0, 2⟩] [floatTensor [2, 4]] with size := some [2, 4] },
               Node.op .mm [⟨0, 0⟩, ⟨0, 1⟩] [floatTensor [2, 4]],
               { Node.op .add [⟨1, 0⟩, ⟨2, 0⟩] [floatTensor [2, 4]] with alpha := some 1 },
               Node.op (.other 7) [⟨3, 0⟩] [.DynamicType],
               Node.op .Return [⟨4, 0⟩] [] ],
    blocks := [ { param := 0, nodes := [1, 2, 3, 4], ret := 5 } ] }

/-! ## Lemmas on the IR primitives -/

theorem substInputs_length (v w : Value) (ins : List Value) :
    (substInputs v w ins).length = ins.length := by
  simp [substInputs]

theorem substInputs_getElem? (v w : Value) (ins : List Value) (i : Nat) :
    (substInputs v w ins)[i]? = (ins[i]?).map (fun u => if u = v then w else u) := by
  simp [substInputs]

theorem node_replaceAllUsesWith (g : Graph) (v w : Value) (m : NodeId) :
    (g.replaceAllUsesWith v w).node m =
      { g.node m with inputs := substInputs v w (g.node m).inputs } := by
  unfold Graph.node Graph.replaceAllUsesWith
  simp only [List.getD_eq_getElem?_getD, List.getElem?_map]
  cases g.nodes[m]? <;> simp [Node.absent, substInputs]

theorem block_replaceAllUsesWith (g : Graph) (v w : Value) (b : BlockId) :
    (g.replaceAllUsesWith v w).block b = g.block b := rfl

theorem rewired_slot (g : Graph) (v w : Value) (m : NodeId) (i : Nat)
    (h : (g.node m).inputs[i]? = some v) :
    ((g.replaceAllUsesWith v w).node m).inputs[i]? = some w := by
  simp [node_replaceAllUsesWith, substInputs_getElem?, h]

theorem no_slot_left (g : Graph) (v w : Value) (hvw : w ≠ v) (m : NodeId) (i : Nat) :
    ((g.replaceAllUsesWith v w).node m).inputs[i]? ≠ some v := by
  simp only [node_replaceAllUsesWith, substInputs_getElem?]
  cases h : (g.node m).inputs[i]? with
  | none => simp
  | some u =>
    simp only [Option.map_some', ne_eq, Option.some.injEq]
    split
    · exact hvw
    · assumption

theorem insertBefore_of_not_mem (new n : NodeId) (l : List NodeId) (h : n ∉ l) :
    insertBefore new n l = l := by
  induction l with
  | nil => rfl
  | cons m rest ih =>
    have hm : m ≠ n := fun e => h (by simp [e])
    have hr : n ∉ rest := fun e => h (by simp [e])
    simp [insertBefore, hm, ih hr]

theorem insertBefore_split (new n : NodeId) (pre post : List NodeId) (h : n ∉ pre) :
    insertBefore new n (pre ++ n :: post) = pre ++ new :: n :: post := by
  induction pre with
  | nil => simp [insertBefore]
  | cons m rest ih =>
    have hm : m ≠ n := fun e => h (by simp [e])
    have hr : n ∉ rest := fun e => h (by simp [e])
    simp [insertBefore, hm, ih hr]

theorem node_insertAddmm_old (g : Graph) (n : NodeId) (a b c : Value) (m : NodeId)
    (hm : m < g.nodes.length) : (g.insertAddmm n a b c).1.node m = g.node m := by
  simp [Graph.insertAddmm, Graph.node, List.getD_eq_getElem?_getD, List.getElem?_append_left hm]

theorem node_insertAddmm_new (g : Graph) (n : NodeId) (a b c : Value) :
    (g.insertAddmm n a b c).1.node g.nodes.length =
      { kind := .addmm, inputs := [a, b, c], outputs := [.DynamicType], size := none,
        alpha := some 1, beta := some 1, blocks := [] } := by
  simp [Graph.insertAddmm, Graph.node, List.getD_eq_getElem?_getD]

theorem block_insertAddmm (g : Graph) (n : NodeId) (a b c : Value) (k : BlockId) :
    ((g.insertAddmm n a b c).1.block k).nodes =
      insertBefore g.nodes.length n (g.block k).nodes := by
  simp only [Graph.insertAddmm, Graph.block, List.getD_eq_getElem?_getD, List.getElem?_map]
  cases g.blocks[k]? <;> simp [Block.absent, insertBefore]

theorem block_insertAddmm_delimiters (g : Graph) (n : NodeId) (a b c : Value) (k : BlockId) :
    ((g.insertAddmm n a b c).1.block k).ret = (g.block k).ret ∧
    ((g.insertAddmm n a b c).1.block k).param = (g.block k).param := by
  simp only [Graph.insertAddmm, Graph.block, List.getD_eq_getElem?_getD, List.getElem?_map]
  cases g.blocks[k]? <;> simp [Block.absent]

theorem modifyNode_length (f : Node → Node) (i : Nat) (l : List Node) :
    (modifyNode f i l).length = l.length := by
  induction l generalizing i with
  | nil => simp [modifyNode]
  | cons nd rest ih => cases i <;> simp [modifyNode, ih]

theorem modifyNode_getElem? (f : Node → Node) (i : Nat) (l : List Node) (m : Nat) :
    (modifyNode f i l)[m]? = if m = i then (l[m]?).map f else l[m]? := by
  induction l generalizing i m with
  | nil => simp [modifyNode]
  | cons nd rest ih =>
    cases i with
    | zero => cases m <;> simp [modifyNode]
    | succ i => cases m <;> simp [modifyNode, ih]

theorem node_copyMetadata_inputs (g : Graph) (v src : Value) (m : NodeId) :
    ((g.copyMetadata v src).node m).inputs = (g.node m).inputs := by
  simp only [Graph.copyMetadata, Graph.node, List.getD_eq_getElem?_getD, modifyNode_getElem?]
  split <;> cases g.nodes[m]? <;> simp

theorem node_copyMetadata_kind (g : Graph) (v src : Value) (m : NodeId) :
    ((g.copyMetadata v src).node m).kind = (g.node m).kind := by
  simp only [Graph.copyMetadata, Graph.node, List.getD_eq_getElem?_getD, modifyNode_getElem?]
  split <;> cases g.nodes[m]? <;> simp

theorem node_copyMetadata_blocks (g : Graph) (v src : Value) (m : NodeId) :
    ((g.copyMetadata v src).node m).blocks = (g.node m).blocks := by
  simp only [Graph.copyMetadata, Graph.node, List.getD_eq_getElem?_getD, modifyNode_getElem?]
  split <;> cases g.nodes[m]? <;> simp

theorem node_copyMetadata_outputs_length (g : Graph) (v src : Value) (m : NodeId) :
    ((g.copyMetadata v src).node m).outputs.length = (g.node m).outputs.length := by
  simp only [Graph.copyMetadata, Graph.node, List.getD_eq_getElem?_getD, modifyNode_getElem?]
  split <;> cases g.nodes[m]? <;> simp

theorem node_absent_of_le (g : Graph) (m : NodeId) (h : g.nodes.length ≤ m) :
    g.node m = Node.absent := by
  simp [Graph.node, List.getD_eq_getElem?_getD, List.getElem?_eq_none h]

theorem lt_length_of_kind (g : Graph) (m : NodeId) (h : (g.node m).kind ≠ .other 0) :
    m < g.nodes.length := by
  by_contra hlt
  exact h (by rw [node_absent_of_le g m (Nat.le_of_not_lt hlt)]; rfl)

/-! ## The four rules, one node at a time -/

theorem rewriteNode_expand_fires (g : Graph) (n : NodeId) (x : Value)
    (scalar : Nat) (device : Int) (sizes strides : List Int)
    (hkind : (g.node n).kind = .expand)
    (hin : (g.node n).inputs = [x])
    (hty : g.typeOf x = .TensorType scalar device sizes strides)
    (hsize : (g.node n).size = some sizes)
    (hout : (g.node n).outputs.length = 1) :
    rewriteNode g n = .ok (g.replaceAllUsesWith ⟨n, 0⟩ x) := by
  simp [rewriteNode, hkind, Node.input, hin, hty, JitType.isTensor, hsize, Graph.output, hout]

theorem rewriteNode_t_fires (g : Graph) (n : NodeId) (y x : Value)
    (hkind : (g.node n).kind = .t)
    (hin : (g.node n).inputs = [y])
    (hkind2 : (g.node y.node).kind = .t)
    (hin2 : (g.node y.node).inputs = [x])
    (hout : (g.node n).outputs.length = 1) :
    rewriteNode g n = .ok (g.replaceAllUsesWith ⟨n, 0⟩ x) := by
  simp [rewriteNode, hkind, Node.input, hin, hkind2, hin2, Graph.output, hout]

theorem rewriteNode_type_as_fires (g : Graph) (n : NodeId) (lhs rhs : Value)
    (scalar : Nat) (device : Int) (lsizes lstrides rsizes rstrides : List Int)
    (hkind : (g.node n).kind = .type_as)
    (hin : (g.node n).inputs = [lhs, rhs])
    (hl : g.typeOf lhs = .TensorType scalar device lsizes lstrides)
    (hr : g.typeOf rhs = .TensorType scalar device rsizes rstrides)
    (hout : (g.node n).outputs.length = 1) :
    rewriteNode g n = .ok (g.replaceAllUsesWith ⟨n, 0⟩ lhs) := by
  simp [rewriteNode, hkind, Node.inputAt, hin, hl, hr, Graph.output, hout]

theorem rewriteNode_add_fires (g : Graph) (n : NodeId) (bias y m1 m2 : Value)
    (rest : List Value)
    (hkind : (g.node n).kind = .add)
    (hin : (g.node n).inputs = [bias, y])
    (halpha : (g.node n).alpha = some 1)
    (hkind2 : (g.node y.node).kind = .mm)
    (hin2 : (g.node y.node).inputs = m1 :: m2 :: rest)
    (hout : (g.node n).outputs.length = 1) :
    rewriteNode g n =
      .ok (((g.insertAddmm n bias m1 m2).1.copyMetadata ⟨g.nodes.length, 0⟩ ⟨n, 0⟩).replaceAllUsesWith
            ⟨n, 0⟩ ⟨g.nodes.length, 0⟩) := by
  have hn : n < g.nodes.length := lt_length_of_kind g n (by rw [hkind]; decide)
  have hout2 : ((g.insertAddmm n bias m1 m2).1.node n).outputs.length = 1 := by
    rw [node_insertAddmm_old g n bias m1 m2 n hn]; exact hout
  have hval : (g.insertAddmm n bias m1 m2).2 = ⟨g.nodes.length, 0⟩ := rfl
  simp [rewriteNode, hkind, Node.inputAt, hin, halpha, hkind2, hin2, Graph.output, hout2, hval]

/-- For a node without nested blocks the body of the node loop is the switch. -/
theorem visitNode_of_no_blocks (opt : Graph → BlockId → Except Failure Graph) (g : Graph)
    (n : NodeId) (h : (g.node n).blocks = []) : visitNode opt g n = rewriteNode g n := by
  simp [visitNode, h, optimizeSubBlocks]

/-- C1 (Rule A, positive).  Let `n` be an `aten::expand` node whose only input
`x` is tensor-typed with static sizes equal to the `size` attribute of `n`, in
a graph where `n` has its single output and does not consume it itself.  Then
the switch succeeds on `n`, every input slot (of any node, return nodes
included) that held the output of `n` holds `x` afterwards, and no input slot
holds the output of `n` any more. -/
theorem expand_rewires_consumers (g : Graph) (n : NodeId) (x : Value)
    (scalar : Nat) (device : Int) (sizes strides : List Int)
    (hkind : (g.node n).kind = .expand)
    (hin : (g.node n).inputs = [x])
    (hty : g.typeOf x = .TensorType scalar device sizes strides)
    (hsize : (g.node n).size = some sizes)
    (hout : (g.node n).outputs.length = 1)
    (hacyclic : x ≠ Value.mk n 0) :
    ∃ g', rewriteNode g n = .ok g' ∧
      (∀ m i, g.reads m i (Value.mk n 0) → g'.reads m i x) ∧
      (∀ m i, ¬ g'.reads m i (Value.mk n 0)) :=
  ⟨_, rewriteNode_expand_fires g n x scalar device sizes strides hkind hin hty hsize hout,
    fun m i h => rewired_slot g _ _ m i h, fun m i => no_slot_left g _ _ hacyclic m i⟩

/-- Witness of C1 on `expandGraph [2, 3]`, whose expand node is node 1. -/
theorem expand_rewires_consumers_witness :
    ∃ g', rewriteNode (expandGraph [2, 3]) 1 = .ok g' ∧
      (∀ m i, (expandGraph [2, 3]).reads m i (Value.mk 1 0) → g'.reads m i (Value.mk 0 0)) ∧
      (∀ m i, ¬ g'.reads m i (Value.mk 1 0)) :=
  expand_rewires_consumers (expandGraph [2, 3]) 1 ⟨0, 0⟩ 6 0 [2, 3] [] (by decide) (by decide)
    (by decide) (by decide) (by decide) (by decide)

/-- C2 (Rule B, positive).  Let `n` be an `aten::t` node whose only input `y` is
produced by an `aten::t` node with only input `x`, in a graph where `n` has its
single output and `x` is not that output.  Then the switch succeeds on `n`,
every input slot that held the output of `n` (however many there are) holds
`x` afterwards, and no input slot holds the output of `n` any more. -/
theorem double_transpose_rewires_consumers (g : Graph) (n : NodeId) (y x : Value)
    (hkind : (g.node n).kind = .t)
    (hin : (g.node n).inputs = [y])
    (hkind2 : (g.node y.node).kind = .t)
    (hin2 : (g.node y.node).inputs = [x])
    (hout : (g.node n).outputs.length = 1)
    (hacyclic : x ≠ Value.mk n 0) :
    ∃ g', rewriteNode g n = .ok g' ∧
      (∀ m i, g.reads m i (Value.mk n 0) → g'.reads m i x) ∧
      (∀ m i, ¬ g'.reads m i (Value.mk n 0)) :=
  ⟨_, rewriteNode_t_fires g n y x hkind hin hkind2 hin2 hout,
    fun m i h => rewired_slot g _ _ m i h, fun m i => no_slot_left g _ _ hacyclic m i⟩

/-- Witness of C2 on `transposeGraph`: the outer transpose is node 2 and has
the two consumers 3 and 4. -/
theorem double_transpose_rewires_consumers_witness :
    ∃ g', rewriteNode transposeGraph 2 = .ok g' ∧
      (∀ m i, transposeGraph.reads m i (Value.mk 2 0) → g'.reads m i (Value.mk 0 0)) ∧
      (∀ m i, ¬ g'.reads m i (Value.mk 2 0)) :=
  double_transpose_rewires_consumers transposeGraph 2 ⟨1, 0⟩ ⟨0, 0⟩ (by decide) (by decide)
    (by decide) (by decide) (by decide) (by decide)

/-- C3 (Rule C, positive).  Let `n` be an `aten::type_as` node with the two
inputs `lhs` and `rhs`, both tensor-typed with the same device and the same
scalar type, in a graph where `n` has its single output and `lhs` is not that
output.  Then the switch succeeds on `n`, every input slot that held the
output of `n` holds `lhs` afterwards, and no input slot holds the output of
`n` any more. -/
theorem type_as_rewires_consumers (g : Graph) (n : NodeId) (lhs rhs : Value)
    (scalar : Nat) (device : Int) (lsizes lstrides rsizes rstrides : List Int)
    (hkind : (g.node n).kind = .type_as)
    (hin : (g.node n).inputs = [lhs, rhs])
    (hl : g.typeOf lhs = .TensorType scalar device lsizes lstrides)
    (hr : g.typeOf rhs = .TensorType scalar device rsizes rstrides)
    (hout : (g.node n).outputs.length = 1)
    (hacyclic : lhs ≠ Value.mk n 0) :
    ∃ g', rewriteNode g n = .ok g' ∧
      (∀ m i, g.reads m i (Value.mk n 0) → g'.reads m i lhs) ∧
      (∀ m i, ¬ g'.reads m i (Value.mk n 0)) :=
  ⟨_, rewriteNode_type_as_fires g n lhs rhs scalar device lsizes lstrides rsizes rstrides
        hkind hin hl hr hout,
    fun m i h => rewired_slot g _ _ m i h, fun m i => no_slot_left g _ _ hacyclic m i⟩

/-- Witness of C3 on `typeAsGraph (floatTensor [5])`: both operands are float
tensors on device 0. -/
theorem type_as_rewires_consumers_witness :
    ∃ g', rewriteNode (typeAsGraph (floatTensor [5])) 1 = .ok g' ∧
      (∀ m i, (typeAsGraph (floatTensor [5])).reads m i (Value.mk 1 0) → g'.reads m i (Value.mk 0 0)) ∧
      (∀ m i, ¬ g'.reads m i (Value.mk 1 0)) :=
  type_as_rewires_consumers (typeAsGraph (floatTensor [5])) 1 ⟨0, 0⟩ ⟨0, 1⟩ 6 0 [2, 3] [] [5] []
    (by decide) (by decide) (by decide) (by decide) (by decide) (by decide)

/-- C4 (Rule D, positive).  Let `n` be an `aten::add` node with inputs
`(bias, y)` and `alpha = 1`, where `y` is produced by an `aten::mm` node with
operands `(m1, m2)`, in a graph where `n` has its single output and none of
the three operands is that output.  Then the switch succeeds on `n`; the
arena gains exactly one node, of kind `addmm` with inputs `(bias, m1, m2)`,
while the nodes already there keep their kind; in the block that lists `n`
the new node stands immediately before `n` and blocks that do not list `n`
keep their node list; and every input slot that held the output of `n` holds
the output of the new node afterwards, none holding the output of `n`. -/
theorem add_mm_fuses (g : Graph) (n : NodeId) (bias y m1 m2 : Value)
    (hkind : (g.node n).kind = .add)
    (hin : (g.node n).inputs = [bias, y])
    (halpha : (g.node n).alpha = some 1)
    (hkind2 : (g.node y.node).kind = .mm)
    (hin2 : (g.node y.node).inputs = [m1, m2])
    (hout : (g.node n).outputs.length = 1)
    (hbias : bias ≠ Value.mk n 0) (hm1 : m1 ≠ Value.mk n 0) (hm2 : m2 ≠ Value.mk n 0) :
    ∃ g', rewriteNode g n = .ok g' ∧
      g'.nodes.length = g.nodes.length + 1 ∧
      (∀ m, m < g.nodes.length → (g'.node m).kind = (g.node m).kind) ∧
      (g'.node g.nodes.length).kind = .addmm ∧
      (g'.node g.nodes.length).inputs = [bias, m1, m2] ∧
      (∀ b pre post, (g.block b).nodes = pre ++ n :: post → n ∉ pre →
        (g'.block b).nodes = pre ++ g.nodes.length :: n :: post) ∧
      (∀ b, n ∉ (g.block b).nodes → (g'.block b).nodes = (g.block b).nodes) ∧
      (∀ m i, g.reads m i (Value.mk n 0) → g'.reads m i (Value.mk g.nodes.length 0)) ∧
      (∀ m i, ¬ g'.reads m i (Value.mk n 0)) := by
  have hn : n < g.nodes.length := lt_length_of_kind g n (by rw [hkind]; decide)
  have hnew : Value.mk g.nodes.length 0 ≠ Value.mk n 0 := by
    intro h
    have h1 : g.nodes.length = n := congrArg Value.node h
    exact absurd h1 (Nat.ne_of_gt hn)
  refine ⟨_, rewriteNode_add_fires g n bias y m1 m2 [] hkind hin halpha hkind2 hin2 hout,
    ?_, ?_, ?_, ?_, ?_, ?_, ?_, ?_⟩
  · simp [Graph.replaceAllUsesWith, Graph.copyMetadata, modifyNode_length, Graph.insertAddmm]
  · intro m hm
    rw [node_replaceAllUsesWith, node_copyMetadata_kind, node_insertAddmm_old g n _ _ _ m hm]
  · rw [node_replaceAllUsesWith, node_copyMetadata_kind, node_insertAddmm_new]
  · rw [node_replaceAllUsesWith, node_copyMetadata_inputs, node_insertAddmm_new]
    simp [substInputs, hbias, hm1, hm2]
  · intro b pre post hb hpre
    rw [block_replaceAllUsesWith]
    show ((g.insertAddmm n bias m1 m2).1.block b).nodes = _
    rw [block_insertAddmm, hb, insertBefore_split _ _ _ _ hpre]
  · intro b hb
    rw [block_replaceAllUsesWith]
    show ((g.insertAddmm n bias m1 m2).1.block b).nodes = _
    rw [block_insertAddmm, insertBefore_of_not_mem _ _ _ hb]
  · intro m i h
    apply rewired_slot
    have hm : m < g.nodes.length := by
      by_contra hlt
      have := node_absent_of_le g m (Nat.le_of_not_lt hlt)
      simp [Graph.reads, this, Node.absent] at h
    rw [node_copyMetadata_inputs, node_insertAddmm_old g n _ _ _ m hm]
    exact h
  · intro m i
    exact no_slot_left _ _ _ hnew m i

/-- Witness of C4 on `addmmGraph (some 1)`: the add is node 2, the new node is
node 4 and the block becomes `[1, 4, 2]`. -/
theorem add_mm_fuses_witness :
    ∃ g', rewriteNode (addmmGraph (some 1)) 2 = .ok g' ∧
      g'.nodes.length = (addmmGraph (some 1)).nodes.length + 1 ∧
      (∀ m, m < (addmmGraph (some 1)).nodes.length →
        (g'.node m).kind = ((addmmGraph (some 1)).node m).kind) ∧
      (g'.node (addmmGraph (some 1)).nodes.length).kind = .addmm ∧
      (g'.node (addmmGraph (some 1)).nodes.length).inputs = [⟨0, 2⟩, ⟨0, 0⟩, ⟨0, 1⟩] ∧
      (∀ b pre post, ((addmmGraph (some 1)).block b).nodes = pre ++ 2 :: post → 2 ∉ pre →
        (g'.block b).nodes = pre ++ (addmmGraph (some 1)).nodes.length :: 2 :: post) ∧
      (∀ b, 2 ∉ ((addmmGraph (some 1)).block b).nodes →
        (g'.block b).nodes = ((addmmGraph (some 1)).block b).nodes) ∧
      (∀ m i, (addmmGraph (some 1)).reads m i (Value.mk 2 0) →
        g'.reads m i (Value.mk (addmmGraph (some 1)).nodes.length 0)) ∧
      (∀ m i, ¬ g'.reads m i (Value.mk 2 0)) :=
  add_mm_fuses (addmmGraph (some 1)) 2 ⟨0, 2⟩ ⟨1, 0⟩ ⟨0, 0⟩ ⟨0, 1⟩ (by decide) (by decide)
    (by decide) (by decide) (by decide) (by decide) (by decide) (by decide) (by decide)

/-- C8 (Rule A, negative).  Let `n` be an `aten::expand` node with the single
input `x`.  If `x` is not tensor-typed (which is how an unknown static shape
shows), or the `size` attribute of `n` is not the list of static sizes of
`x`, the switch returns the graph it was given. -/
theorem expand_mismatch_unchanged (g : Graph) (n : NodeId) (x : Value)
    (hkind : (g.node n).kind = .expand)
    (hin : (g.node n).inputs = [x])
    (hguard : ∀ scalar device sizes strides,
      g.typeOf x = .TensorType scalar device sizes strides → (g.node n).size ≠ some sizes) :
    rewriteNode g n = .ok g := by
  cases hty : g.typeOf x with
  | DynamicType => simp [rewriteNode, hkind, Node.input, hin, hty, JitType.isTensor]
  | OtherType tag => simp [rewriteNode, hkind, Node.input, hin, hty, JitType.isTensor]
  | TensorType scalar device sizes strides =>
    have := hguard scalar device sizes strides hty
    simp [rewriteNode, hkind, Node.input, hin, hty, JitType.isTensor, this]

/-- Witness of C8 on `expandGraph [2, 4]`: the input has sizes `[2, 3]` and the
target size is larger by one in the last dimension. -/
theorem expand_mismatch_unchanged_witness :
    rewriteNode (expandGraph [2, 4]) 1 = .ok (expandGraph [2, 4]) :=
  expand_mismatch_unchanged (expandGraph [2, 4]) 1 ⟨0, 0⟩ (by decide) (by decide)
    (by
      intro scalar device sizes strides h
      have h2 : (expandGraph [2, 4]).typeOf ⟨0, 0⟩ = .TensorType 6 0 [2, 3] [] := by decide
      rw [h2] at h
      injection h with _ _ h3 _
      subst h3
      decide)

/-- C9 (Rule C, negative).  Let `n` be an `aten::type_as` node with the two
inputs `lhs` and `rhs`.  If one of them is not tensor-typed, or their devices
differ, or their scalar types differ, the switch returns the graph it was
given. -/
theorem type_as_mismatch_unchanged (g : Graph) (n : NodeId) (lhs rhs : Value)
    (hkind : (g.node n).kind = .type_as)
    (hin : (g.node n).inputs = [lhs, rhs])
    (hguard : ∀ lscalar ldevice lsizes lstrides rscalar rdevice rsizes rstrides,
      g.typeOf lhs = .TensorType lscalar ldevice lsizes lstrides →
      g.typeOf rhs = .TensorType rscalar rdevice rsizes rstrides →
      ldevice ≠ rdevice ∨ lscalar ≠ rscalar) :
    rewriteNode g n = .ok g := by
  cases hl : g.typeOf lhs with
  | DynamicType => simp [rewriteNode, hkind, Node.inputAt, hin, hl]
  | OtherType tag => simp [rewriteNode, hkind, Node.inputAt, hin, hl]
  | TensorType lscalar ldevice lsizes lstrides =>
    cases hr : g.typeOf rhs with
    | DynamicType => simp [rewriteNode, hkind, Node.inputAt, hin, hl, hr]
    | OtherType tag => simp [rewriteNode, hkind, Node.inputAt, hin, hl, hr]
    | TensorType rscalar rdevice rsizes rstrides =>
      have := hguard _ _ _ _ _ _ _ _ hl hr
      simp [rewriteNode, hkind, Node.inputAt, hin, hl, hr]
      intro h1 h2
      cases this with
      | inl h => exact absurd h1 h
      | inr h => exact absurd h2 h

/-- Witness of C9 on a `type_as` whose right operand is a float tensor on
device 1 while the left one is on device 0. -/
theorem type_as_mismatch_unchanged_witness :
    rewriteNode (typeAsGraph (.TensorType 6 1 [2, 3] [])) 1
      = .ok (typeAsGraph (.TensorType 6 1 [2, 3] [])) :=
  type_as_mismatch_unchanged (typeAsGraph (.TensorType 6 1 [2, 3] [])) 1 ⟨0, 0⟩ ⟨0, 1⟩
    (by decide) (by decide)
    (by
      intro lscalar ldevice lsizes lstrides rscalar rdevice rsizes rstrides hl hr
      have h1 : (typeAsGraph (.TensorType 6 1 [2, 3] [])).typeOf ⟨0, 0⟩
          = .TensorType 6 0 [2, 3] [] := by decide
      have h2 : (typeAsGraph (.TensorType 6 1 [2, 3] [])).typeOf ⟨0, 1⟩
          = .TensorType 6 1 [2, 3] [] := by decide
      rw [h1] at hl
      rw [h2] at hr
      injection hl with _ hl2 _ _
      injection hr with _ hr2 _ _
      subst hl2
      subst hr2
      left
      decide)

/-- C10 (Rule D, negative).  Let `n` be an `aten::add` node whose `alpha`
attribute is absent or is not exactly 1.  Then, whatever produces its second
input, the switch returns the graph it was given: no node is inserted and no
consumer is rewired. -/
theorem add_alpha_not_one_unchanged (g : Graph) (n : NodeId)
    (hkind : (g.node n).kind = .add)
    (halpha : (g.node n).alpha ≠ some 1) :
    rewriteNode g n = .ok g := by
  simp [rewriteNode, hkind, halpha]

/-- Witness of C10 on `addmmGraph` with `alpha = 1/2`, whose second input is
produced by an `aten::mm` node. -/
theorem add_alpha_not_one_unchanged_witness :
    rewriteNode (addmmGraph (some (mkRat 1 2))) 2 = .ok (addmmGraph (some (mkRat 1 2))) :=
  add_alpha_not_one_unchanged (addmmGraph (some (mkRat 1 2))) 2 (by decide) (by decide)

/-! ## What the traversal keeps -/

theorem extends_refl (g : Graph) : Extends g g where
  length_le := Nat.le_refl _
  kind_eq := fun _ _ => rfl
  inputs_length := fun _ _ => rfl
  outputs_length := fun _ _ => rfl
  new_kind := fun _ h1 h2 => absurd h2 (Nat.not_lt.mpr h1)
  blocks_eq := fun _ => rfl
  mem_nodes := fun _ _ h => h
  mem_old_or_new := fun _ _ h => Or.inl h
  blocks_length := rfl
  ret_eq := fun _ => rfl
  param_eq := fun _ => rfl

theorem extends_trans {g g1 g2 : Graph} (h1 : Extends g g1) (h2 : Extends g1 g2) :
    Extends g g2 where
  length_le := Nat.le_trans h1.length_le h2.length_le
  kind_eq := fun n hn => by
    rw [h2.kind_eq n (Nat.lt_of_lt_of_le hn h1.length_le), h1.kind_eq n hn]
  inputs_length := fun n hn => by
    rw [h2.inputs_length n (Nat.lt_of_lt_of_le hn h1.length_le), h1.inputs_length n hn]
  outputs_length := fun n hn => by
    rw [h2.outputs_length n (Nat.lt_of_lt_of_le hn h1.length_le), h1.outputs_length n hn]
  new_kind := fun n hge hlt => by
    by_cases hn : n < g1.nodes.length
    · rw [h2.kind_eq n hn]; exact h1.new_kind n hge hn
    · exact h2.new_kind n (Nat.le_of_not_lt hn) hlt
  blocks_eq := fun n => by rw [h2.blocks_eq, h1.blocks_eq]
  mem_nodes := fun b n h => h2.mem_nodes b n (h1.mem_nodes b n h)
  mem_old_or_new := fun b n h => by
    cases h2.mem_old_or_new b n h with
    | inl h3 => exact h1.mem_old_or_new b n h3
    | inr h3 => exact Or.inr (Nat.le_trans h1.length_le h3)
  blocks_length := by rw [h2.blocks_length, h1.blocks_length]
  ret_eq := fun b => by rw [h2.ret_eq, h1.ret_eq]
  param_eq := fun b => by rw [h2.param_eq, h1.param_eq]

theorem extends_replaceAllUsesWith (g : Graph) (v w : Value) :
    Extends g (g.replaceAllUsesWith v w) where
  length_le := by simp [Graph.replaceAllUsesWith]
  kind_eq := fun n _ => by rw [node_replaceAllUsesWith]
  inputs_length := fun n _ => by rw [node_replaceAllUsesWith]; simp [substInputs_length]
  outputs_length := fun n _ => by rw [node_replaceAllUsesWith]
  new_kind := fun n h1 h2 => by
    simp [Graph.replaceAllUsesWith] at h2
    exact absurd h2 (Nat.not_lt.mpr h1)
  blocks_eq := fun n => by rw [node_replaceAllUsesWith]
  mem_nodes := fun _ _ h => h
  mem_old_or_new := fun _ _ h => Or.inl h
  blocks_length := rfl
  ret_eq := fun _ => rfl
  param_eq := fun _ => rfl

theorem copyMetadata_length (g : Graph) (v src : Value) :
    (g.copyMetadata v src).nodes.length = g.nodes.length := by
  simp [Graph.copyMetadata, modifyNode_length]

theorem extends_copyMetadata (g : Graph) (v src : Value) :
    Extends g (g.copyMetadata v src) where
  length_le := by rw [copyMetadata_length]
  kind_eq := fun n _ => node_copyMetadata_kind g v src n
  inputs_length := fun n _ => by rw [node_copyMetadata_inputs]
  outputs_length := fun n _ => node_copyMetadata_outputs_length g v src n
  new_kind := fun n h1 h2 => by
    rw [copyMetadata_length] at h2
    exact absurd h2 (Nat.not_lt.mpr h1)
  blocks_eq := fun n => node_copyMetadata_blocks g v src n
  mem_nodes := fun _ _ h => h
  mem_old_or_new := fun _ _ h => Or.inl h
  blocks_length := rfl
  ret_eq := fun _ => rfl
  param_eq := fun _ => rfl

theorem mem_insertBefore (new n m : NodeId) (l : List NodeId) :
    m ∈ insertBefore new n l ↔ m ∈ l ∨ (m = new ∧ n ∈ l) := by
  induction l with
  | nil => simp [insertBefore]
  | cons a rest ih =>
    by_cases ha : a = n
    · subst ha
      simp [insertBefore]
      tauto
    · simp only [insertBefore, ha, if_false, List.mem_cons, ih]
      constructor
      · rintro (h | h | h)
        · exact Or.inl (Or.inl h)
        · exact Or.inl (Or.inr h)
        · exact Or.inr ⟨h.1, Or.inr h.2⟩
      · rintro ((h | h) | ⟨h1, h2 | h2⟩)
        · exact Or.inl h
        · exact Or.inr (Or.inl h)
        · exact absurd h2.symm ha
        · exact Or.inr (Or.inr ⟨h1, h2⟩)

theorem insertAddmm_length (g : Graph) (n : NodeId) (a b c : Value) :
    (g.insertAddmm n a b c).1.nodes.length = g.nodes.length + 1 := by
  simp [Graph.insertAddmm]

theorem extends_insertAddmm (g : Graph) (n : NodeId) (a b c : Value) :
    Extends g (g.insertAddmm n a b c).1 where
  length_le := by rw [insertAddmm_length]; exact Nat.le_succ _
  kind_eq := fun m hm => by rw [node_insertAddmm_old g n a b c m hm]
  inputs_length := fun m hm => by rw [node_insertAddmm_old g n a b c m hm]
  outputs_length := fun m hm => by rw [node_insertAddmm_old g n a b c m hm]
  new_kind := fun m h1 h2 => by
    rw [insertAddmm_length] at h2
    have : m = g.nodes.length := Nat.le_antisymm (Nat.le_of_lt_succ h2) h1
    subst this
    rw [node_insertAddmm_new]
  blocks_eq := fun m => by
    by_cases hm : m < g.nodes.length
    · rw [node_insertAddmm_old g n a b c m hm]
    · have hle := Nat.le_of_not_lt hm
      rw [node_absent_of_le g m hle]
      rcases Nat.eq_or_lt_of_le hle with h | h
      · subst h
        rw [node_insertAddmm_new]
        rfl
      · rw [node_absent_of_le]
        rw [insertAddmm_length]
        exact h
  mem_nodes := fun k m h => by
    rw [block_insertAddmm, mem_insertBefore]
    exact Or.inl h
  mem_old_or_new := fun k m h => by
    rw [block_insertAddmm, mem_insertBefore] at h
    cases h with
    | inl h => exact Or.inl h
    | inr h => exact Or.inr (Nat.le_of_eq h.1.symm)
  blocks_length := by simp [Graph.insertAddmm]
  ret_eq := fun k => (block_insertAddmm_delimiters g n a b c k).1
  param_eq := fun k => (block_insertAddmm_delimiters g n a b c k).2

/-- The three shapes of a successful result of the switch. -/
theorem rewriteNode_cases (g : Graph) (n : NodeId) (g1 : Graph)
    (h : rewriteNode g n = .ok g1) :
    g1 = g ∨ (∃ v w, g1 = g.replaceAllUsesWith v w) ∨
      (∃ a b c out, g1 = ((g.insertAddmm n a b c).1.copyMetadata ⟨g.nodes.length, 0⟩
          out).replaceAllUsesWith out ⟨g.nodes.length, 0⟩) := by
  unfold rewriteNode at h
  simp only at h
  repeat' split at h
  all_goals first
    | (cases h; done)
    | (injection h with h; subst h; exact Or.inl rfl)
    | (injection h with h; subst h; exact Or.inr (Or.inl ⟨_, _, rfl⟩))
    | (injection h with h; subst h; exact Or.inr (Or.inr ⟨_, _, _, _, rfl⟩))

theorem rewriteNode_extends (g : Graph) (n : NodeId) (g1 : Graph)
    (h : rewriteNode g n = .ok g1) : Extends g g1 := by
  rcases rewriteNode_cases g n g1 h with h | ⟨v, w, h⟩ | ⟨a, b, c, out, h⟩
  · rw [h]; exact extends_refl g
  · subst h; exact extends_replaceAllUsesWith g v w
  · subst h
    exact extends_trans (extends_trans (extends_insertAddmm g n a b c)
      (extends_copyMetadata _ _ _)) (extends_replaceAllUsesWith _ _ _)

theorem optimizeSubBlocks_rel (R : Graph → Graph → Prop) (hrefl : ∀ g, R g g)
    (htrans : ∀ g g1 g2, R g g1 → R g1 g2 → R g g2)
    (opt : Graph → BlockId → Except Failure Graph)
    (hopt : ∀ g sb g1, opt g sb = .ok g1 → R g g1) :
    ∀ (l : List BlockId) (g g1 : Graph), optimizeSubBlocks opt l g = .ok g1 → R g g1 := by
  intro l
  induction l with
  | nil =>
    intro g g1 h
    simp only [optimizeSubBlocks] at h
    injection h with h
    subst h
    exact hrefl _
  | cons sb rest ih =>
    intro g g1 h
    simp only [optimizeSubBlocks] at h
    split at h
    · cases h
    · next g2 h2 => exact htrans _ _ _ (hopt _ _ _ h2) (ih _ _ h)

theorem visitNode_rel (R : Graph → Graph → Prop) (hrefl : ∀ g, R g g)
    (htrans : ∀ g g1 g2, R g g1 → R g1 g2 → R g g2)
    (opt : Graph → BlockId → Except Failure Graph)
    (hopt : ∀ g sb g1, opt g sb = .ok g1 → R g g1)
    (hrw : ∀ g n g1, rewriteNode g n = .ok g1 → R g g1)
    (g : Graph) (n : NodeId) (g1 : Graph) (h : visitNode opt g n = .ok g1) : R g g1 := by
  simp only [visitNode] at h
  split at h
  · cases h
  · next g2 h2 =>
    exact htrans _ _ _ (optimizeSubBlocks_rel R hrefl htrans opt hopt _ _ _ h2) (hrw _ _ _ h)

theorem visitNodes_rel (R : Graph → Graph → Prop) (hrefl : ∀ g, R g g)
    (htrans : ∀ g g1 g2, R g g1 → R g1 g2 → R g g2)
    (opt : Graph → BlockId → Except Failure Graph)
    (hopt : ∀ g sb g1, opt g sb = .ok g1 → R g g1)
    (hrw : ∀ g n g1, rewriteNode g n = .ok g1 → R g g1) :
    ∀ (l : List NodeId) (g g1 : Graph), visitNodes opt l g = .ok g1 → R g g1 := by
  intro l
  induction l with
  | nil =>
    intro g g1 h
    simp only [visitNodes] at h
    injection h with h
    subst h
    exact hrefl _
  | cons n rest ih =>
    intro g g1 h
    simp only [visitNodes] at h
    split at h
    · cases h
    · next g2 h2 =>
      exact htrans _ _ _ (visitNode_rel R hrefl htrans opt hopt hrw _ _ _ h2) (ih _ _ h)

/-- A reflexive and transitive relation that holds across every successful
switch holds across every successful traversal. -/
theorem PeepholeOptimizeBlock_rel (R : Graph → Graph → Prop) (hrefl : ∀ g, R g g)
    (htrans : ∀ g g1 g2, R g g1 → R g1 g2 → R g g2)
    (hrw : ∀ g n g1, rewriteNode g n = .ok g1 → R g g1) :
    ∀ (fuel : Nat) (g : Graph) (b : BlockId) (g1 : Graph),
      PeepholeOptimizeBlock fuel g b = .ok g1 → R g g1 := by
  intro fuel
  induction fuel with
  | zero => intro g b g1 h; cases h
  | succ fuel ih =>
    intro g b g1 h
    exact visitNodes_rel R hrefl htrans _ ih hrw _ _ _ h

theorem PeepholeOptimizeBlock_extends (fuel : Nat) (g : Graph) (b : BlockId) (g1 : Graph)
    (h : PeepholeOptimizeBlock fuel g b = .ok g1) : Extends g g1 :=
  PeepholeOptimizeBlock_rel Extends extends_refl (fun _ _ _ => extends_trans)
    rewriteNode_extends fuel g b g1 h

theorem block_absent_of_le (g : Graph) (b : BlockId) (h : g.blocks.length ≤ b) :
    g.block b = Block.absent := by
  simp [Graph.block, List.getD_eq_getElem?_getD, List.getElem?_eq_none h]

theorem nestedBelow_apply {g : Graph} {depth : BlockId → Nat} (h : g.NestedBelow depth)
    (b : BlockId) (n : NodeId) (sb : BlockId) (hn : n ∈ (g.block b).nodes)
    (hsb : sb ∈ (g.node n).blocks) : depth sb < depth b := by
  by_cases hb : b < g.blocks.length
  · exact h b hb n hn sb hsb
  · rw [block_absent_of_le g b (Nat.le_of_not_lt hb)] at hn
    simp [Block.absent] at hn

theorem optimizeSubBlocks_allowed (A : Failure → Prop) (I : Graph → Prop) (P : BlockId → Prop)
    (opt : Graph → BlockId → Except Failure Graph)
    (hopt : ∀ g sb, I g → P sb → Allowed A (opt g sb))
    (hpres : ∀ g sb g1, opt g sb = .ok g1 → I g → I g1) :
    ∀ (l : List BlockId) (g : Graph), I g → (∀ sb ∈ l, P sb) →
      Allowed A (optimizeSubBlocks opt l g) := by
  intro l
  induction l with
  | nil => intro g _ _; exact True.intro
  | cons sb rest ih =>
    intro g hI hP
    simp only [optimizeSubBlocks]
    have h1 := hopt g sb hI (hP sb (by simp))
    split
    · next e he => rw [he] at h1; exact h1
    · next g2 h2 => exact ih g2 (hpres _ _ _ h2 hI) (fun sb hsb => hP sb (by simp [hsb]))

theorem visitNode_allowed (A : Failure → Prop) (I : Graph → Prop) (P : BlockId → Prop)
    (opt : Graph → BlockId → Except Failure Graph)
    (hopt : ∀ g sb, I g → P sb → Allowed A (opt g sb))
    (hpres : ∀ g sb g1, opt g sb = .ok g1 → I g → I g1)
    (hstep : ∀ g n, I g → Allowed A (rewriteNode g n))
    (g : Graph) (n : NodeId) (hI : I g) (hP : ∀ sb ∈ (g.node n).blocks, P sb) :
    Allowed A (visitNode opt g n) := by
  simp only [visitNode]
  have h1 := optimizeSubBlocks_allowed A I P opt hopt hpres _ g hI hP
  split
  · next e he => rw [he] at h1; exact h1
  · next g2 h2 =>
    exact hstep g2 n (optimizeSubBlocks_rel (fun g g1 => I g → I g1) (fun _ h => h)
      (fun _ _ _ h1 h2 h => h2 (h1 h)) opt hpres _ _ _ h2 hI)

theorem visitNodes_allowed (A : Failure → Prop) (I : Graph → Prop) (P : BlockId → Prop)
    (opt : Graph → BlockId → Except Failure Graph)
    (hopt : ∀ g sb, I g → P sb → Allowed A (opt g sb))
    (hpres : ∀ g sb g1, opt g sb = .ok g1 → I g → I g1)
    (hext : ∀ g sb g1, opt g sb = .ok g1 → Extends g g1)
    (hstep : ∀ g n, I g → Allowed A (rewriteNode g n))
    (hrw : ∀ g n g1, rewriteNode g n = .ok g1 → I g → I g1) :
    ∀ (l : List NodeId) (g : Graph), I g → (∀ m ∈ l, ∀ sb ∈ (g.node m).blocks, P sb) →
      Allowed A (visitNodes opt l g) := by
  intro l
  induction l with
  | nil => intro g _ _; exact True.intro
  | cons n rest ih =>
    intro g hI hP
    simp only [visitNodes]
    have h1 := visitNode_allowed A I P opt hopt hpres hstep g n hI (hP n (by simp))
    split
    · next e he => rw [he] at h1; exact h1
    · next g2 h2 =>
      have hI2 : I g2 := visitNode_rel (fun g g1 => I g → I g1) (fun _ h => h)
        (fun _ _ _ h1 h2 h => h2 (h1 h)) opt hpres hrw _ _ _ h2 hI
      have hE : Extends g g2 := visitNode_rel Extends extends_refl (fun _ _ _ => extends_trans)
        opt hext rewriteNode_extends _ _ _ h2
      refine ih g2 hI2 (fun m hm sb hsb => hP m (by simp [hm]) sb ?_)
      rw [← hE.blocks_eq m]
      exact hsb

/-- Let `I` be kept by every successful switch and imply the nesting bound
`depth`, and let every switch on a graph with `I` end in a graph or in a
failure with `A`.  Then so does every traversal of a block whose depth is
below the fuel. -/
theorem PeepholeOptimizeBlock_allowed (A : Failure → Prop) (I : Graph → Prop)
    (depth : BlockId → Nat)
    (hnest : ∀ g, I g → g.NestedBelow depth)
    (hrw : ∀ g n g1, rewriteNode g n = .ok g1 → I g → I g1)
    (hstep : ∀ g n, I g → Allowed A (rewriteNode g n)) :
    ∀ (fuel : Nat) (g : Graph) (b : BlockId), I g → depth b < fuel →
      Allowed A (PeepholeOptimizeBlock fuel g b) := by
  intro fuel
  induction fuel with
  | zero => intro g b _ h; exact absurd h (Nat.not_lt_zero _)
  | succ fuel ih =>
    intro g b hI hb
    simp only [PeepholeOptimizeBlock]
    refine visitNodes_allowed A I (fun sb => depth sb < fuel) (PeepholeOptimizeBlock fuel)
      (fun g sb hI hsb => ih g sb hI hsb)
      (PeepholeOptimizeBlock_rel (fun g g1 => I g → I g1) (fun _ h => h)
        (fun _ _ _ h1 h2 h => h2 (h1 h)) hrw fuel)
      (PeepholeOptimizeBlock_extends fuel) hstep hrw _ g hI ?_
    intro m hm sb hsb
    have := nestedBelow_apply (hnest g hI) b m sb hm hsb
    omega

theorem nestedBelow_of_extends {g g1 : Graph} (depth : BlockId → Nat) (h : Extends g g1)
    (hn : g.NestedBelow depth) : g1.NestedBelow depth := by
  intro b _ n hb sb hsb
  rw [h.blocks_eq] at hsb
  cases h.mem_old_or_new b n hb with
  | inl h1 => exact nestedBelow_apply hn b n sb h1 hsb
  | inr h1 =>
    rw [node_absent_of_le g n h1] at hsb
    simp [Node.absent] at hsb

theorem Node.input_error (nd : Node) (e : Failure) (h : nd.input = .error e) :
    e = .assertion := by
  unfold Node.input at h
  split at h
  · cases h
  · injection h with h; exact h.symm

theorem Node.inputAt_error (nd : Node) (i : Nat) (e : Failure) (h : nd.inputAt i = .error e) :
    e = .outOfRange := by
  unfold Node.inputAt at h
  split at h
  · cases h
  · injection h with h; exact h.symm

theorem Graph.output_error (g : Graph) (n : NodeId) (e : Failure) (h : g.output n = .error e) :
    e = .assertion := by
  unfold Graph.output at h
  split at h
  · cases h
  · injection h with h; exact h.symm

theorem rewriteNode_not_outOfFuel (g : Graph) (n : NodeId) :
    rewriteNode g n ≠ .error .outOfFuel := by
  intro h
  unfold rewriteNode at h
  simp only at h
  repeat' split at h
  all_goals first
    | (cases h; done)
    | (injection h with h; subst h
       first
        | exact absurd (Node.input_error _ _ (by assumption)) (by decide)
        | exact absurd (Node.inputAt_error _ _ _ (by assumption)) (by decide)
        | exact absurd (Graph.output_error _ _ _ (by assumption)) (by decide))

theorem node_mem_or_absent (g : Graph) (n : NodeId) : g.node n ∈ g.nodes ∨ g.node n = Node.absent := by
  by_cases h : n < g.nodes.length
  · left
    simp only [Graph.node, List.getD_eq_getElem?_getD, List.getElem?_eq_getElem h, Option.getD_some]
    exact List.getElem_mem h
  · right
    exact node_absent_of_le g n (Nat.le_of_not_lt h)

theorem Graph.ArityOK.node {g : Graph} (h : g.ArityOK) (n : NodeId) : (g.node n).ArityOK := by
  cases node_mem_or_absent g n with
  | inl h1 => exact h _ h1
  | inr h1 => rw [h1]; decide

theorem arityOK_of_forall_node {g : Graph} (h : ∀ n, (g.node n).ArityOK) : g.ArityOK := by
  intro nd hnd
  obtain ⟨i, hi, rfl⟩ := List.getElem_of_mem hnd
  have := h i
  simpa [Graph.node, List.getD_eq_getElem?_getD, List.getElem?_eq_getElem hi] using this

theorem arityOK_of_extends {g g1 : Graph} (h : Extends g g1) (ha : g.ArityOK) : g1.ArityOK := by
  apply arityOK_of_forall_node
  intro n
  by_cases hn : n < g.nodes.length
  · have h0 := ha.node n
    unfold Node.ArityOK at h0 ⊢
    rw [h.kind_eq n hn, h.inputs_length n hn, h.outputs_length n hn]
    exact h0
  · by_cases hn1 : n < g1.nodes.length
    · have hk := h.new_kind n (Nat.le_of_not_lt hn) hn1
      unfold Node.ArityOK
      rw [hk]
      simp
    · rw [node_absent_of_le g1 n (Nat.le_of_not_lt hn1)]
      decide

theorem rewriteNode_ok_of_arity (g : Graph) (n : NodeId) (ha : g.ArityOK) :
    ∃ g1, rewriteNode g n = .ok g1 := by
  have hn := ha.node n
  obtain ⟨he, ht, hta, -, ho⟩ := hn
  cases hk : (g.node n).kind with
  | expand =>
    obtain ⟨x, hx⟩ := List.length_eq_one.mp (he hk)
    have ho1 := ho (Or.inl hk)
    simp only [rewriteNode, hk, Node.input, hx, Graph.output, ho1]
    simp only [List.length_singleton, ne_eq, not_true_eq_false, if_false, if_true]
    cases hty : g.typeOf x with
    | TensorType a b c d =>
      by_cases hs : (g.node n).size = some c <;> simp [JitType.isTensor, hs]
    | DynamicType => simp [JitType.isTensor]
    | OtherType tag => simp [JitType.isTensor]
  | t =>
    obtain ⟨x, hx⟩ := List.length_eq_one.mp (ht hk)
    have ho1 := ho (Or.inr (Or.inl hk))
    simp only [rewriteNode, hk, Node.input, hx, Graph.output, ho1, if_true]
    split
    · next hk2 =>
      obtain ⟨y, hy⟩ := List.length_eq_one.mp ((ha.node x.node).2.1 hk2)
      simp [hy]
    · exact ⟨_, rfl⟩
  | type_as =>
    have hl := hta hk
    have ho1 := ho (Or.inr (Or.inr (Or.inl hk)))
    obtain ⟨lhs, rhs, hx⟩ := List.length_eq_two.mp hl
    simp only [rewriteNode, hk, Node.inputAt, hx, Graph.output, ho1, if_true]
    simp only [List.length_cons, List.length_nil, ne_eq, not_true_eq_false, if_false,
      List.getElem?_cons_zero, List.getElem?_cons_succ]
    split
    · split <;> exact ⟨_, rfl⟩
    · exact ⟨_, rfl⟩
  | add =>
    have ho1 := ho (Or.inr (Or.inr (Or.inr hk)))
    simp only [rewriteNode, hk]
    split
    · next hc =>
      obtain ⟨bias, y, hx⟩ := List.length_eq_two.mp hc.1
      simp only [Node.inputAt, hx, List.getElem?_cons_zero, List.getElem?_cons_succ]
      split
      · next hk2 =>
        have h2 := (ha.node y.node).2.2.2.1 hk2
        obtain ⟨m1, m2, rest, hm⟩ : ∃ m1 m2 rest, (g.node y.node).inputs = m1 :: m2 :: rest := by
          cases hi : (g.node y.node).inputs with
          | nil => rw [hi] at h2; simp at h2
          | cons a l =>
            cases l with
            | nil => rw [hi] at h2; simp at h2
            | cons b l => exact ⟨a, b, l, rfl⟩
        have hn : n < g.nodes.length := lt_length_of_kind g n (by rw [hk]; decide)
        have hout2 : ((g.insertAddmm n bias m1 m2).1.node n).outputs.length = 1 := by
          rw [node_insertAddmm_old g n bias m1 m2 n hn]; exact ho1
        simp [hm, Graph.output, hout2]
      · exact ⟨_, rfl⟩
    · exact ⟨_, rfl⟩
  | mm => exact ⟨g, by simp [rewriteNode, hk]⟩
  | addmm => exact ⟨g, by simp [rewriteNode, hk]⟩
  | Param => exact ⟨g, by simp [rewriteNode, hk]⟩
  | Return => exact ⟨g, by simp [rewriteNode, hk]⟩
  | other tag => exact ⟨g, by simp [rewriteNode, hk]⟩

/-- With the arities of `Graph.ArityOK` and blocks nested below `depth`, the
traversal of a block whose depth is below the fuel ends in a graph. -/
theorem PeepholeOptimizeBlock_ok_of_arity (g : Graph) (depth : BlockId → Nat) (fuel : Nat)
    (b : BlockId) (harity : g.ArityOK) (hnest : g.NestedBelow depth) (hfuel : depth b < fuel) :
    ∃ g1, PeepholeOptimizeBlock fuel g b = .ok g1 := by
  have key := PeepholeOptimizeBlock_allowed (fun _ => False)
    (fun g => g.ArityOK ∧ g.NestedBelow depth) depth (fun _ h => h.2)
    (fun g n g1 h hI => ⟨arityOK_of_extends (rewriteNode_extends g n g1 h) hI.1,
      nestedBelow_of_extends depth (rewriteNode_extends g n g1 h) hI.2⟩)
    (fun g n hI => by
      obtain ⟨g1, h⟩ := rewriteNode_ok_of_arity g n hI.1
      rw [h]
      exact True.intro)
    fuel g b ⟨harity, hnest⟩ hfuel
  cases h : PeepholeOptimizeBlock fuel g b with
  | ok g1 => exact ⟨g1, rfl⟩
  | error e => rw [h] at key; exact key.elim

theorem PeepholeOptimizeBlock_not_outOfFuel (g : Graph) (depth : BlockId → Nat) (fuel : Nat)
    (b : BlockId) (hnest : g.NestedBelow depth) (hfuel : depth b < fuel) :
    PeepholeOptimizeBlock fuel g b ≠ .error .outOfFuel := by
  have key := PeepholeOptimizeBlock_allowed (fun e => e ≠ .outOfFuel)
    (fun g => g.NestedBelow depth) depth (fun _ h => h)
    (fun g n g1 h hI => nestedBelow_of_extends depth (rewriteNode_extends g n g1 h) hI)
    (fun g n _ => by
      cases h : rewriteNode g n with
      | ok g1 => exact True.intro
      | error e =>
        intro he
        subst he
        exact rewriteNode_not_outOfFuel g n h)
    fuel g b hnest hfuel
  intro h
  rw [h] at key
  exact key rfl

theorem reach_of_extends {g g1 : Graph} (h : Extends g g1) {b : BlockId} {n : NodeId}
    (hr : Reach g b n) : Reach g1 b n := by
  induction hr with
  | here hm => exact Reach.here (h.mem_nodes _ _ hm)
  | nested hm hsb _ ih =>
    exact Reach.nested (h.mem_nodes _ _ hm) (by rw [h.blocks_eq]; exact hsb) ih

theorem badTypeAs_of_extends {g g1 : Graph} (h : Extends g g1) {n : NodeId}
    (hb : BadTypeAs g n) : BadTypeAs g1 n := by
  have hn : n < g.nodes.length := lt_length_of_kind g n (by rw [hb.1]; decide)
  exact ⟨by rw [h.kind_eq n hn]; exact hb.1, by rw [h.inputs_length n hn]; exact hb.2⟩

theorem rewriteNode_badTypeAs {g : Graph} {n : NodeId} (hb : BadTypeAs g n) :
    rewriteNode g n = .error .assertion := by
  simp [rewriteNode, hb.1, hb.2]

theorem optimizeSubBlocks_badTypeAs (n : NodeId)
    (opt : Graph → BlockId → Except Failure Graph)
    (hopt : ∀ g sb, Reach g sb n → BadTypeAs g n → ∀ g1, opt g sb ≠ .ok g1)
    (hext : ∀ g sb g1, opt g sb = .ok g1 → Extends g g1) :
    ∀ (l : List BlockId) (g : Graph), BadTypeAs g n → (∃ sb ∈ l, Reach g sb n) →
      ∀ g1, optimizeSubBlocks opt l g ≠ .ok g1 := by
  intro l
  induction l with
  | nil => intro g _ h; simp at h
  | cons sb0 rest ih =>
    intro g hb hex g1 hok
    simp only [optimizeSubBlocks] at hok
    split at hok
    · cases hok
    · next g2 h2 =>
      have hE := hext _ _ _ h2
      obtain ⟨sb, hsb, hr⟩ := hex
      cases List.mem_cons.mp hsb with
      | inl h => subst h; exact hopt g sb hr hb g2 h2
      | inr h =>
        exact ih g2 (badTypeAs_of_extends hE hb) ⟨sb, h, reach_of_extends hE hr⟩ g1 hok

theorem visitNode_badTypeAs (n : NodeId)
    (opt : Graph → BlockId → Except Failure Graph)
    (hopt : ∀ g sb, Reach g sb n → BadTypeAs g n → ∀ g1, opt g sb ≠ .ok g1)
    (hext : ∀ g sb g1, opt g sb = .ok g1 → Extends g g1)
    (g : Graph) (m : NodeId) (hb : BadTypeAs g n)
    (hm : m = n ∨ ∃ sb ∈ (g.node m).blocks, Reach g sb n) :
    ∀ g1, visitNode opt g m ≠ .ok g1 := by
  intro g1 hok
  simp only [visitNode] at hok
  split at hok
  · cases hok
  · next g2 h2 =>
    cases hm with
    | inl h =>
      subst h
      have hE := optimizeSubBlocks_rel Extends extends_refl (fun _ _ _ => extends_trans) opt hext
        _ _ _ h2
      rw [rewriteNode_badTypeAs (badTypeAs_of_extends hE hb)] at hok
      cases hok
    | inr h => exact optimizeSubBlocks_badTypeAs n opt hopt hext _ g hb h g2 h2

theorem visitNodes_badTypeAs (n : NodeId)
    (opt : Graph → BlockId → Except Failure Graph)
    (hopt : ∀ g sb, Reach g sb n → BadTypeAs g n → ∀ g1, opt g sb ≠ .ok g1)
    (hext : ∀ g sb g1, opt g sb = .ok g1 → Extends g g1) :
    ∀ (l : List NodeId) (g : Graph), BadTypeAs g n →
      (∃ m ∈ l, m = n ∨ ∃ sb ∈ (g.node m).blocks, Reach g sb n) →
      ∀ g1, visitNodes opt l g ≠ .ok g1 := by
  intro l
  induction l with
  | nil => intro g _ h; simp at h
  | cons m0 rest ih =>
    intro g hb hex g1 hok
    simp only [visitNodes] at hok
    split at hok
    · cases hok
    · next g2 h2 =>
      have hE : Extends g g2 := visitNode_rel Extends extends_refl (fun _ _ _ => extends_trans)
        opt hext rewriteNode_extends _ _ _ h2
      obtain ⟨m, hm, hcase⟩ := hex
      cases List.mem_cons.mp hm with
      | inl h =>
        subst h
        exact visitNode_badTypeAs n opt hopt hext g m hb hcase g2 h2
      | inr h =>
        refine ih g2 (badTypeAs_of_extends hE hb) ⟨m, h, ?_⟩ g1 hok
        cases hcase with
        | inl h1 => exact Or.inl h1
        | inr h1 =>
          obtain ⟨sb, hsb, hr⟩ := h1
          exact Or.inr ⟨sb, by rw [hE.blocks_eq]; exact hsb, reach_of_extends hE hr⟩

/-- A traversal that meets a `type_as` node whose number of inputs is not two
never ends in a graph. -/
theorem PeepholeOptimizeBlock_badTypeAs (n : NodeId) :
    ∀ (fuel : Nat) (g : Graph) (b : BlockId), Reach g b n → BadTypeAs g n →
      ∀ g1, PeepholeOptimizeBlock fuel g b ≠ .ok g1 := by
  intro fuel
  induction fuel with
  | zero => intro g b _ _ g1 h; cases h
  | succ fuel ih =>
    intro g b hr hb g1 hok
    simp only [PeepholeOptimizeBlock] at hok
    refine visitNodes_badTypeAs n _ ih (PeepholeOptimizeBlock_extends fuel) _ g hb ?_ g1 hok
    cases hr with
    | here hm => exact ⟨n, hm, Or.inl rfl⟩
    | nested hm hsb hr2 => exact ⟨_, hm, Or.inr ⟨_, hsb, hr2⟩⟩

/-- C5 (fatal arity check).  If the traversal of block `b` meets an
`aten::type_as` node whose number of inputs is not two, then no amount of
fuel makes `PeepholeOptimize(Block)` end in a graph; and when the blocks are
nested below `depth` and the fuel exceeds the depth of `b`, the run ends in a
failure of the code itself (an assertion or a checked index), not in the
exhaustion of the fuel. -/
theorem type_as_arity_aborts (g : Graph) (b : BlockId) (n : NodeId)
    (hreach : Reach g b n)
    (hkind : (g.node n).kind = .type_as)
    (hlen : (g.node n).inputs.length ≠ 2) :
    (∀ fuel g1, PeepholeOptimizeBlock fuel g b ≠ .ok g1) ∧
    (∀ depth fuel, g.NestedBelow depth → depth b < fuel →
      ∃ e, PeepholeOptimizeBlock fuel g b = .error e ∧ e ≠ .outOfFuel) := by
  have h1 : ∀ fuel g1, PeepholeOptimizeBlock fuel g b ≠ .ok g1 :=
    fun fuel => PeepholeOptimizeBlock_badTypeAs n fuel g b hreach ⟨hkind, hlen⟩
  refine ⟨h1, ?_⟩
  intro depth fuel hnest hfuel
  cases h : PeepholeOptimizeBlock fuel g b with
  | ok g1 => exact absurd h (h1 fuel g1)
  | error e =>
    refine ⟨e, rfl, ?_⟩
    intro he
    subst he
    exact PeepholeOptimizeBlock_not_outOfFuel g depth fuel b hnest hfuel h

/-- Witness of C5 on `nestedGraph typeAsThree`: the `type_as` node with three
inputs is node 5, in the block nested in node 1 of the root block; with fuel 2
the run is a failed assertion. -/
theorem type_as_arity_aborts_witness :
    PeepholeOptimizeBlock 2 (nestedGraph typeAsThree) 0 = .error .assertion ∧
    (∀ fuel g1, PeepholeOptimizeBlock fuel (nestedGraph typeAsThree) 0 ≠ .ok g1) ∧
    (∀ depth fuel, (nestedGraph typeAsThree).NestedBelow depth → depth 0 < fuel →
      ∃ e, PeepholeOptimizeBlock fuel (nestedGraph typeAsThree) 0 = .error e ∧
        e ≠ .outOfFuel) :=
  ⟨by decide,
   type_as_arity_aborts (nestedGraph typeAsThree) 0 5
    (@Reach.nested (nestedGraph typeAsThree) 0 1 1 5 (by decide) (by decide)
      (Reach.here (by decide)))
    (by decide) (by decide)⟩

/-- C6 as amended.  In a graph where every `expand` and every `t` node has
exactly one input, every `type_as` node exactly two, every `mm` node at least
two, and every `expand`, `t`, `type_as` and `add` node exactly one output,
with blocks nested below `depth`, `PeepholeOptimize(Block)` on a block whose
depth is below the fuel runs to completion without error. -/
theorem traversal_completes (g : Graph) (depth : BlockId → Nat) (fuel : Nat) (b : BlockId)
    (harity : g.ArityOK) (hnest : g.NestedBelow depth) (hfuel : depth b < fuel) :
    ∃ g1, PeepholeOptimizeBlock fuel g b = .ok g1 :=
  PeepholeOptimizeBlock_ok_of_arity g depth fuel b harity hnest hfuel

/-- Witness of the amended C6 on the nested graph whose inner node is a second
transpose: depth 1 for the root block, 0 for the nested one, fuel 2. -/
theorem traversal_completes_witness :
    ∃ g1, PeepholeOptimizeBlock 2 (nestedGraph (Node.op .t [⟨4, 0⟩] [floatTensor [2, 3]])) 0
      = .ok g1 :=
  traversal_completes (nestedGraph (Node.op .t [⟨4, 0⟩] [floatTensor [2, 3]]))
    (fun b => if b = 0 then 1 else 0) 2 0 (by decide) (by decide) (by decide)

/-- C6 as stated fails.  Neither graph has a `type_as` node, and the pass
aborts on both: on a `t` node without input (in `n->input()`), and on an
`add` with `alpha = 1` whose second input comes from an `mm` node with one
operand (in `input_node->input(1)`). -/
theorem soft_preconditions_abort :
    (∀ nd ∈ (noInputGraph .t).nodes, nd.kind ≠ .type_as) ∧
    PeepholeOptimizeBlock 1 (noInputGraph .t) 0 = .error .assertion ∧
    (∀ nd ∈ shortMmGraph.nodes, nd.kind ≠ .type_as) ∧
    PeepholeOptimizeBlock 1 shortMmGraph 0 = .error .outOfRange := by
  decide

/-- The `expand` node of `dynamicExpandGraph` takes its target size as a second
input; the pass aborts on it in `n->input()`, before the test
`n->inputs().size() != 1` that would skip the node. -/
theorem dynamic_expand_aborts :
    PeepholeOptimizeBlock 1 dynamicExpandGraph 0 = .error .assertion := by
  decide

/-! ## Idempotence of the pass -/

theorem output_insertAddmm (g : Graph) (n : NodeId) (a b c : Value)
    (hn : (g.node n).kind = .add) :
    (g.insertAddmm n a b c).1.output n = g.output n := by
  have hlt : n < g.nodes.length := lt_length_of_kind g n (by rw [hn]; decide)
  simp [Graph.output, node_insertAddmm_old g n a b c n hlt]

theorem rewriteNode_eq_perform (g : Graph) (n : NodeId) :
    rewriteNode g n = (matchNode g n).map (perform g n) := by
  unfold rewriteNode matchNode
  simp only
  cases hk : (g.node n).kind with
  | expand =>
    simp only
    cases (g.node n).input with
    | error e => rfl
    | ok x =>
      simp only
      split
      · rfl
      · split
        · rfl
        · cases g.typeOf x with
          | TensorType a b c d =>
            simp only
            split
            · cases g.output n <;> rfl
            · rfl
          | DynamicType => rfl
          | OtherType tag => rfl
  | t =>
    simp only
    cases (g.node n).input with
    | error e => rfl
    | ok x =>
      simp only
      split
      · cases g.output n with
        | error e => rfl
        | ok out => simp only; cases (g.node x.node).input <;> rfl
      · rfl
  | type_as =>
    simp only
    split
    · rfl
    · cases (g.node n).inputAt 0 with
      | error e => rfl
      | ok lhs =>
        cases (g.node n).inputAt 1 with
        | error e => rfl
        | ok rhs =>
          simp only
          cases g.typeOf lhs with
          | TensorType a b c d =>
            cases g.typeOf rhs with
            | TensorType a2 b2 c2 d2 =>
              simp only
              split
              · cases g.output n <;> rfl
              · rfl
            | DynamicType => rfl
            | OtherType tag => rfl
          | DynamicType => rfl
          | OtherType tag => rfl
  | add =>
    simp only
    split
    · cases (g.node n).inputAt 1 with
      | error e => rfl
      | ok y =>
        simp only
        split
        · cases (g.node n).inputAt 0 with
          | error e => rfl
          | ok mat =>
            cases (g.node y.node).inputAt 0 with
            | error e => rfl
            | ok mat1 =>
              cases (g.node y.node).inputAt 1 with
              | error e => rfl
              | ok mat2 =>
                simp only [output_insertAddmm g n _ _ _ hk]
                cases g.output n <;> rfl
        · rfl
    · rfl
  | mm => rfl
  | addmm => rfl
  | Param => rfl
  | Return => rfl
  | other tag => rfl

theorem Node.input_ok {nd : Node} {x : Value} (h : nd.input = .ok x) : nd.inputs = [x] := by
  unfold Node.input at h
  split at h
  · next v hv => injection h with h; subst h; exact hv
  · cases h

theorem Node.inputAt_ok {nd : Node} {i : Nat} {x : Value} (h : nd.inputAt i = .ok x) :
    nd.inputs[i]? = some x := by
  unfold Node.inputAt at h
  split at h
  · next v hv => injection h with h; subst h; exact hv
  · cases h

theorem Node.inputAt_mem {nd : Node} {i : Nat} {x : Value} (h : nd.inputAt i = .ok x) :
    x ∈ nd.inputs := by
  obtain ⟨hi, he⟩ := List.getElem?_eq_some.mp (Node.inputAt_ok h)
  exact he ▸ List.getElem_mem hi

theorem Graph.output_ok {g : Graph} {n : NodeId} {out : Value} (h : g.output n = .ok out) :
    out = ⟨n, 0⟩ ∧ (g.node n).outputs.length = 1 := by
  unfold Graph.output at h
  split at h
  · next hl => injection h with h; exact ⟨h.symm, hl⟩
  · cases h

/-- A replacement decided on node `k` replaces the single output of `k` by an
input of `k` or by an input of the producer of an input of `k`. -/
theorem matchNode_replace_spec {g : Graph} {k : NodeId} {out x : Value}
    (h : matchNode g k = .ok (.replace out x)) :
    out = ⟨k, 0⟩ ∧ (g.node k).outputs.length = 1 ∧
      (x ∈ (g.node k).inputs ∨ ∃ y ∈ (g.node k).inputs, x ∈ (g.node y.node).inputs) := by
  unfold matchNode at h
  simp only at h
  split at h
  · -- expand
    split at h
    · cases h
    · next x0 hx0 =>
      have hin := Node.input_ok hx0
      repeat' split at h
      all_goals first
        | (cases h; done)
        | (next out0 ho =>
            injection h with h
            injection h with h1 h2
            subst h1 h2
            exact ⟨(Graph.output_ok ho).1, (Graph.output_ok ho).2, Or.inl (by simp [hin])⟩)
  · -- t
    split at h
    · cases h
    · next x0 hx0 =>
      have hin := Node.input_ok hx0
      repeat' split at h
      all_goals first
        | (cases h; done)
        | (next out0 ho _ y0 hy0 =>
            injection h with h
            injection h with h1 h2
            subst h1 h2
            exact ⟨(Graph.output_ok ho).1, (Graph.output_ok ho).2,
              Or.inr ⟨x0, by simp [hin], by simp [Node.input_ok hy0]⟩⟩)
  · -- type_as
    split at h
    · cases h
    · split at h
      · cases h
      · next lhs hl =>
        repeat' split at h
        all_goals first
          | (cases h; done)
          | (next out0 ho =>
              injection h with h
              injection h with h1 h2
              subst h1 h2
              exact ⟨(Graph.output_ok ho).1, (Graph.output_ok ho).2,
                Or.inl (Node.inputAt_mem hl)⟩)
  · -- add
    repeat' split at h
    all_goals cases h
  · cases h

/-- A fusion decided on node `k` takes the first input of the `add` node `k`
and two inputs of the producer of another input of `k`. -/
theorem matchNode_fuse_spec {g : Graph} {k : NodeId} {mat mat1 mat2 out : Value}
    (h : matchNode g k = .ok (.fuse mat mat1 mat2 out)) :
    out = ⟨k, 0⟩ ∧ (g.node k).outputs.length = 1 ∧ (g.node k).kind = .add ∧
      mat ∈ (g.node k).inputs ∧
      ∃ y ∈ (g.node k).inputs, mat1 ∈ (g.node y.node).inputs ∧ mat2 ∈ (g.node y.node).inputs := by
  unfold matchNode at h
  simp only at h
  split at h
  · repeat' split at h
    all_goals cases h
  · repeat' split at h
    all_goals cases h
  · repeat' split at h
    all_goals cases h
  · next hk =>
    split at h
    · split at h
      · cases h
      · next y hy =>
        split at h
        · split at h
          · cases h
          · next m0 hm0 =>
            split at h
            · cases h
            · next m1 hm1 =>
              split at h
              · cases h
              · next m2 hm2 =>
                split at h
                · cases h
                · next out0 ho =>
                  injection h with h
                  injection h with h1 h2 h3 h4
                  subst h1 h2 h3 h4
                  exact ⟨(Graph.output_ok ho).1, (Graph.output_ok ho).2, hk,
                    Node.inputAt_mem hm0, y, Node.inputAt_mem hy, Node.inputAt_mem hm1,
                    Node.inputAt_mem hm2⟩
        · cases h
    · cases h
  · cases h

theorem typeOf_eq_of_outputs {g g1 : Graph} {v : Value}
    (h : (g1.node v.node).outputs = (g.node v.node).outputs) : g1.typeOf v = g.typeOf v := by
  simp [Graph.typeOf, h]

theorem output_eq_of_node {g g1 : Graph} {n : NodeId} (h : g1.node n = g.node n) :
    g1.output n = g.output n := by
  simp [Graph.output, h]

/-- The decision to skip node `a` depends on the record of `a` and on the kind
and the output metadata of the producers of its inputs only. -/
theorem matchNode_skip_of_agree {g g1 : Graph} {a : NodeId}
    (h : matchNode g a = .ok .skip)
    (hrec : g1.node a = g.node a)
    (hprod : ∀ v ∈ (g.node a).inputs, (g1.node v.node).kind = (g.node v.node).kind ∧
      (g1.node v.node).outputs = (g.node v.node).outputs) :
    matchNode g1 a = .ok .skip := by
  unfold matchNode at h ⊢
  simp only [hrec, output_eq_of_node hrec] at h ⊢
  cases hk : (g.node a).kind with
  | expand =>
    simp only [hk] at h ⊢
    cases hin : (g.node a).input with
    | error e => simp [hin] at h
    | ok x =>
      have hx : x ∈ (g.node a).inputs := by simp [Node.input_ok hin]
      simp only [hin] at h ⊢
      rw [typeOf_eq_of_outputs (hprod x hx).2]
      exact h
  | t =>
    simp only [hk] at h ⊢
    cases hin : (g.node a).input with
    | error e => simp [hin] at h
    | ok x =>
      have hx : x ∈ (g.node a).inputs := by simp [Node.input_ok hin]
      simp only [hin] at h ⊢
      rw [(hprod x hx).1]
      by_cases hkt : (g.node x.node).kind = .t
      · simp only [hkt, if_true] at h
        repeat' split at h
        all_goals cases h
      · simp [hkt]
  | type_as =>
    simp only [hk] at h ⊢
    split
    · next hl => simp [hl] at h
    · next hl =>
      simp only [hl, if_false] at h
      cases hl0 : (g.node a).inputAt 0 with
      | error e => simp [hl0] at h
      | ok lhs =>
        cases hl1 : (g.node a).inputAt 1 with
        | error e => simp [hl0, hl1] at h
        | ok rhs =>
          simp only [hl0, hl1] at h ⊢
          rw [typeOf_eq_of_outputs (hprod lhs (Node.inputAt_mem hl0)).2,
            typeOf_eq_of_outputs (hprod rhs (Node.inputAt_mem hl1)).2]
          exact h
  | add =>
    simp only [hk] at h ⊢
    split
    · next hc =>
      rw [if_pos hc] at h
      cases hl1 : (g.node a).inputAt 1 with
      | error e => simp [hl1] at h
      | ok y =>
        simp only [hl1] at h ⊢
        rw [(hprod y (Node.inputAt_mem hl1)).1]
        by_cases hkm : (g.node y.node).kind = .mm
        · simp only [hkm, if_true] at h
          repeat' split at h
          all_goals cases h
        · simp [hkm]
    · rfl
  | mm => rfl
  | addmm => rfl
  | Param => rfl
  | Return => rfl
  | other tag => rfl

/-- Nodes of the kinds the switch does not look at are skipped. -/
theorem matchNode_skip_of_kind {g : Graph} {a : NodeId}
    (h1 : (g.node a).kind ≠ .expand) (h2 : (g.node a).kind ≠ .t)
    (h3 : (g.node a).kind ≠ .type_as) (h4 : (g.node a).kind ≠ .add) :
    matchNode g a = .ok .skip := by
  cases hk : (g.node a).kind with
  | expand => exact absurd hk h1
  | t => exact absurd hk h2
  | type_as => exact absurd hk h3
  | add => exact absurd hk h4
  | mm => simp [matchNode, hk]
  | addmm => simp [matchNode, hk]
  | Param => simp [matchNode, hk]
  | Return => simp [matchNode, hk]
  | other tag => simp [matchNode, hk]

theorem rewriteNode_of_skip {g : Graph} {a : NodeId} (h : matchNode g a = .ok .skip) :
    rewriteNode g a = .ok g := by
  rw [rewriteNode_eq_perform, h]
  rfl

theorem rewriteNodes_append (l1 l2 : List NodeId) (g : Graph) :
    rewriteNodes (l1 ++ l2) g =
      match rewriteNodes l1 g with
      | .error e => .error e
      | .ok g1 => rewriteNodes l2 g1 := by
  induction l1 generalizing g with
  | nil => rfl
  | cons n rest ih =>
    simp only [List.cons_append, rewriteNodes]
    cases rewriteNode g n with
    | error e => rfl
    | ok g1 => exact ih g1

theorem rewriteNode_sameOutside {g g1 : Graph} {k : NodeId} (h : rewriteNode g k = .ok g1) :
    SameOutside [k] g g1 := by
  refine ⟨(rewriteNode_extends g k g1 h).blocks_eq, ?_⟩
  intro b hb
  have hk : k ∉ (g.block b).nodes := hb k (by simp)
  rcases rewriteNode_cases g k g1 h with h | ⟨v, w, h⟩ | ⟨a, c, d, out, h⟩
  · rw [h]
  · rw [h]; rfl
  · rw [h, block_replaceAllUsesWith]
    show ((g.insertAddmm k a c d).1.block b).nodes = _
    rw [block_insertAddmm, insertBefore_of_not_mem _ _ _ hk]

theorem sameOutside_refl (M : List NodeId) (g : Graph) : SameOutside M g g :=
  ⟨fun _ => rfl, fun _ _ => rfl⟩

theorem sameOutside_append {M1 M2 : List NodeId} {g g1 g2 : Graph}
    (h1 : SameOutside M1 g g1) (h2 : SameOutside M2 g1 g2) : SameOutside (M1 ++ M2) g g2 := by
  refine ⟨fun n => by rw [h2.1, h1.1], ?_⟩
  intro b hb
  have e1 : (g1.block b).nodes = (g.block b).nodes :=
    h1.2 b (fun k hk => hb k (List.mem_append_left _ hk))
  have e2 : (g2.block b).nodes = (g1.block b).nodes :=
    h2.2 b (fun k hk => by rw [e1]; exact hb k (List.mem_append_right _ hk))
  rw [e2, e1]

theorem rewriteNodes_sameOutside :
    ∀ (M : List NodeId) (g g1 : Graph), rewriteNodes M g = .ok g1 → SameOutside M g g1 := by
  intro M
  induction M with
  | nil =>
    intro g g1 h
    simp only [rewriteNodes] at h
    injection h with h
    rw [← h]
    exact sameOutside_refl _ _
  | cons k rest ih =>
    intro g g1 h
    simp only [rewriteNodes] at h
    split at h
    · cases h
    · next g2 h2 =>
      exact sameOutside_append (rewriteNode_sameOutside h2) (ih g2 g1 h)

theorem mem_orderSubBlocks {ord : BlockId → List NodeId} {l : List BlockId} {x : NodeId} :
    x ∈ orderSubBlocks ord l ↔ ∃ sb ∈ l, x ∈ ord sb := by
  induction l with
  | nil => simp [orderSubBlocks]
  | cons sb rest ih => simp [orderSubBlocks, ih]

theorem mem_orderNodes {ord : BlockId → List NodeId} {g : Graph} {ns : List NodeId}
    {x : NodeId} :
    x ∈ orderNodes ord g ns ↔
      ∃ n ∈ ns, x = n ∨ ∃ sb ∈ (g.node n).blocks, x ∈ ord sb := by
  induction ns with
  | nil => simp [orderNodes]
  | cons n rest ih =>
    simp only [orderNodes, List.mem_append, List.mem_singleton, mem_orderSubBlocks, ih]
    constructor
    · rintro ((⟨sb, hsb, hx⟩ | rfl) | ⟨m, hm, hx⟩)
      · exact ⟨n, by simp, Or.inr ⟨sb, hsb, hx⟩⟩
      · exact ⟨x, by simp, Or.inl rfl⟩
      · exact ⟨m, by simp [hm], hx⟩
    · rintro ⟨m, hm, hx⟩
      cases List.mem_cons.mp hm with
      | inl h =>
        subst h
        cases hx with
        | inl h => exact Or.inl (Or.inr h)
        | inr h => exact Or.inl (Or.inl h)
      | inr h => exact Or.inr ⟨m, h, hx⟩

theorem orderSubBlocks_congr {ord ord1 : BlockId → List NodeId} {l : List BlockId}
    (h : ∀ sb ∈ l, ord1 sb = ord sb) : orderSubBlocks ord1 l = orderSubBlocks ord l := by
  induction l with
  | nil => rfl
  | cons sb rest ih =>
    simp only [orderSubBlocks]
    rw [h sb (by simp), ih (fun sb hsb => h sb (by simp [hsb]))]

theorem orderNodes_congr {ord ord1 : BlockId → List NodeId} {g g1 : Graph} {ns : List NodeId}
    (h : ∀ n ∈ ns, (g1.node n).blocks = (g.node n).blocks ∧
      ∀ sb ∈ (g.node n).blocks, ord1 sb = ord sb) :
    orderNodes ord1 g1 ns = orderNodes ord g ns := by
  induction ns with
  | nil => rfl
  | cons n rest ih =>
    simp only [orderNodes]
    rw [(h n (by simp)).1, orderSubBlocks_congr (h n (by simp)).2,
      ih (fun m hm => h m (by simp [hm]))]

theorem visitOrder_congr {M : List NodeId} {g g1 : Graph} (hs : SameOutside M g g1) :
    ∀ (fuel : Nat) (b : BlockId), (∀ k ∈ M, k ∉ visitOrder fuel g b) →
      visitOrder fuel g1 b = visitOrder fuel g b := by
  intro fuel
  induction fuel with
  | zero => intro b _; rfl
  | succ fuel ih =>
    intro b hM
    simp only [visitOrder] at hM ⊢
    have hl : (g1.block b).nodes = (g.block b).nodes := by
      apply hs.2
      intro k hk hmem
      exact hM k hk (mem_orderNodes.mpr ⟨k, hmem, Or.inl rfl⟩)
    rw [hl]
    apply orderNodes_congr
    intro n hn
    refine ⟨hs.1 n, fun sb hsb => ih sb ?_⟩
    intro k hk hmem
    exact hM k hk (mem_orderNodes.mpr ⟨n, hn, Or.inr ⟨sb, hsb, hmem⟩⟩)

theorem flatten_subBlocks (fuel : Nat)
    (ih : ∀ g b g1, PeepholeOptimizeBlock fuel g b = .ok g1 → (visitOrder fuel g b).Nodup →
      rewriteNodes (visitOrder fuel g b) g = .ok g1) :
    ∀ (l : List BlockId) (g g1 : Graph),
      optimizeSubBlocks (PeepholeOptimizeBlock fuel) l g = .ok g1 →
      (orderSubBlocks (visitOrder fuel g) l).Nodup →
      rewriteNodes (orderSubBlocks (visitOrder fuel g) l) g = .ok g1 := by
  intro l
  induction l with
  | nil =>
    intro g g1 h _
    simpa [optimizeSubBlocks, orderSubBlocks, rewriteNodes] using h
  | cons sb rest ihl =>
    intro g g1 h hnd
    simp only [optimizeSubBlocks] at h
    simp only [orderSubBlocks] at hnd ⊢
    split at h
    · cases h
    · next g2 h2 =>
      have hnd1 := (List.nodup_append.mp hnd).1
      have hnd2 := (List.nodup_append.mp hnd).2.1
      have hdis := (List.nodup_append.mp hnd).2.2
      have e1 := ih g sb g2 h2 hnd1
      have hs := rewriteNodes_sameOutside _ _ _ e1
      have e2 : orderSubBlocks (visitOrder fuel g2) rest = orderSubBlocks (visitOrder fuel g) rest := by
        apply orderSubBlocks_congr
        intro sb2 hsb2
        apply visitOrder_congr hs
        intro k hk hmem
        exact hdis hk (mem_orderSubBlocks.mpr ⟨sb2, hsb2, hmem⟩)
      rw [rewriteNodes_append, e1]
      simp only
      rw [← e2]
      apply ihl g2 g1 h
      rw [e2]
      exact hnd2

theorem flatten_nodes (fuel : Nat)
    (ih : ∀ g b g1, PeepholeOptimizeBlock fuel g b = .ok g1 → (visitOrder fuel g b).Nodup →
      rewriteNodes (visitOrder fuel g b) g = .ok g1) :
    ∀ (ns : List NodeId) (g g1 : Graph),
      visitNodes (PeepholeOptimizeBlock fuel) ns g = .ok g1 →
      (orderNodes (visitOrder fuel g) g ns).Nodup →
      rewriteNodes (orderNodes (visitOrder fuel g) g ns) g = .ok g1 := by
  intro ns
  induction ns with
  | nil =>
    intro g g1 h _
    simpa [visitNodes, orderNodes, rewriteNodes] using h
  | cons n rest ihn =>
    intro g g1 h hnd
    simp only [visitNodes] at h
    simp only [orderNodes] at hnd ⊢
    split at h
    · cases h
    · next g2 h2 =>
      have hnd1 := (List.nodup_append.mp hnd).1
      have hnd2 := (List.nodup_append.mp hnd).2.1
      have hdis := (List.nodup_append.mp hnd).2.2
      -- the visit of `n`
      have e1 : rewriteNodes (orderSubBlocks (visitOrder fuel g) (g.node n).blocks ++ [n]) g
          = .ok g2 := by
        simp only [visitNode] at h2
        split at h2
        · cases h2
        · next g3 h3 =>
          rw [rewriteNodes_append,
            flatten_subBlocks fuel ih _ g g3 h3 (List.nodup_append.mp hnd1).1]
          simp only [rewriteNodes, h2]
      have hs := rewriteNodes_sameOutside _ _ _ e1
      have e2 : orderNodes (visitOrder fuel g2) g2 rest = orderNodes (visitOrder fuel g) g rest := by
        apply orderNodes_congr
        intro m hm
        refine ⟨hs.1 m, fun sb hsb => visitOrder_congr hs fuel sb ?_⟩
        intro k hk hmem
        exact hdis hk (mem_orderNodes.mpr ⟨m, hm, Or.inr ⟨sb, hsb, hmem⟩⟩)
      rw [rewriteNodes_append, e1]
      simp only
      rw [← e2]
      apply ihn g2 g1 h
      rw [e2]
      exact hnd2

/-- A successful traversal is the switch applied to the nodes of `visitOrder`
in turn, provided no node is met twice. -/
theorem PeepholeOptimizeBlock_flatten :
    ∀ (fuel : Nat) (g : Graph) (b : BlockId) (g1 : Graph),
      PeepholeOptimizeBlock fuel g b = .ok g1 → (visitOrder fuel g b).Nodup →
      rewriteNodes (visitOrder fuel g b) g = .ok g1 := by
  intro fuel
  induction fuel with
  | zero => intro g b g1 h; cases h
  | succ fuel ih =>
    intro g b g1 h hnd
    exact flatten_nodes fuel ih _ g g1 h hnd

theorem Ranked.apply {g : Graph} {rank : NodeId → Nat} (h : Ranked g rank) (m : NodeId)
    (v : Value) (hv : v ∈ (g.node m).inputs) :
    v.node < g.nodes.length ∧ v.offset < (g.node v.node).outputs.length ∧
      rank v.node < rank m := by
  by_cases hm : m < g.nodes.length
  · exact h m hm v hv
  · rw [node_absent_of_le g m (Nat.le_of_not_lt hm)] at hv
    simp [Node.absent] at hv

theorem mem_substInputs {v w u : Value} {ins : List Value} (h : u ∈ substInputs v w ins) :
    (u ∈ ins ∧ u ≠ v) ∨ (u = w ∧ v ∈ ins) := by
  simp only [substInputs, List.mem_map] at h
  obtain ⟨a, ha, rfl⟩ := h
  by_cases hav : a = v
  · subst hav
    simp [ha]
  · simp [hav, ha]

theorem substInputs_of_not_mem {v w : Value} {ins : List Value} (h : v ∉ ins) :
    substInputs v w ins = ins := by
  simp only [substInputs]
  conv_rhs => rw [← List.map_id ins]
  apply List.map_congr_left
  intro a ha
  have : a ≠ v := fun e => h (e ▸ ha)
  simp [this]

theorem replaceAllUsesWith_length (g : Graph) (v w : Value) :
    (g.replaceAllUsesWith v w).nodes.length = g.nodes.length := by
  simp [Graph.replaceAllUsesWith]

theorem node_replaceAllUsesWith_of_not_mem {g : Graph} {v w : Value} {a : NodeId}
    (h : v ∉ (g.node a).inputs) : (g.replaceAllUsesWith v w).node a = g.node a := by
  rw [node_replaceAllUsesWith, substInputs_of_not_mem h]

/-- Rewiring the consumers of `out` to a value whose producer ranks no higher
than the producer of `out` keeps the ranking. -/
theorem ranked_replaceAllUsesWith {g : Graph} {rank : NodeId → Nat} {out x : Value}
    (h : Ranked g rank) (hx1 : x.node < g.nodes.length)
    (hx2 : x.offset < (g.node x.node).outputs.length)
    (hx3 : rank x.node ≤ rank out.node) :
    Ranked (g.replaceAllUsesWith out x) rank := by
  intro m _ u hu
  rw [replaceAllUsesWith_length]
  rw [node_replaceAllUsesWith] at hu
  simp only [node_replaceAllUsesWith]
  rcases mem_substInputs hu with ⟨hu1, _⟩ | ⟨rfl, hout⟩
  · exact h.apply m u hu1
  · have := h.apply m out hout
    exact ⟨hx1, hx2, Nat.lt_of_le_of_lt hx3 this.2.2⟩

theorem unused_replaceAllUsesWith {g : Graph} {a : NodeId} {out x : Value}
    (h : Unused g a) (hx : x.node ≠ a) : Unused (g.replaceAllUsesWith out x) a := by
  intro m u hu
  rw [node_replaceAllUsesWith] at hu
  rcases mem_substInputs hu with ⟨hu1, _⟩ | ⟨rfl, _⟩
  · exact h m u hu1
  · exact hx

theorem unused_self_replaceAllUsesWith {g : Graph} {rank : NodeId → Nat} {k : NodeId}
    {x : Value} (h : Ranked g rank) (hout : (g.node k).outputs.length = 1)
    (hx : x.node ≠ k) : Unused (g.replaceAllUsesWith ⟨k, 0⟩ x) k := by
  intro m u hu
  rw [node_replaceAllUsesWith] at hu
  rcases mem_substInputs hu with ⟨hu1, hne⟩ | ⟨rfl, _⟩
  · intro hk
    have := (h.apply m u hu1).2.1
    rw [hk, hout] at this
    apply hne
    cases u with
    | mk un uo =>
      simp only at hk this
      subst hk
      have : uo = 0 := by omega
      subst this
      rfl
  · exact hx

theorem skip_replaceAllUsesWith {g : Graph} {a : NodeId} {out x : Value}
    (h : matchNode g a = .ok .skip) (ha : out ∉ (g.node a).inputs) :
    matchNode (g.replaceAllUsesWith out x) a = .ok .skip := by
  apply matchNode_skip_of_agree h (node_replaceAllUsesWith_of_not_mem ha)
  intro v _
  rw [node_replaceAllUsesWith]
  exact ⟨rfl, rfl⟩

theorem node_copyMetadata_of_ne (g : Graph) (v src : Value) (m : NodeId) (h : m ≠ v.node) :
    (g.copyMetadata v src).node m = g.node m := by
  simp [Graph.copyMetadata, Graph.node, List.getD_eq_getElem?_getD, modifyNode_getElem?, h]

theorem withAddmm_length (g : Graph) (k : NodeId) (mat mat1 mat2 out : Value) :
    (g.withAddmm k mat mat1 mat2 out).nodes.length = g.nodes.length + 1 := by
  simp [Graph.withAddmm, copyMetadata_length, insertAddmm_length]

theorem node_withAddmm_old (g : Graph) (k : NodeId) (mat mat1 mat2 out : Value) (m : NodeId)
    (hm : m < g.nodes.length) : (g.withAddmm k mat mat1 mat2 out).node m = g.node m := by
  unfold Graph.withAddmm
  have hne : m ≠ (g.insertAddmm k mat mat1 mat2).2.node := Nat.ne_of_lt hm
  rw [node_copyMetadata_of_ne _ _ _ _ hne, node_insertAddmm_old g k _ _ _ m hm]

theorem node_withAddmm_new (g : Graph) (k : NodeId) (mat mat1 mat2 out : Value) :
    ((g.withAddmm k mat mat1 mat2 out).node g.nodes.length).kind = .addmm ∧
    ((g.withAddmm k mat mat1 mat2 out).node g.nodes.length).inputs = [mat, mat1, mat2] ∧
    ((g.withAddmm k mat mat1 mat2 out).node g.nodes.length).outputs.length = 1 := by
  unfold Graph.withAddmm
  refine ⟨?_, ?_, ?_⟩
  · rw [node_copyMetadata_kind, node_insertAddmm_new]
  · rw [node_copyMetadata_inputs, node_insertAddmm_new]
  · rw [node_copyMetadata_outputs_length, node_insertAddmm_new]
    rfl

theorem node_withAddmm_inputs (g : Graph) (k : NodeId) (mat mat1 mat2 out : Value) (m : NodeId)
    (v : Value) (hv : v ∈ ((g.withAddmm k mat mat1 mat2 out).node m).inputs) :
    (m < g.nodes.length ∧ v ∈ (g.node m).inputs) ∨
      (m = g.nodes.length ∧ (v = mat ∨ v = mat1 ∨ v = mat2)) := by
  rcases Nat.lt_trichotomy m g.nodes.length with h | h | h
  · rw [node_withAddmm_old g k mat mat1 mat2 out m h] at hv
    exact Or.inl ⟨h, hv⟩
  · subst h
    rw [(node_withAddmm_new g k mat mat1 mat2 out).2.1] at hv
    simpa using hv
  · rw [node_absent_of_le] at hv
    · simp [Node.absent] at hv
    · rw [withAddmm_length]; omega

theorem perform_fuse (g : Graph) (k : NodeId) (mat mat1 mat2 out : Value) :
    perform g k (.fuse mat mat1 mat2 out) =
      (g.withAddmm k mat mat1 mat2 out).replaceAllUsesWith out ⟨g.nodes.length, 0⟩ := rfl

theorem ranked_withAddmm {g : Graph} {rank : NodeId → Nat} {k : NodeId}
    {mat mat1 mat2 out y : Value} (h : Ranked g rank)
    (hmat : mat ∈ (g.node k).inputs) (hy : y ∈ (g.node k).inputs)
    (h1 : mat1 ∈ (g.node y.node).inputs) (h2 : mat2 ∈ (g.node y.node).inputs) :
    Ranked (g.withAddmm k mat mat1 mat2 out) (Function.update rank g.nodes.length (rank k)) := by
  have key : ∀ v, v = mat ∨ v = mat1 ∨ v = mat2 →
      v.node < g.nodes.length ∧ v.offset < (g.node v.node).outputs.length ∧
        rank v.node < rank k := by
    intro v hv
    have hyk := h.apply k y hy
    rcases hv with rfl | rfl | rfl
    · exact h.apply k _ hmat
    · have := h.apply y.node _ h1
      exact ⟨this.1, this.2.1, Nat.lt_trans this.2.2 hyk.2.2⟩
    · have := h.apply y.node _ h2
      exact ⟨this.1, this.2.1, Nat.lt_trans this.2.2 hyk.2.2⟩
  intro m _ v hv
  rw [withAddmm_length]
  rcases node_withAddmm_inputs g k mat mat1 mat2 out m v hv with ⟨hm, hv1⟩ | ⟨hm, hv1⟩
  · have := h.apply m v hv1
    rw [node_withAddmm_old g k _ _ _ _ _ this.1,
      Function.update_noteq (Nat.ne_of_lt this.1), Function.update_noteq (Nat.ne_of_lt hm)]
    exact ⟨Nat.lt_succ_of_lt this.1, this.2.1, this.2.2⟩
  · have := key v hv1
    subst hm
    rw [node_withAddmm_old g k _ _ _ _ _ this.1,
      Function.update_noteq (Nat.ne_of_lt this.1), Function.update_same]
    exact ⟨Nat.lt_succ_of_lt this.1, this.2.1, this.2.2⟩

theorem unused_withAddmm {g : Graph} {a k : NodeId} {mat mat1 mat2 out y : Value}
    (h : Unused g a)
    (hmat : mat ∈ (g.node k).inputs)
    (h1 : mat1 ∈ (g.node y.node).inputs) (h2 : mat2 ∈ (g.node y.node).inputs) :
    Unused (g.withAddmm k mat mat1 mat2 out) a := by
  intro m v hv
  rcases node_withAddmm_inputs g k mat mat1 mat2 out m v hv with ⟨_, hv1⟩ | ⟨_, rfl | rfl | rfl⟩
  · exact h m v hv1
  · exact h k _ hmat
  · exact h y.node _ h1
  · exact h y.node _ h2

theorem skip_withAddmm {g : Graph} {rank : NodeId → Nat} {a k : NodeId}
    {mat mat1 mat2 out : Value} (hr : Ranked g rank)
    (h : matchNode g a = .ok .skip) (ha : a < g.nodes.length) :
    matchNode (g.withAddmm k mat mat1 mat2 out) a = .ok .skip := by
  apply matchNode_skip_of_agree h (node_withAddmm_old g k _ _ _ _ a ha)
  intro v hv
  rw [node_withAddmm_old g k _ _ _ _ _ (hr.apply a v hv).1]
  exact ⟨rfl, rfl⟩

/-- One switch, on a node `k` that ranks above the nodes of `pre`: the graph
stays ranked, the nodes of `pre` stay settled and `k` becomes settled. -/
theorem settle_step {g g2 : Graph} {rank : NodeId → Nat} {k : NodeId} {pre : List NodeId}
    (hr : Ranked g rank) (hk : k < g.nodes.length)
    (hpre : ∀ a ∈ pre, a < g.nodes.length ∧ rank a < rank k ∧ Settled g a)
    (h : rewriteNode g k = .ok g2) :
    ∃ rank2, Ranked g2 rank2 ∧ (∀ n, n < g.nodes.length → rank2 n = rank n) ∧
      g.nodes.length ≤ g2.nodes.length ∧ (∀ a ∈ pre, Settled g2 a) ∧ Settled g2 k := by
  have hnotin : ∀ a ∈ pre, ∀ i, (⟨k, i⟩ : Value) ∉ (g.node a).inputs := by
    intro a ha i hmem
    have h1 := (hr.apply a _ hmem).2.2
    have h2 := (hpre a ha).2.1
    exact absurd h1 (Nat.lt_asymm h2)
  rw [rewriteNode_eq_perform] at h
  cases hm : matchNode g k with
  | error e => rw [hm] at h; cases h
  | ok act =>
    rw [hm] at h
    simp only [Except.map] at h
    injection h with h
    cases act with
    | skip =>
      simp only [perform] at h
      subst h
      exact ⟨rank, hr, fun _ _ => rfl, Nat.le_refl _, fun a ha => (hpre a ha).2.2, Or.inl hm⟩
    | replace out x =>
      simp only [perform] at h
      subst h
      obtain ⟨hout, hlen, hx⟩ := matchNode_replace_spec hm
      subst hout
      have hxr : x.node < g.nodes.length ∧ x.offset < (g.node x.node).outputs.length ∧
          rank x.node < rank k ∧ ∃ p, x ∈ (g.node p).inputs := by
        rcases hx with hx | ⟨y, hy, hx⟩
        · have := hr.apply k x hx
          exact ⟨this.1, this.2.1, this.2.2, k, hx⟩
        · have h1 := hr.apply k y hy
          have h2 := hr.apply y.node x hx
          exact ⟨h2.1, h2.2.1, Nat.lt_trans h2.2.2 h1.2.2, y.node, hx⟩
      obtain ⟨hx1, hx2, hx3, p, hp⟩ := hxr
      refine ⟨rank, ranked_replaceAllUsesWith hr hx1 hx2 (Nat.le_of_lt hx3), fun _ _ => rfl,
        by rw [replaceAllUsesWith_length], ?_, ?_⟩
      · intro a ha
        cases (hpre a ha).2.2 with
        | inl hs => exact Or.inl (skip_replaceAllUsesWith hs (hnotin a ha 0))
        | inr hu => exact Or.inr (unused_replaceAllUsesWith hu (hu p x hp))
      · exact Or.inr (unused_self_replaceAllUsesWith hr hlen
          (fun e => absurd hx3 (by rw [e]; exact Nat.lt_irrefl _)))
    | fuse mat mat1 mat2 out =>
      rw [perform_fuse] at h
      subst h
      obtain ⟨hout, hlen, -, hmat, y, hy, h1, h2⟩ := matchNode_fuse_spec hm
      subst hout
      have hr2 := @ranked_withAddmm g rank k mat mat1 mat2 ⟨k, 0⟩ y hr hmat hy h1 h2
      have hnew := node_withAddmm_new g k mat mat1 mat2 ⟨k, 0⟩
      have hkne : k ≠ g.nodes.length := Nat.ne_of_lt hk
      refine ⟨Function.update rank g.nodes.length (rank k), ?_, ?_, ?_, ?_, ?_⟩
      · apply ranked_replaceAllUsesWith hr2
        · rw [withAddmm_length]; exact Nat.lt_succ_self _
        · rw [hnew.2.2]; exact Nat.zero_lt_one
        · show Function.update rank g.nodes.length (rank k) g.nodes.length
            ≤ Function.update rank g.nodes.length (rank k) k
          rw [Function.update_same, Function.update_noteq hkne]
      · intro n hn
        exact Function.update_noteq (Nat.ne_of_lt hn) _ _
      · rw [replaceAllUsesWith_length, withAddmm_length]; exact Nat.le_succ _
      · intro a ha
        have hal := (hpre a ha).1
        cases (hpre a ha).2.2 with
        | inl hs =>
          refine Or.inl (skip_replaceAllUsesWith (skip_withAddmm hr hs hal) ?_)
          rw [node_withAddmm_old g k _ _ _ _ a hal]
          exact hnotin a ha 0
        | inr hu =>
          exact Or.inr (unused_replaceAllUsesWith (unused_withAddmm hu hmat h1 h2)
            (Nat.ne_of_gt hal))
      · refine Or.inr (unused_self_replaceAllUsesWith hr2 ?_ (Nat.ne_of_gt hk))
        rw [node_withAddmm_old g k _ _ _ _ k hk]
        exact hlen

/-- The switch applied in turn to nodes of increasing rank leaves every one of
them settled. -/
theorem settle_fold :
    ∀ (post pre : List NodeId) (g : Graph) (rank : NodeId → Nat) (g1 : Graph),
      Ranked g rank →
      (∀ a ∈ pre, a < g.nodes.length ∧ Settled g a) →
      (∀ c ∈ post, c < g.nodes.length) →
      (∀ a ∈ pre, ∀ c ∈ post, rank a < rank c) →
      post.Pairwise (fun a c => rank a < rank c) →
      rewriteNodes post g = .ok g1 →
      ∃ rank1, Ranked g1 rank1 ∧ ∀ a ∈ pre ++ post, Settled g1 a := by
  intro post
  induction post with
  | nil =>
    intro pre g rank g1 hr hpre _ _ _ h
    simp only [rewriteNodes] at h
    injection h with h
    subst h
    exact ⟨rank, hr, fun a ha => (hpre a (by simpa using ha)).2⟩
  | cons k rest ih =>
    intro pre g rank g1 hr hpre hpost hlt hpw h
    simp only [rewriteNodes] at h
    split at h
    · cases h
    · next g2 h2 =>
      have hk : k < g.nodes.length := hpost k (by simp)
      obtain ⟨rank2, hr2, hsame, hle, hs1, hs2⟩ := settle_step hr hk
        (fun a ha => ⟨(hpre a ha).1, hlt a ha k (by simp), (hpre a ha).2⟩) h2
      have hpw' := List.pairwise_cons.mp hpw
      obtain ⟨rank1, hr1, hs⟩ := ih (pre ++ [k]) g2 rank2 g1 hr2
        (by
          intro a ha
          rcases List.mem_append.mp ha with ha | ha
          · exact ⟨Nat.lt_of_lt_of_le (hpre a ha).1 hle, hs1 a ha⟩
          · rw [List.mem_singleton.mp ha]
            exact ⟨Nat.lt_of_lt_of_le hk hle, hs2⟩)
        (fun c hc => Nat.lt_of_lt_of_le (hpost c (by simp [hc])) hle)
        (by
          intro a ha c hc
          have hc1 : c < g.nodes.length := hpost c (by simp [hc])
          rcases List.mem_append.mp ha with ha | ha
          · rw [hsame a (hpre a ha).1, hsame c hc1]
            exact hlt a ha c (by simp [hc])
          · rw [List.mem_singleton.mp ha, hsame k hk, hsame c hc1]
            exact hpw'.1 c hc)
        (by
          refine List.Pairwise.imp_of_mem ?_ hpw'.2
          intro a c ha hc hac
          rw [hsame a (hpost a (by simp [ha])), hsame c (hpost c (by simp [hc]))]
          exact hac)
        h
      refine ⟨rank1, hr1, fun a ha => hs a ?_⟩
      simpa using ha

theorem markStep_length (g : Graph) (live : List Bool) :
    (markStep g live).length = g.nodes.length := by
  simp [markStep]

theorem liveRoots_length (g : Graph) (b : BlockId) :
    (liveRoots g b).length = g.nodes.length := by
  simp [liveRoots]

theorem isLive_lt {live : List Bool} {n : NodeId} (h : isLive live n = true) :
    n < live.length := by
  by_contra hn
  simp [isLive, List.getD_eq_getElem?_getD, List.getElem?_eq_none (Nat.le_of_not_lt hn)] at h

theorem isLive_markStep (g : Graph) (live : List Bool) (n : NodeId) :
    isLive (markStep g live) n = true ↔
      n < g.nodes.length ∧ (isLive live n = true ∨
        ∃ u, u < g.nodes.length ∧ isLive live u = true ∧
          (g.consumes u n = true ∨ g.delimits u n = true)) := by
  by_cases hn : n < g.nodes.length
  · simp only [isLive, markStep, List.getD_eq_getElem?_getD, List.getElem?_map,
      List.getElem?_range hn, Option.map_some', Option.getD_some, Bool.or_eq_true,
      List.any_eq_true, List.mem_range, Bool.and_eq_true, hn, true_and]
  · constructor
    · intro h
      have := isLive_lt h
      rw [markStep_length] at this
      exact absurd this hn
    · intro h
      exact absurd h.1 hn

theorem isLive_liveRoots (g : Graph) (b : BlockId) (n : NodeId) :
    isLive (liveRoots g b) n = true ↔ n < g.nodes.length ∧ g.delimitsBlock b n = true := by
  by_cases hn : n < g.nodes.length
  · simp only [isLive, liveRoots, List.getD_eq_getElem?_getD, List.getElem?_map,
      List.getElem?_range hn, Option.map_some', Option.getD_some, hn, true_and]
  · constructor
    · intro h
      have := isLive_lt h
      rw [liveRoots_length] at this
      exact absurd this hn
    · intro h
      exact absurd h.1 hn

theorem markStep_mono {g : Graph} {live : List Bool} (hl : live.length = g.nodes.length)
    {n : NodeId} (h : isLive live n = true) : isLive (markStep g live) n = true := by
  rw [isLive_markStep]
  exact ⟨hl ▸ isLive_lt h, Or.inl h⟩

/-- What a finished marking gives: marks of the right length, closed under
`markStep`, above the marks it started from. -/
theorem markLive_ok :
    ∀ (k : Nat) (g : Graph) (live final : List Bool), live.length = g.nodes.length →
      markLive k g live = .ok final →
      final.length = g.nodes.length ∧ markStep g final = final ∧
        ∀ n, isLive live n = true → isLive final n = true := by
  intro k
  induction k with
  | zero => intro g live final _ h; cases h
  | succ k ih =>
    intro g live final hl h
    simp only [markLive] at h
    split at h
    · next hfix =>
      injection h with h
      subst h
      exact ⟨hl, hfix, fun _ hn => hn⟩
    · obtain ⟨h1, h2, h3⟩ := ih g (markStep g live) final (markStep_length g live) h
      exact ⟨h1, h2, fun n hn => h3 n (markStep_mono hl hn)⟩

theorem justified_liveRoots (g : Graph) (b : BlockId) : Justified g b (liveRoots g b) := by
  intro n hn
  exact Or.inl ((isLive_liveRoots g b n).mp hn).2

theorem justified_markStep {g : Graph} {b : BlockId} {live : List Bool}
    (hl : live.length = g.nodes.length) (h : Justified g b live) :
    Justified g b (markStep g live) := by
  intro n hn
  rcases ((isLive_markStep g live n).mp hn).2 with h1 | ⟨u, _, hu, hc⟩
  · rcases h n h1 with h2 | ⟨u, hu, hc⟩
    · exact Or.inl h2
    · exact Or.inr ⟨u, markStep_mono hl hu, hc⟩
  · exact Or.inr ⟨u, markStep_mono hl hu, hc⟩

theorem markLive_justified (b : BlockId) :
    ∀ (k : Nat) (g : Graph) (live final : List Bool), live.length = g.nodes.length →
      Justified g b live → markLive k g live = .ok final → Justified g b final := by
  intro k
  induction k with
  | zero => intro g live final _ _ h; cases h
  | succ k ih =>
    intro g live final hl hj h
    simp only [markLive] at h
    split at h
    · injection h with h
      subst h
      exact hj
    · exact ih g (markStep g live) final (markStep_length g live) (justified_markStep hl hj) h

/-- Closed marks: the producer of a value consumed by a marked node is
marked. -/
theorem live_of_consumes {g : Graph} {live : List Bool} (hfix : markStep g live = live)
    {u n : NodeId} (hu : isLive live u = true) (hc : g.consumes u n = true)
    (hn : n < g.nodes.length) : isLive live n = true := by
  rw [← hfix, isLive_markStep]
  have hul : u < g.nodes.length := by
    have := isLive_lt hu
    rw [← hfix, markStep_length] at this
    exact this
  exact ⟨hn, Or.inr ⟨u, hul, hu, Or.inl hc⟩⟩

theorem purge_nodes_getElem? (g : Graph) (live : List Bool) (n : NodeId) :
    (g.purge live).nodes[n]? =
      (g.nodes[n]?).map (fun nd => if isLive live n then nd else Node.absent) := by
  simp only [Graph.purge, List.getElem?_zipWith]
  by_cases hn : n < g.nodes.length
  · simp [List.getElem?_range hn, List.getElem?_eq_getElem hn]
  · have h1 : g.nodes[n]? = none := List.getElem?_eq_none (Nat.le_of_not_lt hn)
    have h2 : (List.range g.nodes.length)[n]? = none :=
      List.getElem?_eq_none (by simpa using Nat.le_of_not_lt hn)
    simp [h1, h2]

theorem purge_length (g : Graph) (live : List Bool) :
    (g.purge live).nodes.length = g.nodes.length := by
  simp [Graph.purge]

theorem node_purge (g : Graph) (live : List Bool) (n : NodeId) :
    (g.purge live).node n = if isLive live n then g.node n else Node.absent := by
  simp only [Graph.node, List.getD_eq_getElem?_getD, purge_nodes_getElem?]
  cases g.nodes[n]? with
  | none => simp
  | some nd => simp

theorem purge_blocks_getElem? (g : Graph) (live : List Bool) (b : BlockId) :
    (g.purge live).blocks[b]? =
      (g.blocks[b]?).map (fun blk => { blk with nodes := blk.nodes.filter (isLive live) }) := by
  simp [Graph.purge]

theorem block_purge_nodes (g : Graph) (live : List Bool) (b : BlockId) :
    ((g.purge live).block b).nodes = (g.block b).nodes.filter (isLive live) := by
  simp only [Graph.block, List.getD_eq_getElem?_getD, purge_blocks_getElem?]
  cases g.blocks[b]? <;> simp [Block.absent]

theorem purge_blocks_length (g : Graph) (live : List Bool) :
    (g.purge live).blocks.length = g.blocks.length := by
  simp [Graph.purge]

theorem delimitsBlock_purge (g : Graph) (live : List Bool) (b : BlockId) (n : NodeId) :
    (g.purge live).delimitsBlock b n = g.delimitsBlock b n := by
  simp only [Graph.delimitsBlock, purge_blocks_getElem?]
  cases g.blocks[b]? <;> rfl

theorem consumes_purge {g : Graph} {live : List Bool} {u : NodeId} (hu : isLive live u = true)
    (n : NodeId) : (g.purge live).consumes u n = g.consumes u n := by
  simp [Graph.consumes, node_purge, hu]

theorem delimits_purge {g : Graph} {live : List Bool} {u : NodeId} (hu : isLive live u = true)
    (n : NodeId) : (g.purge live).delimits u n = g.delimits u n := by
  simp [Graph.delimits, node_purge, hu, delimitsBlock_purge]

theorem markStep_purge {g : Graph} {live marks : List Bool}
    (h : ∀ u, isLive marks u = true → isLive live u = true) :
    markStep (g.purge live) marks = markStep g marks := by
  simp only [markStep, purge_length]
  apply List.map_congr_left
  intro n _
  congr 1
  congr 1
  funext u
  cases hu : isLive marks u with
  | false => rfl
  | true => rw [consumes_purge (h u hu), delimits_purge (h u hu)]

theorem markLive_purge :
    ∀ (k : Nat) (g : Graph) (marks live : List Bool), marks.length = g.nodes.length →
      markLive k g marks = .ok live → markLive k (g.purge live) marks = .ok live := by
  intro k
  induction k with
  | zero => intro g marks live _ h; cases h
  | succ k ih =>
    intro g marks live hl h
    have hle := (markLive_ok (k + 1) g marks live hl h).2.2
    simp only [markLive] at h ⊢
    rw [markStep_purge hle]
    split
    · next hfix => simpa [hfix] using h
    · next hfix =>
      simp only [hfix, if_false] at h
      exact ih g (markStep g marks) live (markStep_length g marks) h

theorem liveRoots_purge (g : Graph) (live : List Bool) (b : BlockId) :
    liveRoots (g.purge live) b = liveRoots g b := by
  simp only [liveRoots, purge_length]
  apply List.map_congr_left
  intro n _
  exact delimitsBlock_purge g live b n

theorem purge_purge (g : Graph) (live : List Bool) : (g.purge live).purge live = g.purge live := by
  have hn : ((g.purge live).purge live).nodes = (g.purge live).nodes := by
    apply List.ext_getElem?
    intro n
    rw [purge_nodes_getElem?, purge_nodes_getElem?]
    cases g.nodes[n]? with
    | none => rfl
    | some nd =>
      simp only [Option.map_some']
      split <;> rfl
  have hb : ((g.purge live).purge live).blocks = (g.purge live).blocks := by
    apply List.ext_getElem?
    intro b
    rw [purge_blocks_getElem?, purge_blocks_getElem?]
    cases g.blocks[b]? with
    | none => rfl
    | some blk => simp [List.filter_filter]
  cases hg : (g.purge live).purge live with
  | mk ns bs =>
    cases hg2 : g.purge live with
    | mk ns2 bs2 =>
      rw [hg, hg2] at hn hb
      simp only at hn hb
      rw [hn, hb]

/-- Dead-code elimination has nothing left to remove from its own result. -/
theorem EliminateDeadCode_idem {g g2 : Graph} {b : BlockId}
    (h : EliminateDeadCode g b = .ok g2) : EliminateDeadCode g2 b = .ok g2 := by
  simp only [EliminateDeadCode] at h
  split at h
  · cases h
  · next live hlive =>
    injection h with h
    subst h
    simp only [EliminateDeadCode, purge_length, liveRoots_purge,
      markLive_purge _ g _ live (liveRoots_length g b) hlive, purge_purge]

theorem optimizeSubBlocks_identity (opt : Graph → BlockId → Except Failure Graph) (g : Graph) :
    ∀ (l : List BlockId), (∀ sb ∈ l, opt g sb = .ok g) → optimizeSubBlocks opt l g = .ok g := by
  intro l
  induction l with
  | nil => intro _; rfl
  | cons sb rest ih =>
    intro h
    simp only [optimizeSubBlocks, h sb (by simp)]
    exact ih (fun sb hsb => h sb (by simp [hsb]))

theorem visitNodes_identity (opt : Graph → BlockId → Except Failure Graph) (g : Graph) :
    ∀ (l : List NodeId), (∀ n ∈ l, visitNode opt g n = .ok g) → visitNodes opt l g = .ok g := by
  intro l
  induction l with
  | nil => intro _; rfl
  | cons n rest ih =>
    intro h
    simp only [visitNodes, h n (by simp)]
    exact ih (fun m hm => h m (by simp [hm]))

/-- When the switch changes nothing on any node met by the traversal of block
`b`, the traversal returns the graph it was given. -/
theorem PeepholeOptimizeBlock_identity (depth : BlockId → Nat) :
    ∀ (fuel : Nat) (g : Graph) (b : BlockId), g.NestedBelow depth → depth b < fuel →
      (∀ n, Reach g b n → rewriteNode g n = .ok g) →
      PeepholeOptimizeBlock fuel g b = .ok g := by
  intro fuel
  induction fuel with
  | zero => intro g b _ h; exact absurd h (Nat.not_lt_zero _)
  | succ fuel ih =>
    intro g b hnest hfuel hq
    simp only [PeepholeOptimizeBlock]
    apply visitNodes_identity
    intro n hn
    simp only [visitNode]
    rw [optimizeSubBlocks_identity]
    · exact hq n (Reach.here hn)
    · intro sb hsb
      apply ih g sb hnest
      · have := nestedBelow_apply hnest b n sb hn hsb
        omega
      · intro m hm
        exact hq m (Reach.nested hn hsb hm)

theorem mem_visitOrder_of_reach {g : Graph} {depth : BlockId → Nat} (hnest : g.NestedBelow depth)
    {b : BlockId} {n : NodeId} (hr : Reach g b n) :
    ∀ fuel, depth b < fuel → n ∈ visitOrder fuel g b := by
  induction hr with
  | here hm =>
    intro fuel hf
    cases fuel with
    | zero => exact absurd hf (Nat.not_lt_zero _)
    | succ fuel =>
      simp only [visitOrder]
      exact mem_orderNodes.mpr ⟨_, hm, Or.inl rfl⟩
  | nested hm hsb _ ih =>
    intro fuel hf
    cases fuel with
    | zero => exact absurd hf (Nat.not_lt_zero _)
    | succ fuel =>
      simp only [visitOrder]
      refine mem_orderNodes.mpr ⟨_, hm, Or.inr ⟨_, hsb, ih fuel ?_⟩⟩
      have := nestedBelow_apply hnest _ _ _ hm hsb
      omega

theorem reach_old_or_new {g g1 : Graph} (h : Extends g g1) {b : BlockId} {n : NodeId}
    (hr : Reach g1 b n) : Reach g b n ∨ g.nodes.length ≤ n := by
  induction hr with
  | here hm =>
    cases h.mem_old_or_new _ _ hm with
    | inl h1 => exact Or.inl (Reach.here h1)
    | inr h1 => exact Or.inr h1
  | nested hm hsb _ ih =>
    rw [h.blocks_eq] at hsb
    cases h.mem_old_or_new _ _ hm with
    | inl h1 =>
      cases ih with
      | inl h2 => exact Or.inl (Reach.nested h1 hsb h2)
      | inr h2 => exact Or.inr h2
    | inr h1 =>
      rw [node_absent_of_le _ _ h1] at hsb
      simp [Node.absent] at hsb

theorem reach_purge {g : Graph} {live : List Bool} {b : BlockId} {n : NodeId}
    (hr : Reach (g.purge live) b n) : isLive live n = true ∧ Reach g b n := by
  induction hr with
  | here hm =>
    rw [block_purge_nodes, List.mem_filter] at hm
    exact ⟨hm.2, Reach.here hm.1⟩
  | nested hm hsb _ ih =>
    rw [block_purge_nodes, List.mem_filter] at hm
    rw [node_purge, if_pos hm.2] at hsb
    exact ⟨ih.1, Reach.nested hm.1 hsb ih.2⟩

theorem nestedBelow_purge {g : Graph} {depth : BlockId → Nat} (live : List Bool)
    (h : g.NestedBelow depth) : (g.purge live).NestedBelow depth := by
  intro b _ n hn sb hsb
  rw [block_purge_nodes, List.mem_filter] at hn
  rw [node_purge, if_pos hn.2] at hsb
  exact nestedBelow_apply h b n sb hn.1 hsb

theorem mem_of_consumes {g : Graph} {u n : NodeId} (h : g.consumes u n = true) :
    ∃ v ∈ (g.node u).inputs, v.node = n := by
  simpa [Graph.consumes] using h

theorem block_mem_of_delimitsBlock {g : Graph} {b : BlockId} {n : NodeId}
    (h : g.delimitsBlock b n = true) : ∃ blk ∈ g.blocks, blk.ret = n ∨ blk.param = n := by
  unfold Graph.delimitsBlock at h
  split at h
  · next blk hb =>
    obtain ⟨hi, he⟩ := List.getElem?_eq_some.mp hb
    refine ⟨blk, he ▸ List.getElem_mem hi, ?_⟩
    simpa using h
  · cases h

theorem block_of_mem {g : Graph} {blk : Block} (h : blk ∈ g.blocks) :
    ∃ b, b < g.blocks.length ∧ g.block b = blk := by
  obtain ⟨b, hb, rfl⟩ := List.getElem_of_mem h
  exact ⟨b, hb, by simp [Graph.block, List.getD_eq_getElem?_getD, List.getElem?_eq_getElem hb]⟩

theorem block_mem {g : Graph} {b : BlockId} (h : b < g.blocks.length) : g.block b ∈ g.blocks := by
  simp only [Graph.block, List.getD_eq_getElem?_getD, List.getElem?_eq_getElem h,
    Option.getD_some]
  exact List.getElem_mem h

/-- After a traversal the blocks are still delimited by `Return` and `Param`
nodes, on which the switch does nothing. -/
theorem skip_of_delimiter {g g1 : Graph} (hd : ∀ blk ∈ g.blocks,
      (g.node blk.ret).kind = .Return ∧ (g.node blk.param).kind = .Param)
    (he : Extends g g1) {n : NodeId}
    (h : ∃ blk ∈ g1.blocks, blk.ret = n ∨ blk.param = n) : matchNode g1 n = .ok .skip := by
  obtain ⟨blk1, hmem, hn⟩ := h
  obtain ⟨b, hb, rfl⟩ := block_of_mem hmem
  rw [he.ret_eq, he.param_eq] at hn
  rw [he.blocks_length] at hb
  have hk := hd _ (block_mem hb)
  have hkind : (g.node n).kind = .Return ∨ (g.node n).kind = .Param := by
    cases hn with
    | inl h => rw [← h]; exact Or.inl hk.1
    | inr h => rw [← h]; exact Or.inr hk.2
  have hlt : n < g.nodes.length := lt_length_of_kind g n (by
    cases hkind with
    | inl h => rw [h]; decide
    | inr h => rw [h]; decide)
  have hkind1 : (g1.node n).kind = .Return ∨ (g1.node n).kind = .Param := by
    rw [he.kind_eq n hlt]; exact hkind
  apply matchNode_skip_of_kind <;>
  · intro hc
    cases hkind1 with
    | inl h => rw [h] at hc; cases hc
    | inr h => rw [h] at hc; cases hc

/-- After the traversal of a well-formed graph and the marking of the live
nodes, the switch skips every node that is still listed. -/
theorem skip_after_purge {g g1 : Graph} {fuel : Nat} {rank : NodeId → Nat}
    {depth : BlockId → Nat} {live : List Bool}
    (hwf : WellFormed g fuel rank depth)
    (h1 : PeepholeOptimizeBlock fuel g 0 = .ok g1)
    (hl : markLive (g1.nodes.length + 1) g1 (liveRoots g1 0) = .ok live)
    (n : NodeId) (hr : Reach (g1.purge live) 0 n) :
    matchNode (g1.purge live) n = .ok .skip := by
  have he : Extends g g1 := PeepholeOptimizeBlock_extends fuel g 0 g1 h1
  have hnd : (visitOrder fuel g 0).Nodup :=
    List.Pairwise.imp (fun hlt heq => absurd hlt (by rw [heq]; exact Nat.lt_irrefl _)) hwf.ordered
  have hflat := PeepholeOptimizeBlock_flatten fuel g 0 g1 h1 hnd
  obtain ⟨rank1, hr1, hset⟩ := settle_fold (visitOrder fuel g 0) [] g rank g1 hwf.ranked
    (fun a ha => by simp at ha) hwf.listed (fun a ha => by simp at ha) hwf.ordered hflat
  obtain ⟨hlen, hfix, -⟩ := markLive_ok _ g1 _ live (liveRoots_length g1 0) hl
  have hjust := markLive_justified 0 _ g1 _ live (liveRoots_length g1 0)
    (justified_liveRoots g1 0) hl
  obtain ⟨hlive, hreach1⟩ := reach_purge hr
  -- the switch skips `n` in the graph before the purge
  have hskip1 : matchNode g1 n = .ok .skip := by
    cases reach_old_or_new he hreach1 with
    | inl hold =>
      have hmem := mem_visitOrder_of_reach hwf.nested hold fuel hwf.fuel_ok
      cases hset n (by simpa using hmem) with
      | inl hs => exact hs
      | inr hu =>
        rcases hjust n hlive with hroot | ⟨u, _, hc | hc⟩
        · exact skip_of_delimiter hwf.delimiters he (block_mem_of_delimitsBlock hroot)
        · obtain ⟨v, hv, hvn⟩ := mem_of_consumes hc
          exact absurd hvn (hu u v hv)
        · simp only [Graph.delimits, List.any_eq_true] at hc
          obtain ⟨sb, _, hsb⟩ := hc
          exact skip_of_delimiter hwf.delimiters he (block_mem_of_delimitsBlock hsb)
    | inr hnew =>
      by_cases hn1 : n < g1.nodes.length
      · have hk := he.new_kind n hnew hn1
        apply matchNode_skip_of_kind <;> · rw [hk]; decide
      · have hk := node_absent_of_le g1 n (Nat.le_of_not_lt hn1)
        apply matchNode_skip_of_kind <;> · rw [hk]; decide
  -- and so it does after the purge
  apply matchNode_skip_of_agree hskip1
  · rw [node_purge, if_pos hlive]
  · intro v hv
    have hvl : isLive live v.node = true :=
      live_of_consumes hfix hlive (by
        simp only [Graph.consumes, List.any_eq_true]
        exact ⟨v, hv, by simp⟩) (hr1.apply n v hv).1
    rw [node_purge, if_pos hvl]
    exact ⟨rfl, rfl⟩

/-- A successful `PeepholeOptimize` is a successful traversal followed by a
successful marking and the purge of the nodes left unmarked. -/
theorem PeepholeOptimize_ok {g g2 : Graph} {fuel : Nat} (h : PeepholeOptimize fuel g = .ok g2) :
    ∃ g1 live, PeepholeOptimizeBlock fuel g 0 = .ok g1 ∧
      markLive (g1.nodes.length + 1) g1 (liveRoots g1 0) = .ok live ∧
      EliminateDeadCode g1 0 = .ok g2 ∧ g2 = g1.purge live := by
  simp only [PeepholeOptimize] at h
  split at h
  · cases h
  · next g1 h1 =>
    have h0 := h
    simp only [EliminateDeadCode] at h
    split at h
    · cases h
    · next live hl =>
      injection h with h
      exact ⟨g1, live, h1, hl, h0, h.symm⟩

/-- On the result of `PeepholeOptimize` on a well-formed graph the switch skips
every listed node, the traversal changes nothing and dead-code elimination
removes nothing. -/
theorem PeepholeOptimize_fixed {g g2 : Graph} {fuel : Nat} {rank : NodeId → Nat}
    {depth : BlockId → Nat} (hwf : WellFormed g fuel rank depth)
    (h : PeepholeOptimize fuel g = .ok g2) :
    (∀ n, Reach g2 0 n → matchNode g2 n = .ok .skip) ∧
      PeepholeOptimizeBlock fuel g2 0 = .ok g2 ∧ EliminateDeadCode g2 0 = .ok g2 := by
  obtain ⟨g1, live, h1, hl, hdce, rfl⟩ := PeepholeOptimize_ok h
  have he : Extends g g1 := PeepholeOptimizeBlock_extends fuel g 0 g1 h1
  have hskip := skip_after_purge hwf h1 hl
  refine ⟨hskip, ?_, EliminateDeadCode_idem hdce⟩
  exact PeepholeOptimizeBlock_identity depth fuel _ 0
    (nestedBelow_purge live (nestedBelow_of_extends depth he hwf.nested)) hwf.fuel_ok
    (fun n hn => rewriteNode_of_skip (hskip n hn))

theorem count_true_lt :
    ∀ (l1 l2 : List Bool), l1.length = l2.length →
      (∀ i, isLive l1 i = true → isLive l2 i = true) → l1 ≠ l2 →
      l1.count true < l2.count true := by
  intro l1
  induction l1 with
  | nil =>
    intro l2 hl _ hne
    cases l2 with
    | nil => exact absurd rfl hne
    | cons b t2 => simp at hl
  | cons a t ih =>
    intro l2 hl hle hne
    cases l2 with
    | nil => simp at hl
    | cons b t2 =>
      have hab : a = true → b = true := by
        intro ha
        have := hle 0
        simpa [isLive, ha] using this
      have htl : ∀ i, isLive t i = true → isLive t2 i = true := by
        intro i hi
        have := hle (i + 1)
        simpa [isLive] using this (by simpa [isLive] using hi)
      by_cases ht : t = t2
      · subst ht
        have hne2 : a ≠ b := fun e => hne (by rw [e])
        cases a <;> cases b <;> simp_all
      · have hlt := ih t2 (by simpa using hl) htl ht
        cases a with
        | false =>
          cases b with
          | false => simpa using hlt
          | true =>
            simp only [List.count_cons_self, List.count_cons_of_ne (by decide : true ≠ false)]
            omega
        | true =>
          cases b with
          | false => exact absurd (hab rfl) (by decide)
          | true => simpa using hlt

theorem markLive_total :
    ∀ (k : Nat) (g : Graph) (live : List Bool), live.length = g.nodes.length →
      g.nodes.length < k + live.count true → ∃ final, markLive k g live = .ok final := by
  intro k
  induction k with
  | zero =>
    intro g live hl h
    have := List.count_le_length true live
    omega
  | succ k ih =>
    intro g live hl h
    simp only [markLive]
    split
    · exact ⟨live, rfl⟩
    · next hne =>
      have hlt := count_true_lt live (markStep g live) (by rw [markStep_length, hl])
        (fun i hi => markStep_mono hl hi) (fun e => hne e.symm)
      exact ih g (markStep g live) (markStep_length g live) (by omega)

/-- Dead-code elimination always ends in a graph. -/
theorem EliminateDeadCode_total (g : Graph) (b : BlockId) :
    ∃ g2, EliminateDeadCode g b = .ok g2 := by
  obtain ⟨live, h⟩ := markLive_total (g.nodes.length + 1) g (liveRoots g b)
    (liveRoots_length g b) (by omega)
  exact ⟨g.purge live, by simp [EliminateDeadCode, h]⟩

/-- The pass `PeepholeOptimize(Graph)` ends in a graph exactly when the traversal of the
root block does. -/
theorem PeepholeOptimize_ok_iff (fuel : Nat) (g : Graph) :
    (∃ g2, PeepholeOptimize fuel g = .ok g2) ↔ ∃ g1, PeepholeOptimizeBlock fuel g 0 = .ok g1 := by
  constructor
  · rintro ⟨g2, h⟩
    simp only [PeepholeOptimize] at h
    split at h
    · cases h
    · next g1 h1 => exact ⟨g1, h1⟩
  · rintro ⟨g1, h1⟩
    obtain ⟨g2, h2⟩ := EliminateDeadCode_total g1 0
    simp only [PeepholeOptimize, h1]
    exact ⟨g2, h2⟩

/-- C7 (idempotence).  Let `g` be a well-formed graph on which
`PeepholeOptimize(Graph)` (the traversal of the root block followed by
dead-code elimination) completes with the graph `g2`.  Then a second run on
`g2` completes with `g2` itself: the switch skips every node the traversal
meets in `g2`, so that the traversal returns `g2`, and dead-code elimination
returns `g2`. -/
theorem peephole_idempotent (g g2 : Graph) (fuel : Nat) (rank : NodeId → Nat)
    (depth : BlockId → Nat) (hwf : WellFormed g fuel rank depth)
    (h : PeepholeOptimize fuel g = .ok g2) :
    PeepholeOptimize fuel g2 = .ok g2 ∧
      (∀ n, Reach g2 0 n → matchNode g2 n = .ok .skip) ∧
      PeepholeOptimizeBlock fuel g2 0 = .ok g2 ∧ EliminateDeadCode g2 0 = .ok g2 := by
  obtain ⟨h1, h2, h3⟩ := PeepholeOptimize_fixed hwf h
  refine ⟨?_, h1, h2, h3⟩
  simp only [PeepholeOptimize, h2]
  exact h3

/-- Witness of C7 on `sampleGraph`, in which all four rules fire, one of them
in a nested block: the graph is well formed, the pass turns it into
`sampleOptimized`, and a second run returns `sampleOptimized`. -/
theorem peephole_idempotent_witness :
    WellFormed sampleGraph 2 sampleRank sampleDepth ∧
      PeepholeOptimize 2 sampleGraph = .ok sampleOptimized ∧
      PeepholeOptimize 2 sampleOptimized = .ok sampleOptimized :=
  ⟨⟨by decide, by decide, by decide, by decide, by decide, by decide⟩, by decide,
    (peephole_idempotent sampleGraph sampleOptimized 2 sampleRank sampleDepth
      ⟨by decide, by decide, by decide, by decide, by decide, by decide⟩ (by decide)).1⟩

/-! ## Metadata, consumers and frame of the rewrites -/

theorem node_copyMetadata_outputs (g : Graph) (v src : Value) (hv : v.node < g.nodes.length) :
    ((g.copyMetadata v src).node v.node).outputs =
      (g.node v.node).outputs.set v.offset (g.typeOf src) := by
  simp only [Graph.copyMetadata, Graph.node, List.getD_eq_getElem?_getD, modifyNode_getElem?]
  simp [List.getElem?_eq_getElem hv]

theorem node_withAddmm_outputs (g : Graph) (k : NodeId) (mat mat1 mat2 out : Value)
    (hout : out.node < g.nodes.length) :
    ((g.withAddmm k mat mat1 mat2 out).node g.nodes.length).outputs = [g.typeOf out] := by
  unfold Graph.withAddmm
  have hv : (g.insertAddmm k mat mat1 mat2).2.node < (g.insertAddmm k mat mat1 mat2).1.nodes.length := by
    rw [insertAddmm_length]; exact Nat.lt_succ_self _
  have h := node_copyMetadata_outputs (g.insertAddmm k mat mat1 mat2).1
    (g.insertAddmm k mat mat1 mat2).2 out hv
  have h2 : (g.insertAddmm k mat mat1 mat2).2.node = g.nodes.length := rfl
  rw [h2] at h
  rw [h, node_insertAddmm_new]
  have h3 : (g.insertAddmm k mat mat1 mat2).1.typeOf out = g.typeOf out := by
    unfold Graph.typeOf
    rw [node_insertAddmm_old g k _ _ _ out.node hout]
  rw [h3]
  rfl

/-- C11 (Rule D, metadata).  Let Rule D fire on the `aten::add` node `n`: `n`
has inputs `(bias, y)` and `alpha = 1`, `y` is produced by an `aten::mm` node
whose first two operands are `m1` and `m2`, and `n` has its single output.
Then the switch succeeds, the new node (at index `g.nodes.length`) has exactly
one output, and the type of that output in the resulting graph is the type the
output of `n` had, whatever the types of `bias`, `m1` and `m2` are; the type
of the output of `n` is left as it was. -/
theorem fused_output_copies_metadata (g : Graph) (n : NodeId) (bias y m1 m2 : Value)
    (rest : List Value)
    (hkind : (g.node n).kind = .add)
    (hin : (g.node n).inputs = [bias, y])
    (halpha : (g.node n).alpha = some 1)
    (hkind2 : (g.node y.node).kind = .mm)
    (hin2 : (g.node y.node).inputs = m1 :: m2 :: rest)
    (hout : (g.node n).outputs.length = 1) :
    ∃ g', rewriteNode g n = .ok g' ∧
      (g'.node g.nodes.length).kind = .addmm ∧
      (g'.node g.nodes.length).outputs = [g.typeOf (Value.mk n 0)] ∧
      g'.typeOf (Value.mk g.nodes.length 0) = g.typeOf (Value.mk n 0) ∧
      g'.typeOf (Value.mk n 0) = g.typeOf (Value.mk n 0) := by
  have hn : n < g.nodes.length := lt_length_of_kind g n (by rw [hkind]; decide)
  have hnew := node_withAddmm_outputs g n bias m1 m2 ⟨n, 0⟩ hn
  refine ⟨_, rewriteNode_add_fires g n bias y m1 m2 rest hkind hin halpha hkind2 hin2 hout,
    ?_, ?_, ?_, ?_⟩
  · rw [node_replaceAllUsesWith]
    exact (node_withAddmm_new g n bias m1 m2 ⟨n, 0⟩).1
  · rw [node_replaceAllUsesWith]
    exact hnew
  · unfold Graph.typeOf
    rw [node_replaceAllUsesWith]
    show (((g.withAddmm n bias m1 m2 ⟨n, 0⟩).node g.nodes.length).outputs).getD 0 _ = _
    rw [hnew]
    rfl
  · unfold Graph.typeOf
    rw [node_replaceAllUsesWith]
    show (((g.withAddmm n bias m1 m2 ⟨n, 0⟩).node n).outputs).getD 0 _ = _
    rw [node_withAddmm_old g n bias m1 m2 ⟨n, 0⟩ n hn]

/-- Witness of C11 on `addmmGraph (some 1)`. -/
theorem fused_output_copies_metadata_witness :
    ∃ g', rewriteNode (addmmGraph (some 1)) 2 = .ok g' ∧
      (g'.node (addmmGraph (some 1)).nodes.length).kind = .addmm ∧
      (g'.node (addmmGraph (some 1)).nodes.length).outputs =
        [(addmmGraph (some 1)).typeOf (Value.mk 2 0)] ∧
      g'.typeOf (Value.mk (addmmGraph (some 1)).nodes.length 0) =
        (addmmGraph (some 1)).typeOf (Value.mk 2 0) ∧
      g'.typeOf (Value.mk 2 0) = (addmmGraph (some 1)).typeOf (Value.mk 2 0) :=
  fused_output_copies_metadata (addmmGraph (some 1)) 2 ⟨0, 2⟩ ⟨1, 0⟩ ⟨0, 0⟩ ⟨0, 1⟩ []
    (by decide) (by decide) (by decide) (by decide) (by decide) (by decide)

theorem reads_mem {g : Graph} {m : NodeId} {i : Nat} {v : Value} (h : g.reads m i v) :
    m < g.nodes.length ∧ v ∈ (g.node m).inputs := by
  have hv : v ∈ (g.node m).inputs := by
    obtain ⟨hi, he⟩ := List.getElem?_eq_some.mp h
    exact he ▸ List.getElem_mem hi
  refine ⟨?_, hv⟩
  by_contra hlt
  rw [node_absent_of_le g m (Nat.le_of_not_lt hlt)] at hv
  simp [Node.absent] at hv

/-- C12, as stated, fails.  In `addmmGraph (some 1)` the `add` (node 2) is the
only consumer of the `mm` (node 1).  After the traversal slot 1 of the `add`
still holds the output of the `mm`: the `mm` keeps a consumer. -/
theorem mm_still_consumed :
    (∀ m, m < (addmmGraph (some 1)).nodes.length →
      ∀ v ∈ ((addmmGraph (some 1)).node m).inputs, v.node = 1 → m = 2) ∧
    ∃ g1, PeepholeOptimizeBlock 1 (addmmGraph (some 1)) 0 = .ok g1 ∧
      g1.reads 2 1 (Value.mk 1 0) :=
  ⟨by decide, _, rfl, by decide⟩

/-- After dead-code elimination neither the `add` nor the `mm` of
`addmmGraph (some 1)` is left: the root block lists the fused node only. -/
theorem addmmGraph_optimized :
    ∃ g2, PeepholeOptimize 1 (addmmGraph (some 1)) = .ok g2 ∧
      (g2.block 0).nodes = [4] ∧ g2.node 1 = Node.absent ∧ g2.node 2 = Node.absent ∧
      (g2.node 4).kind = .addmm ∧ (g2.node 4).inputs = [⟨0, 2⟩, ⟨0, 0⟩, ⟨0, 1⟩] ∧
      (g2.node 3).inputs = [⟨4, 0⟩] :=
  ⟨_, rfl, by decide⟩

/-- C13, as stated, fails.  In `transposeGraph` Rule B fires on the outer
transpose `n = 2`, with `m = 1` the inner one.  Node 4 is a consumer of the
output of `m` other than `n`; it also consumes the output of `n`, and the
visit to `n` changes its input list from `(t2, t1)` to `(x, t1)`. -/
theorem consumer_of_both_is_rewired :
    transposeGraph.reads 4 1 (Value.mk 1 0) ∧ (4 : NodeId) ≠ 2 ∧
    ∃ g', rewriteNode transposeGraph 2 = .ok g' ∧
      (g'.node 4).inputs = [⟨0, 0⟩, ⟨1, 0⟩] ∧
      (g'.node 4).inputs ≠ (transposeGraph.node 4).inputs :=
  ⟨by decide, by decide, _, rfl, by decide, by decide⟩

/-- C13, amended.  Let Rule B fire on the outer transpose `n` with input `y`,
where `y` is produced by the `aten::t` node `m = y.node` with input `x`.
After the switch every input slot that held a value other than the output of
`n` holds the same value, so every consumer of `y` keeps reading `y` in the
same slot; every node that does not consume the output of `n` keeps its whole
record, input list included; the input of `m` is still `x` and the input of
`n` is still `y`; the blocks are the same. -/
theorem double_transpose_frame (g : Graph) (n : NodeId) (y x : Value)
    (hkind : (g.node n).kind = .t)
    (hin : (g.node n).inputs = [y])
    (hkind2 : (g.node y.node).kind = .t)
    (hin2 : (g.node y.node).inputs = [x])
    (hout : (g.node n).outputs.length = 1) :
    ∃ g', rewriteNode g n = .ok g' ∧
      (∀ c i v, g.reads c i v → v ≠ Value.mk n 0 → g'.reads c i v) ∧
      (∀ c i, g.reads c i y → g'.reads c i y) ∧
      (∀ c, Value.mk n 0 ∉ (g.node c).inputs → g'.node c = g.node c) ∧
      (g'.node y.node).inputs = [x] ∧
      (g'.node n).inputs = [y] ∧
      g'.blocks = g.blocks := by
  have hframe : ∀ c i v, g.reads c i v → v ≠ Value.mk n 0 →
      (g.replaceAllUsesWith ⟨n, 0⟩ x).reads c i v := by
    intro c i v h hv
    unfold Graph.reads at h ⊢
    rw [node_replaceAllUsesWith]
    simp [substInputs_getElem?, h, hv]
  have hyx : y = Value.mk n 0 → x = y := by
    intro h
    have h1 : y.node = n := by rw [h]
    rw [h1, hin] at hin2
    injection hin2 with h2
    exact h2.symm
  refine ⟨_, rewriteNode_t_fires g n y x hkind hin hkind2 hin2 hout, hframe, ?_, ?_, ?_, ?_, rfl⟩
  · intro c i h
    by_cases hy : y = Value.mk n 0
    · have hx := hyx hy
      rw [hx]
      exact rewired_slot g ⟨n, 0⟩ y c i (by rw [← hy]; exact h)
    · exact hframe c i y h hy
  · intro c hc
    rw [node_replaceAllUsesWith, substInputs_of_not_mem hc]
  · rw [node_replaceAllUsesWith, hin2]
    by_cases hx : x = Value.mk n 0 <;> simp [substInputs, hx]
  · rw [node_replaceAllUsesWith, hin]
    by_cases hy : y = Value.mk n 0
    · have hx := hyx hy
      simp [substInputs, hx]
    · simp [substInputs, hy]

/-- Witness of the amended C13 on `transposeGraph`. -/
theorem double_transpose_frame_witness :
    ∃ g', rewriteNode transposeGraph 2 = .ok g' ∧
      (∀ c i v, transposeGraph.reads c i v → v ≠ Value.mk 2 0 → g'.reads c i v) ∧
      (∀ c i, transposeGraph.reads c i (Value.mk 1 0) → g'.reads c i (Value.mk 1 0)) ∧
      (∀ c, Value.mk 2 0 ∉ (transposeGraph.node c).inputs → g'.node c = transposeGraph.node c) ∧
      (g'.node (Value.mk 1 0).node).inputs = [Value.mk 0 0] ∧
      (g'.node 2).inputs = [Value.mk 1 0] ∧
      g'.blocks = transposeGraph.blocks :=
  double_transpose_frame transposeGraph 2 ⟨1, 0⟩ ⟨0, 0⟩ (by decide) (by decide) (by decide)
    (by decide) (by decide)

/-- C14 (end to end).  On the graph `x = param; t1 = t(x); t2 = t(t1);
u = use(t2); return u`, for any operator `use` the pass does not know, any
type of `x` and any positive fuel, `PeepholeOptimize(Graph)` ends in the graph
`x = param; u = use(x); return u`: the root block lists `u` only, `u` reads
`x`, the return node reads `u`, and the slots of both transposes are
empty. -/
theorem double_transpose_end_to_end (tag : Nat) (ty : JitType) (fuel : Nat) :
    PeepholeOptimize (fuel + 1) (endToEndGraph tag ty) = .ok (endToEndOptimized tag ty) ∧
    ((endToEndOptimized tag ty).block 0).nodes = [3] ∧
    ((endToEndOptimized tag ty).node 3).kind = .other tag ∧
    ((endToEndOptimized tag ty).node 3).inputs = [⟨0, 0⟩] ∧
    ((endToEndOptimized tag ty).node 4).inputs = [⟨3, 0⟩] ∧
    (endToEndOptimized tag ty).node 1 = Node.absent ∧
    (endToEndOptimized tag ty).node 2 = Node.absent :=
  ⟨rfl, rfl, rfl, rfl, rfl, rfl, rfl⟩

/-- C18 (pass-through).  If no node met by the traversal of block `b`, at any
depth of nesting, has kind `aten::expand`, `aten::t`, `aten::type_as` or
`aten::add`, the traversal returns the graph it was given, provided the
blocks are properly nested and the fuel exceeds the nesting depth. -/
theorem pass_through (g : Graph) (depth : BlockId → Nat) (fuel : Nat) (b : BlockId)
    (hnest : g.NestedBelow depth) (hfuel : depth b < fuel)
    (hkinds : ∀ n, Reach g b n → (g.node n).kind ≠ .expand ∧ (g.node n).kind ≠ .t ∧
      (g.node n).kind ≠ .type_as ∧ (g.node n).kind ≠ .add) :
    PeepholeOptimizeBlock fuel g b = .ok g :=
  PeepholeOptimizeBlock_identity depth fuel g b hnest hfuel (fun n hr =>
    rewriteNode_of_skip (matchNode_skip_of_kind (hkinds n hr).1 (hkinds n hr).2.1
      (hkinds n hr).2.2.1 (hkinds n hr).2.2.2))

/-- Witness of C18 on `passThroughGraph`, which has a nested block. -/
theorem pass_through_witness :
    PeepholeOptimizeBlock 2 passThroughGraph 0 = .ok passThroughGraph :=
  pass_through passThroughGraph (fun b => 1 - b) 2 0 (by decide) (by decide)
    (fun n hr => (by decide : ∀ n ∈ visitOrder 2 passThroughGraph 0,
        (passThroughGraph.node n).kind ≠ .expand ∧ (passThroughGraph.node n).kind ≠ .t ∧
        (passThroughGraph.node n).kind ≠ .type_as ∧ (passThroughGraph.node n).kind ≠ .add) n
      (mem_visitOrder_of_reach (by decide : passThroughGraph.NestedBelow (fun b => 1 - b)) hr 2
        (by decide)))

/-! ## Order of the visits -/

theorem reach_of_mem_visitOrder {g : Graph} :
    ∀ (fuel : Nat) (b : BlockId) (n : NodeId), n ∈ visitOrder fuel g b → Reach g b n := by
  intro fuel
  induction fuel with
  | zero => intro b n h; simp [visitOrder] at h
  | succ fuel ih =>
    intro b n h
    simp only [visitOrder] at h
    obtain ⟨m, hm, hx | ⟨sb, hsb, hx⟩⟩ := mem_orderNodes.mp h
    · rw [hx]; exact Reach.here hm
    · exact Reach.nested hm hsb (ih sb n hx)

theorem sublist_orderSubBlocks {ord : BlockId → List NodeId} {l : List BlockId} {sb : BlockId}
    (h : sb ∈ l) : (ord sb).Sublist (orderSubBlocks ord l) := by
  induction l with
  | nil => simp at h
  | cons a rest ih =>
    simp only [orderSubBlocks]
    cases List.mem_cons.mp h with
    | inl e => rw [e]; exact List.sublist_append_left _ _
    | inr e => exact (ih e).trans (List.sublist_append_right _ _)

theorem sublist_orderNodes {ord : BlockId → List NodeId} {g : Graph} {ns : List NodeId}
    {m : NodeId} (hm : m ∈ ns) :
    (orderSubBlocks ord (g.node m).blocks ++ [m]).Sublist (orderNodes ord g ns) := by
  induction ns with
  | nil => simp at hm
  | cons a rest ih =>
    simp only [orderNodes]
    cases List.mem_cons.mp hm with
    | inl e => rw [e]; exact List.sublist_append_left _ _
    | inr e => exact (ih e).trans (List.sublist_append_right _ _)

theorem pair_sublist_of_mem {l : List NodeId} {n m : NodeId} (h : n ∈ l) :
    [n, m].Sublist (l ++ [m]) := by
  have h1 : [n].Sublist l := List.singleton_sublist.mpr h
  exact List.Sublist.append h1 (List.Sublist.refl [m])

/-- The nodes of the blocks nested in a visited node stand before that node in
the order of the visits. -/
theorem nested_before_owner {g : Graph} {depth : BlockId → Nat} (hnest : g.NestedBelow depth)
    {b : BlockId} {m : NodeId} (hr : Reach g b m) {sb : BlockId} {n : NodeId}
    (hsb : sb ∈ (g.node m).blocks) (hn : Reach g sb n) :
    ∀ fuel, depth b < fuel → [n, m].Sublist (visitOrder fuel g b) := by
  induction hr with
  | @here b m hm =>
    intro fuel hf
    cases fuel with
    | zero => exact absurd hf (Nat.not_lt_zero _)
    | succ fuel =>
      simp only [visitOrder]
      have hd := nestedBelow_apply hnest _ _ _ hm hsb
      have h1 : n ∈ visitOrder fuel g sb := mem_visitOrder_of_reach hnest hn fuel (by omega)
      have h2 : n ∈ orderSubBlocks (visitOrder fuel g) (g.node m).blocks :=
        mem_orderSubBlocks.mpr ⟨sb, hsb, h1⟩
      exact (pair_sublist_of_mem h2).trans (sublist_orderNodes hm)
  | @nested b a sb1 m ha hsb1 _ ih =>
    intro fuel hf
    cases fuel with
    | zero => exact absurd hf (Nat.not_lt_zero _)
    | succ fuel =>
      simp only [visitOrder]
      have hd := nestedBelow_apply hnest _ _ _ ha hsb1
      have h1 := ih hsb fuel (by omega)
      have h2 : (visitOrder fuel g sb1).Sublist
          (orderSubBlocks (visitOrder fuel g) (g.node a).blocks ++ [a]) :=
        (sublist_orderSubBlocks hsb1).trans (List.sublist_append_left _ _)
      exact (h1.trans h2).trans (sublist_orderNodes ha)

/-- C17 (nested blocks).  Let the traversal of block `b` end in `g1`, in a
graph whose blocks are properly nested and in which no node is met twice.
Then the traversal is the switch applied in turn to the nodes of `visitOrder`;
these are exactly the nodes of `b` and of the blocks nested in them at any
depth; and every node of a block nested in a node `m` has its switch applied
before `m` has.  The switch is the same function at every depth. -/
theorem nested_blocks_visited_first (g g1 : Graph) (depth : BlockId → Nat) (fuel : Nat)
    (b : BlockId) (hnest : g.NestedBelow depth) (hfuel : depth b < fuel)
    (hnodup : (visitOrder fuel g b).Nodup)
    (h : PeepholeOptimizeBlock fuel g b = .ok g1) :
    rewriteNodes (visitOrder fuel g b) g = .ok g1 ∧
    (∀ n, Reach g b n ↔ n ∈ visitOrder fuel g b) ∧
    (∀ m sb n, Reach g b m → sb ∈ (g.node m).blocks → Reach g sb n →
      [n, m].Sublist (visitOrder fuel g b)) :=
  ⟨PeepholeOptimizeBlock_flatten fuel g b g1 h hnodup,
    fun n => ⟨fun hr => mem_visitOrder_of_reach hnest hr fuel hfuel,
      reach_of_mem_visitOrder fuel b n⟩,
    fun _ _ _ hr hsb hn => nested_before_owner hnest hr hsb hn fuel hfuel⟩

/-! ## The node lists of the blocks along the traversal -/

theorem sublist_insertBefore (new n : NodeId) (l : List NodeId) :
    l.Sublist (insertBefore new n l) := by
  induction l with
  | nil => exact List.Sublist.refl _
  | cons a rest ih =>
    simp only [insertBefore]
    split
    · exact List.sublist_cons_self _ _
    · exact List.Sublist.cons₂ _ ih

theorem length_insertBefore (new n : NodeId) (l : List NodeId) :
    (insertBefore new n l).length = l.length + if n ∈ l then 1 else 0 := by
  induction l with
  | nil => simp [insertBefore]
  | cons a rest ih =>
    simp only [insertBefore]
    by_cases ha : a = n
    · simp [ha]
    · have hne : ¬ n = a := fun e => ha e.symm
      simp only [if_neg ha, List.length_cons, ih, List.mem_cons, hne, false_or]
      omega

theorem block_perform (g : Graph) (k : NodeId) (act : Action) (c : BlockId) :
    ((perform g k act).block c).nodes =
      if act.isFuse then insertBefore g.nodes.length k (g.block c).nodes
      else (g.block c).nodes := by
  cases act with
  | skip => rfl
  | replace out x => rfl
  | fuse mat mat1 mat2 out =>
    show ((g.insertAddmm k mat mat1 mat2).1.block c).nodes = _
    rw [block_insertAddmm]
    rfl

theorem length_perform (g : Graph) (k : NodeId) (act : Action) :
    (perform g k act).nodes.length = g.nodes.length + if act.isFuse then 1 else 0 := by
  cases act with
  | skip => rfl
  | replace out x => simp [perform, replaceAllUsesWith_length, Action.isFuse]
  | fuse mat mat1 mat2 out =>
    simp [perform, replaceAllUsesWith_length, copyMetadata_length, insertAddmm_length,
      Action.isFuse]

theorem kind_perform (g : Graph) (k : NodeId) (act : Action) (a : NodeId)
    (h : ((perform g k act).node a).kind = .add) :
    a < g.nodes.length ∧ (g.node a).kind = .add := by
  have hext : Extends g (perform g k act) := by
    cases act with
    | skip => exact extends_refl g
    | replace out x => exact extends_replaceAllUsesWith g out x
    | fuse mat mat1 mat2 out =>
      exact extends_trans (extends_trans (extends_insertAddmm g k mat mat1 mat2)
        (extends_copyMetadata _ _ _)) (extends_replaceAllUsesWith _ _ _)
  have ha : a < (perform g k act).nodes.length :=
    lt_length_of_kind _ a (by rw [h]; decide)
  by_cases hlt : a < g.nodes.length
  · exact ⟨hlt, by rw [← hext.kind_eq a hlt]; exact h⟩
  · have := hext.new_kind a (Nat.le_of_not_lt hlt) ha
    rw [this] at h
    cases h

/-- Along a run of the switch over a list of nodes, the node list of block `c`
grows by one for each firing of Rule D on a node listed in `c`, and the arena
by one for each firing. -/
theorem fusions_fold (c : BlockId) (l0 : List NodeId) :
    ∀ (L : List NodeId) (g g1 : Graph),
      (∀ a, (g.node a).kind = .add → (a ∈ (g.block c).nodes ↔ a ∈ l0)) →
      rewriteNodes L g = .ok g1 →
      (g1.block c).nodes.length = (g.block c).nodes.length + fusions (fun k => decide (k ∈ l0)) L g ∧
      g1.nodes.length = g.nodes.length + fusions (fun _ => true) L g := by
  intro L
  induction L with
  | nil =>
    intro g g1 _ h
    simp only [rewriteNodes] at h
    injection h with h
    subst h
    simp [fusions]
  | cons k rest ih =>
    intro g g1 hinv h
    simp only [rewriteNodes] at h
    split at h
    · cases h
    · next g2 h2 =>
      rw [rewriteNode_eq_perform] at h2
      cases hm : matchNode g k with
      | error e => rw [hm] at h2; cases h2
      | ok act =>
        rw [hm] at h2
        simp only [Except.map] at h2
        injection h2 with h2
        subst h2
        have hinv2 : ∀ a, ((perform g k act).node a).kind = .add →
            (a ∈ ((perform g k act).block c).nodes ↔ a ∈ l0) := by
          intro a ha
          obtain ⟨halt, hak⟩ := kind_perform g k act a ha
          rw [block_perform, ← hinv a hak]
          split
          · rw [mem_insertBefore]
            constructor
            · rintro (h1 | ⟨h1, _⟩)
              · exact h1
              · exact absurd h1 (Nat.ne_of_lt halt)
            · exact Or.inl
          · exact Iff.rfl
        obtain ⟨ih1, ih2⟩ := ih (perform g k act) g1 hinv2 h
        simp only [fusions, hm]
        rw [ih1, ih2, block_perform, length_perform]
        cases hf : act.isFuse with
        | false => simp
        | true =>
          have hk : (g.node k).kind = .add := by
            cases act with
            | skip => cases hf
            | replace out x => cases hf
            | fuse mat mat1 mat2 out => exact (matchNode_fuse_spec hm).2.2.1
          simp only [if_true, length_insertBefore, Bool.true_and, decide_eq_true_eq,
            hinv k hk]
          constructor <;> omega

theorem perform_grows (g : Graph) (k : NodeId) (act : Action) :
    (∀ c, ((g.block c).nodes).Sublist ((perform g k act).block c).nodes) ∧
    (∀ c n, n ∈ ((perform g k act).block c).nodes →
      n ∈ (g.block c).nodes ∨ (g.nodes.length ≤ n ∧ n < (perform g k act).nodes.length)) := by
  constructor
  · intro c
    rw [block_perform]
    split
    · exact sublist_insertBefore _ _ _
    · exact List.Sublist.refl _
  · intro c n hn
    rw [block_perform] at hn
    rw [length_perform]
    split at hn
    · next hf =>
      rcases (mem_insertBefore _ _ _ _).mp hn with h1 | ⟨h1, _⟩
      · exact Or.inl h1
      · refine Or.inr ⟨Nat.le_of_eq h1.symm, ?_⟩
        rw [h1, hf]
        simp
    · exact Or.inl hn

/-- The traversal keeps the node list of every block as a sublist of the new
one, and the nodes it adds to a list are new nodes of the arena. -/
theorem PeepholeOptimizeBlock_grows (fuel : Nat) (g : Graph) (b : BlockId) (g1 : Graph)
    (h : PeepholeOptimizeBlock fuel g b = .ok g1) :
    g.nodes.length ≤ g1.nodes.length ∧
    (∀ c, ((g.block c).nodes).Sublist (g1.block c).nodes) ∧
    (∀ c n, n ∈ (g1.block c).nodes →
      n ∈ (g.block c).nodes ∨ (g.nodes.length ≤ n ∧ n < g1.nodes.length)) := by
  refine PeepholeOptimizeBlock_rel
    (fun g g1 => g.nodes.length ≤ g1.nodes.length ∧
      (∀ c, ((g.block c).nodes).Sublist (g1.block c).nodes) ∧
      (∀ c n, n ∈ (g1.block c).nodes →
        n ∈ (g.block c).nodes ∨ (g.nodes.length ≤ n ∧ n < g1.nodes.length)))
    ?_ ?_ ?_ fuel g b g1 h
  · intro g
    exact ⟨Nat.le_refl _, fun c => List.Sublist.refl _, fun c n hn => Or.inl hn⟩
  · rintro g g1 g2 ⟨hl1, hs1, hf1⟩ ⟨hl2, hs2, hf2⟩
    refine ⟨Nat.le_trans hl1 hl2, fun c => (hs1 c).trans (hs2 c), ?_⟩
    intro c n hn
    rcases hf2 c n hn with h2 | ⟨h2, h3⟩
    · rcases hf1 c n h2 with h1 | ⟨h1, _⟩
      · exact Or.inl h1
      · exact Or.inr ⟨h1, Nat.lt_of_lt_of_le (by assumption) hl2⟩
    · exact Or.inr ⟨Nat.le_trans hl1 h2, h3⟩
  · intro g n g1 h
    rw [rewriteNode_eq_perform] at h
    cases hm : matchNode g n with
    | error e => rw [hm] at h; cases h
    | ok act =>
      rw [hm] at h
      simp only [Except.map] at h
      injection h with h
      subst h
      refine ⟨?_, perform_grows g n act⟩
      rw [length_perform]
      exact Nat.le_add_right _ _

/-- C16 (no node deleted or reordered).  Let the traversal of block `b` end in
`g1`, in a graph in which no node is met twice.  For every block `c` of the
arena the old node list is a sublist of the new one (every node is kept, in
the same relative order); a node of the new list that is not in the old one
is a new node of the arena, of kind `addmm`; the list of `c` is longer by
exactly the number of firings of Rule D on nodes listed in `c`, and the arena
by exactly the number of firings of Rule D. -/
theorem traversal_keeps_nodes_in_order (g g1 : Graph) (fuel : Nat) (b : BlockId)
    (hnodup : (visitOrder fuel g b).Nodup)
    (h : PeepholeOptimizeBlock fuel g b = .ok g1) :
    (∀ c, ((g.block c).nodes).Sublist (g1.block c).nodes) ∧
    (∀ c n, n ∈ (g1.block c).nodes → n ∉ (g.block c).nodes →
      g.nodes.length ≤ n ∧ n < g1.nodes.length ∧ (g1.node n).kind = .addmm) ∧
    (∀ c, (g1.block c).nodes.length = (g.block c).nodes.length +
      fusions (fun k => decide (k ∈ (g.block c).nodes)) (visitOrder fuel g b) g) ∧
    g1.nodes.length = g.nodes.length + fusions (fun _ => true) (visitOrder fuel g b) g := by
  obtain ⟨_, hsub, hfresh⟩ := PeepholeOptimizeBlock_grows fuel g b g1 h
  have hext := PeepholeOptimizeBlock_extends fuel g b g1 h
  have hflat := PeepholeOptimizeBlock_flatten fuel g b g1 h hnodup
  refine ⟨hsub, ?_, ?_, ?_⟩
  · intro c n hn hnot
    rcases hfresh c n hn with h1 | ⟨h1, h2⟩
    · exact absurd h1 hnot
    · exact ⟨h1, h2, hext.new_kind n h1 h2⟩
  · intro c
    exact (fusions_fold c (g.block c).nodes _ g g1 (fun _ _ => Iff.rfl) hflat).1
  · exact (fusions_fold 0 (g.block 0).nodes _ g g1 (fun _ _ => Iff.rfl) hflat).2

/-- Witness of C16 on `sampleGraph`: Rule D fires once, on node 4 of the root
block, whose list gains the fused node 11 before node 4. -/
theorem traversal_keeps_nodes_in_order_witness :
    ∃ g1, PeepholeOptimizeBlock 2 sampleGraph 0 = .ok g1 ∧
      (g1.block 0).nodes = [1, 2, 3, 11, 4, 5] ∧ (g1.block 1).nodes = [8, 9] ∧
      fusions (fun _ => true) (visitOrder 2 sampleGraph 0) sampleGraph = 1 ∧
      ((∀ c, ((sampleGraph.block c).nodes).Sublist (g1.block c).nodes) ∧
      (∀ c n, n ∈ (g1.block c).nodes → n ∉ (sampleGraph.block c).nodes →
        sampleGraph.nodes.length ≤ n ∧ n < g1.nodes.length ∧ (g1.node n).kind = .addmm) ∧
      (∀ c, (g1.block c).nodes.length = (sampleGraph.block c).nodes.length +
        fusions (fun k => decide (k ∈ (sampleGraph.block c).nodes))
          (visitOrder 2 sampleGraph 0) sampleGraph) ∧
      g1.nodes.length = sampleGraph.nodes.length +
        fusions (fun _ => true) (visitOrder 2 sampleGraph 0) sampleGraph) :=
  ⟨_, rfl, by decide, by decide, by decide,
    traversal_keeps_nodes_in_order sampleGraph _ 2 0 (by decide) rfl⟩

/-- Witness of C17 on `sampleGraph`: the nodes 8 and 9 of the block nested in
node 5 are visited before node 5, and the `expand` and the `type_as` of the
nested block are rewritten: its return node reads the block parameter. -/
theorem nested_blocks_visited_first_witness :
    ∃ g1, PeepholeOptimizeBlock 2 sampleGraph 0 = .ok g1 ∧
      visitOrder 2 sampleGraph 0 = [1, 2, 3, 4, 8, 9, 5] ∧
      (g1.node 10).inputs = [⟨7, 0⟩] ∧
      (rewriteNodes (visitOrder 2 sampleGraph 0) sampleGraph = .ok g1 ∧
      (∀ n, Reach sampleGraph 0 n ↔ n ∈ visitOrder 2 sampleGraph 0) ∧
      (∀ m sb n, Reach sampleGraph 0 m → sb ∈ (sampleGraph.node m).blocks →
        Reach sampleGraph sb n → [n, m].Sublist (visitOrder 2 sampleGraph 0))) :=
  ⟨_, rfl, by decide, by decide,
    nested_blocks_visited_first sampleGraph _ sampleDepth 2 0 (by decide) (by decide)
      (by decide) rfl⟩

/-! ## When the switch rewrites -/

theorem inputs_eq_pair {nd : Node} {a b : Value} (hl : nd.inputs.length = 2)
    (h0 : nd.inputAt 0 = .ok a) (h1 : nd.inputAt 1 = .ok b) : nd.inputs = [a, b] := by
  have e0 := Node.inputAt_ok h0
  have e1 := Node.inputAt_ok h1
  match hin : nd.inputs, hl with
  | [u, v], _ =>
    rw [hin] at e0 e1
    simp at e0 e1
    rw [e0, e1]

theorem inputs_eq_cons {nd : Node} {a b : Value}
    (h0 : nd.inputAt 0 = .ok a) (h1 : nd.inputAt 1 = .ok b) :
    ∃ rest, nd.inputs = a :: b :: rest := by
  have e0 := Node.inputAt_ok h0
  have e1 := Node.inputAt_ok h1
  match hin : nd.inputs with
  | [] => rw [hin] at e0; simp at e0
  | [u] => rw [hin] at e1; simp at e1
  | u :: v :: rest =>
    rw [hin] at e0 e1
    simp at e0 e1
    exact ⟨rest, by rw [e0, e1]⟩

/-- The switch decides to replace the output of node `k` by `x` in exactly
three situations, those of Rules A, B and C. -/
theorem matchNode_replace_inv {g : Graph} {k : NodeId} {out x : Value}
    (h : matchNode g k = .ok (.replace out x)) :
    out = ⟨k, 0⟩ ∧ (g.node k).outputs.length = 1 ∧
    (((g.node k).kind = .expand ∧ (g.node k).inputs = [x] ∧
        ∃ scalar device sizes strides, g.typeOf x = .TensorType scalar device sizes strides ∧
          (g.node k).size = some sizes) ∨
     ((g.node k).kind = .t ∧ ∃ y, (g.node k).inputs = [y] ∧ (g.node y.node).kind = .t ∧
        (g.node y.node).inputs = [x]) ∨
     ((g.node k).kind = .type_as ∧ ∃ rhs scalar device ls lt rs rt, (g.node k).inputs = [x, rhs] ∧
        g.typeOf x = .TensorType scalar device ls lt ∧
        g.typeOf rhs = .TensorType scalar device rs rt)) := by
  unfold matchNode at h
  simp only at h
  split at h
  · -- expand
    next hk =>
    split at h
    · cases h
    · next x0 hx0 =>
      have hin := Node.input_ok hx0
      split at h
      · cases h
      · split at h
        · cases h
        · split at h
          · next sc dv sz st hty =>
            split at h
            · next hsz =>
              split at h
              · cases h
              · next out0 ho =>
                injection h with h
                injection h with h1 h2
                subst h1 h2
                exact ⟨(Graph.output_ok ho).1, (Graph.output_ok ho).2,
                  Or.inl ⟨hk, hin, sc, dv, sz, st, hty, hsz⟩⟩
            · cases h
          · cases h
  · -- t
    next hk =>
    split at h
    · cases h
    · next x0 hx0 =>
      have hin := Node.input_ok hx0
      split at h
      · next hk2 =>
        split at h
        · cases h
        · next out0 ho =>
          split at h
          · cases h
          · next y0 hy0 =>
            injection h with h
            injection h with h1 h2
            subst h1 h2
            exact ⟨(Graph.output_ok ho).1, (Graph.output_ok ho).2,
              Or.inr (Or.inl ⟨hk, x0, hin, hk2, Node.input_ok hy0⟩)⟩
      · cases h
  · -- type_as
    next hk =>
    split at h
    · cases h
    · next hlen =>
      split at h
      · cases h
      · next lhs hl =>
        split at h
        · cases h
        · next rhs hr =>
          split at h
          · next ls ld lsz lst rs rd rsz rst htl htr =>
            split at h
            · next hc =>
              split at h
              · cases h
              · next out0 ho =>
                injection h with h
                injection h with h1 h2
                subst h1 h2
                have hlen2 : (g.node k).inputs.length = 2 := by
                  by_contra hne
                  exact hlen hne
                refine ⟨(Graph.output_ok ho).1, (Graph.output_ok ho).2,
                  Or.inr (Or.inr ⟨hk, rhs, ls, ld, lsz, lst, rsz, rst,
                    inputs_eq_pair hlen2 hl hr, htl, ?_⟩)⟩
                rw [htr, hc.1, hc.2]
            · cases h
          · cases h
  · -- add
    repeat' split at h
    all_goals cases h
  · cases h

/-- The switch decides to fuse exactly in the situation of Rule D. -/
theorem matchNode_fuse_inv {g : Graph} {k : NodeId} {mat mat1 mat2 out : Value}
    (h : matchNode g k = .ok (.fuse mat mat1 mat2 out)) :
    out = ⟨k, 0⟩ ∧ (g.node k).outputs.length = 1 ∧ (g.node k).kind = .add ∧
      (g.node k).alpha = some 1 ∧
      ∃ y rest, (g.node k).inputs = [mat, y] ∧ (g.node y.node).kind = .mm ∧
        (g.node y.node).inputs = mat1 :: mat2 :: rest := by
  unfold matchNode at h
  simp only at h
  split at h
  · repeat' split at h
    all_goals cases h
  · repeat' split at h
    all_goals cases h
  · repeat' split at h
    all_goals cases h
  · next hk =>
    split at h
    · next hc =>
      split at h
      · cases h
      · next y hy =>
        split at h
        · next hk2 =>
          split at h
          · cases h
          · next m0 hm0 =>
            split at h
            · cases h
            · next m1 hm1 =>
              split at h
              · cases h
              · next m2 hm2 =>
                split at h
                · cases h
                · next out0 ho =>
                  injection h with h
                  injection h with h1 h2 h3 h4
                  subst h1 h2 h3 h4
                  obtain ⟨rest, hrest⟩ := inputs_eq_cons hm1 hm2
                  exact ⟨(Graph.output_ok ho).1, (Graph.output_ok ho).2, hk, hc.2,
                    y, rest, inputs_eq_pair hc.1 hm0 hy, hk2, hrest⟩
        · cases h
    · cases h
  · cases h

/-! ## The identities behind the rules -/

theorem swapIndex_swapIndex (idx : List Int) : swapIndex (swapIndex idx) = idx := by
  match idx with
  | [] => rfl
  | [_] => rfl
  | [_, _] => rfl
  | _ :: _ :: _ :: _ => rfl

theorem Tensor.t_t {x y z : Tensor} (h1 : x.t = some y) (h2 : y.t = some z) : z = x := by
  unfold Tensor.t at h1
  split at h1
  · next r c hs =>
    injection h1 with h1
    subst h1
    simp only [Tensor.t] at h2
    injection h2 with h2
    subst h2
    cases x
    simp only at hs
    simp [hs, swapIndex_swapIndex]
  · cases h1

theorem alignIndex_self : ∀ (sizes idx : List Int), idx.length = sizes.length →
    alignIndex sizes sizes idx = idx := by
  intro sizes
  induction sizes with
  | nil => intro idx h; cases idx with
    | nil => rfl
    | cons _ _ => simp at h
  | cons s rest ih =>
    intro idx h
    cases idx with
    | nil => simp at h
    | cons i idx =>
      simp only [alignIndex, if_true]
      rw [ih idx (by simpa using h)]

theorem stretches_self : ∀ sizes : List Int, stretches sizes sizes = true := by
  intro sizes
  induction sizes with
  | nil => rfl
  | cons s rest ih => simp [stretches, ih]

theorem Tensor.expand_sizes (x : Tensor) : x.expand x.sizes = some x := by
  unfold Tensor.expand
  simp only [Nat.sub_self, List.drop_zero, stretches_self, Nat.le_refl, and_self, if_true]
  cases x with
  | mk st dev sizes data =>
    simp only [Option.some.injEq, Tensor.mk.injEq, true_and]
    funext idx
    split
    · next h => rw [alignIndex_self sizes idx h]
    · rfl

theorem Tensor.type_as_same {a b : Tensor} (h1 : a.scalarType = b.scalarType)
    (h2 : a.device = b.device) : a.type_as b = a := by
  cases a
  simp only [Tensor.type_as] at *
  simp [h1, h2]

theorem Tensor.add_mm {bias m1 m2 y : Tensor} (h : m1.mm m2 = some y) :
    bias.add y 1 = bias.addmm m1 m2 1 1 := by
  unfold Tensor.add Tensor.addmm
  rw [h]
  simp only [one_mul]

/-! ## The rewrites keep the values -/

theorem Graph.Schema.of_node {g : Graph} (h : g.Schema) (n : NodeId) :
    ((g.node n).kind = .t → (g.node n).outputs.length = 1) ∧
    ((g.node n).kind = .mm → (g.node n).inputs.length = 2 ∧ (g.node n).outputs.length = 1) := by
  cases node_mem_or_absent g n with
  | inl h1 => exact h _ h1
  | inr h1 => rw [h1]; simp [Node.absent]

theorem schema_of_extends {g g1 : Graph} (h : Extends g g1) (hs : g.Schema) : g1.Schema := by
  intro nd hnd
  obtain ⟨n, hn1, rfl⟩ := List.getElem_of_mem hnd
  have hnode : g1.node n = g1.nodes[n] := by
    simp [Graph.node, List.getD_eq_getElem?_getD, List.getElem?_eq_getElem hn1]
  rw [← hnode]
  by_cases hn : n < g.nodes.length
  · have h0 := hs.of_node n
    rw [h.kind_eq n hn, h.inputs_length n hn, h.outputs_length n hn]
    exact h0
  · have hk := h.new_kind n (Nat.le_of_not_lt hn) hn1
    rw [hk]
    simp

theorem ranked_step {g g1 : Graph} {k : NodeId} (hr : ∃ rank, Ranked g rank)
    (h : rewriteNode g k = .ok g1) : ∃ rank1, Ranked g1 rank1 := by
  obtain ⟨rank, hr⟩ := hr
  by_cases hk : k < g.nodes.length
  · obtain ⟨rank2, h2, _⟩ := @settle_step g g1 rank k [] hr hk (by simp) h
    exact ⟨rank2, h2⟩
  · have hskip : matchNode g k = .ok .skip := by
      apply matchNode_skip_of_kind <;>
        rw [node_absent_of_le g k (Nat.le_of_not_lt hk)] <;> simp [Node.absent]
    rw [rewriteNode_of_skip hskip] at h
    injection h with h
    subst h
    exact ⟨rank, hr⟩

theorem map_substInputs {env : Value → Tensor} {v w : Value} (h : env w = env v)
    (l : List Value) : (substInputs v w l).map env = l.map env := by
  simp only [substInputs, List.map_map]
  apply List.map_congr_left
  intro u _
  simp only [Function.comp]
  split
  · next e => rw [e, h]
  · rfl

theorem value_eq_of_offset {y : Value} {n : NodeId} (h1 : y.node = n) (h2 : y.offset < 1) :
    y = ⟨n, 0⟩ := by
  cases y with
  | mk a b =>
    simp only at h1 h2
    simp [h1, Nat.lt_one_iff.mp h2]

/-- Rules A, B and C replace the output of a node by a value that is equal to
it in every evaluation. -/
theorem replace_sound {g : Graph} {rank : NodeId → Nat} {k : NodeId} {out x : Value}
    {ops : NodeId → Nat → List Tensor → Tensor} {env : Value → Tensor}
    (hm : matchNode g k = .ok (.replace out x))
    (hr : Ranked g rank) (hs : g.Schema) (he : Evaluates g ops env) (ht : WellTyped g env) :
    env x = env out := by
  obtain ⟨hout, _, hA | hB | hC⟩ := matchNode_replace_inv hm
  · obtain ⟨hk, hin, sc, dv, sz, st, hty, hsz⟩ := hA
    have h1 := he.known k ((env x).expand sz) (by simp [denote, hk, hin, hsz])
    have h2 := (ht x sc dv sz st hty).2.2
    rw [← h2, Tensor.expand_sizes] at h1
    injection h1 with h1
    rw [hout, h1]
  · obtain ⟨hk, y, hin, hk2, hin2⟩ := hB
    have hk_lt : k < g.nodes.length := lt_length_of_kind g k (by rw [hk]; decide)
    have hy := hr.apply k y (by rw [hin]; simp)
    have hyo : y = ⟨y.node, 0⟩ := by
      apply value_eq_of_offset rfl
      rw [← (hs.of_node y.node).1 hk2]
      exact hy.2.1
    have h1 := he.known y.node (env x).t (by simp [denote, hk2, hin2])
    have h2 := he.known k (env y).t (by simp [denote, hk, hin])
    rw [← hyo] at h1
    rw [hout]
    exact (Tensor.t_t h1 h2).symm
  · obtain ⟨hk, rhs, sc, dv, ls, lt, rs, rt, hin, hl, hr2⟩ := hC
    have h1 := he.known k (some ((env x).type_as (env rhs))) (by simp [denote, hk, hin])
    have e1 := ht x sc dv ls lt hl
    have e2 := ht rhs sc dv rs rt hr2
    rw [Tensor.type_as_same (e1.1.trans e2.1.symm) (e1.2.1.trans e2.2.1.symm)] at h1
    injection h1 with h1
    rw [hout, h1]

theorem denote_replaceAllUsesWith (g : Graph) (v w : Value) (m : NodeId) (args : List Tensor) :
    denote ((g.replaceAllUsesWith v w).node m) args = denote (g.node m) args := by
  rw [node_replaceAllUsesWith]
  rfl

theorem typeOf_replaceAllUsesWith (g : Graph) (v w u : Value) :
    (g.replaceAllUsesWith v w).typeOf u = g.typeOf u := by
  apply typeOf_eq_of_outputs
  rw [node_replaceAllUsesWith]

theorem evaluates_replaceAllUsesWith {g : Graph} {ops : NodeId → Nat → List Tensor → Tensor}
    {env : Value → Tensor} {v w : Value}
    (h : env w = env v) (he : Evaluates g ops env) :
    Evaluates (g.replaceAllUsesWith v w) ops env := by
  have hin : ∀ n, ((g.replaceAllUsesWith v w).node n).inputs.map env =
      (g.node n).inputs.map env := by
    intro n
    rw [node_replaceAllUsesWith]
    exact map_substInputs h _
  refine ⟨?_, ?_⟩
  · intro n r hd
    rw [denote_replaceAllUsesWith, hin] at hd
    exact he.known n r hd
  · intro n tag j hk hj
    rw [hin]
    rw [node_replaceAllUsesWith] at hk hj
    exact he.other n tag j hk hj

/-- Rule D: the value of the `add` is the value of `addmm` on the three
operands. -/
theorem fuse_sound {g : Graph} {rank : NodeId → Nat} {k : NodeId} {mat mat1 mat2 out : Value}
    {ops : NodeId → Nat → List Tensor → Tensor} {env : Value → Tensor}
    (hm : matchNode g k = .ok (.fuse mat mat1 mat2 out))
    (hr : Ranked g rank) (hs : g.Schema) (he : Evaluates g ops env) :
    (env mat).addmm (env mat1) (env mat2) 1 1 = some (env out) := by
  obtain ⟨hout, _, hk, halpha, y, rest, hin, hk2, hin2⟩ := matchNode_fuse_inv hm
  have hy := hr.apply k y (by rw [hin]; simp)
  have hsch := (hs.of_node y.node).2 hk2
  have hyo : y = ⟨y.node, 0⟩ := by
    apply value_eq_of_offset rfl
    rw [← hsch.2]
    exact hy.2.1
  have hrest : rest = [] := by
    have := hsch.1
    rw [hin2] at this
    simpa using this
  rw [hrest] at hin2
  have h1 := he.known y.node ((env mat1).mm (env mat2)) (by simp [denote, hk2, hin2])
  have h2 := he.known k ((env mat).add (env y) 1) (by simp [denote, hk, hin, halpha])
  rw [← hyo] at h1
  rw [← Tensor.add_mm h1, hout]
  exact h2

theorem node_copyMetadata_self (g : Graph) (v src : Value) (hv : v.node < g.nodes.length) :
    (g.copyMetadata v src).node v.node =
      { g.node v.node with outputs := (g.node v.node).outputs.set v.offset (g.typeOf src) } := by
  simp only [Graph.copyMetadata, Graph.node, List.getD_eq_getElem?_getD, modifyNode_getElem?]
  simp [List.getElem?_eq_getElem hv]

theorem node_withAddmm_record (g : Graph) (k : NodeId) (mat mat1 mat2 out : Value)
    (hout : out.node < g.nodes.length) :
    (g.withAddmm k mat mat1 mat2 out).node g.nodes.length =
      { kind := .addmm, inputs := [mat, mat1, mat2], outputs := [g.typeOf out], size := none,
        alpha := some 1, beta := some 1, blocks := [] } := by
  unfold Graph.withAddmm
  have hv : (g.insertAddmm k mat mat1 mat2).2.node <
      (g.insertAddmm k mat mat1 mat2).1.nodes.length := by
    rw [insertAddmm_length]; exact Nat.lt_succ_self _
  have h := node_copyMetadata_self (g.insertAddmm k mat mat1 mat2).1
    (g.insertAddmm k mat mat1 mat2).2 out hv
  have h2 : (g.insertAddmm k mat mat1 mat2).2.node = g.nodes.length := rfl
  rw [h2] at h
  rw [h, node_insertAddmm_new]
  have h3 : (g.insertAddmm k mat mat1 mat2).1.typeOf out = g.typeOf out := by
    unfold Graph.typeOf
    rw [node_insertAddmm_old g k _ _ _ out.node hout]
  rw [h3]
  rfl

theorem map_update_of_old {g : Graph} {rank : NodeId → Nat} (hr : Ranked g rank)
    (env : Value → Tensor) (t : Tensor) (m : NodeId) :
    (g.node m).inputs.map (Function.update env ⟨g.nodes.length, 0⟩ t) =
      (g.node m).inputs.map env := by
  apply List.map_congr_left
  intro u hu
  have hm : m < g.nodes.length := by
    by_contra hlt
    rw [node_absent_of_le g m (Nat.le_of_not_lt hlt)] at hu
    simp [Node.absent] at hu
  have := (hr m hm u hu).1
  apply Function.update_noteq
  intro e
  rw [e] at this
  exact Nat.lt_irrefl _ this

theorem preserves_refl (g : Graph) : Preserves g g :=
  fun _ env he ht => ⟨env, he, ht, fun _ _ => rfl, fun _ _ => rfl⟩

theorem preserves_trans {g g1 g2 : Graph} (hl : g.nodes.length ≤ g1.nodes.length)
    (h1 : Preserves g g1) (h2 : Preserves g1 g2) : Preserves g g2 := by
  intro ops env he ht
  obtain ⟨env1, he1, ht1, ha1, hs1⟩ := h1 ops env he ht
  obtain ⟨env2, he2, ht2, ha2, hs2⟩ := h2 ops env1 he1 ht1
  refine ⟨env2, he2, ht2, ?_, ?_⟩
  · intro v hv
    rw [ha2 v (Nat.lt_of_lt_of_le hv hl), ha1 v hv]
  · intro m hm
    rw [hs2 m (Nat.lt_of_lt_of_le hm hl), hs1 m hm]

theorem preserves_replace {g : Graph} {rank : NodeId → Nat} {k : NodeId} {out x : Value}
    (hm : matchNode g k = .ok (.replace out x)) (hr : Ranked g rank) (hs : g.Schema) :
    Preserves g (g.replaceAllUsesWith out x) := by
  intro ops env he ht
  have hx := replace_sound hm hr hs he ht
  refine ⟨env, evaluates_replaceAllUsesWith hx he, ?_, fun _ _ => rfl, ?_⟩
  · intro v sc dv sz st hty
    rw [typeOf_replaceAllUsesWith] at hty
    exact ht v sc dv sz st hty
  · intro m _
    rw [node_replaceAllUsesWith]
    exact map_substInputs hx _

theorem preserves_fuse {g : Graph} {rank : NodeId → Nat} {k : NodeId}
    {mat mat1 mat2 out : Value}
    (hm : matchNode g k = .ok (.fuse mat mat1 mat2 out)) (hr : Ranked g rank) (hs : g.Schema) :
    Preserves g (perform g k (.fuse mat mat1 mat2 out)) := by
  intro ops env he ht
  rw [perform_fuse]
  obtain ⟨hout, _, hk, _, y, rest, hin, _, hin2⟩ := matchNode_fuse_inv hm
  have hklt : k < g.nodes.length := lt_length_of_kind g k (by rw [hk]; decide)
  have holt : out.node < g.nodes.length := by rw [hout]; exact hklt
  have hsound := fuse_sound hm hr hs he
  have hold : ∀ v : Value, v.node < g.nodes.length →
      Function.update env ⟨g.nodes.length, 0⟩ (env out) v = env v := by
    intro v hv
    apply Function.update_noteq
    intro e
    rw [e] at hv
    exact Nat.lt_irrefl _ hv
  have hnew : Function.update env ⟨g.nodes.length, 0⟩ (env out) ⟨g.nodes.length, 0⟩ = env out :=
    Function.update_same _ _ _
  have hmat : mat.node < g.nodes.length := (hr k hklt mat (by rw [hin]; simp)).1
  have hy : y.node < g.nodes.length := (hr k hklt y (by rw [hin]; simp)).1
  have hmat1 : mat1.node < g.nodes.length := (hr y.node hy mat1 (by rw [hin2]; simp)).1
  have hmat2 : mat2.node < g.nodes.length := (hr y.node hy mat2 (by rw [hin2]; simp)).1
  have heq : Function.update env ⟨g.nodes.length, 0⟩ (env out) ⟨g.nodes.length, 0⟩ =
      Function.update env ⟨g.nodes.length, 0⟩ (env out) out := by
    rw [hnew, hold out holt]
  have hev : Evaluates (g.withAddmm k mat mat1 mat2 out) ops
      (Function.update env ⟨g.nodes.length, 0⟩ (env out)) := by
    refine ⟨?_, ?_⟩
    · intro n r hd
      rcases Nat.lt_trichotomy n g.nodes.length with hn | hn | hn
      · rw [node_withAddmm_old g k mat mat1 mat2 out n hn, map_update_of_old hr] at hd
        rw [hold ⟨n, 0⟩ hn]
        exact he.known n r hd
      · subst hn
        rw [node_withAddmm_record g k mat mat1 mat2 out holt] at hd
        simp only [denote, List.map_cons, List.map_nil, hold mat hmat, hold mat1 hmat1,
          hold mat2 hmat2, Option.some.injEq] at hd
        rw [hnew, ← hd, hsound]
      · rw [node_absent_of_le _ n (by rw [withAddmm_length]; omega)] at hd
        simp [denote, Node.absent] at hd
    · intro n tag j hk hj
      rcases Nat.lt_trichotomy n g.nodes.length with hn | hn | hn
      · rw [node_withAddmm_old g k mat mat1 mat2 out n hn] at hk hj ⊢
        rw [map_update_of_old hr, hold ⟨n, j⟩ hn]
        exact he.other n tag j hk hj
      · subst hn
        rw [node_withAddmm_record g k mat mat1 mat2 out holt] at hk
        cases hk
      · rw [node_absent_of_le _ n (by rw [withAddmm_length]; omega)] at hj
        simp [Node.absent] at hj
  refine ⟨_, evaluates_replaceAllUsesWith heq hev, ?_, hold, ?_⟩
  · intro v sc dv sz st hty
    rw [typeOf_replaceAllUsesWith] at hty
    rcases Nat.lt_trichotomy v.node g.nodes.length with hn | hn | hn
    · have : (g.withAddmm k mat mat1 mat2 out).typeOf v = g.typeOf v :=
        typeOf_eq_of_outputs (by rw [node_withAddmm_old g k mat mat1 mat2 out v.node hn])
      rw [this] at hty
      rw [hold v hn]
      exact ht v sc dv sz st hty
    · unfold Graph.typeOf at hty
      rw [hn, node_withAddmm_record g k mat mat1 mat2 out holt] at hty
      cases v with
      | mk a o =>
        simp only at hn
        subst hn
        cases o with
        | zero =>
          rw [hnew]
          exact ht out sc dv sz st hty
        | succ o => simp at hty
    · unfold Graph.typeOf at hty
      rw [node_absent_of_le _ v.node (by rw [withAddmm_length]; omega)] at hty
      simp [Node.absent] at hty
  · intro m hmlt
    rw [node_replaceAllUsesWith]
    show (substInputs out _ _).map _ = _
    rw [map_substInputs heq, node_withAddmm_old g k mat mat1 mat2 out m hmlt,
      map_update_of_old hr]

/-- One application of the switch keeps the values: on a graph with ranks and
with `t` and `mm` used by their schema, the result has ranks and the schema,
and every evaluation carries over. -/
theorem rewriteNode_sound {g g1 : Graph} {k : NodeId} (h : rewriteNode g k = .ok g1)
    (hr : ∃ rank, Ranked g rank) (hs : g.Schema) :
    (∃ rank1, Ranked g1 rank1) ∧ g1.Schema ∧ Preserves g g1 := by
  refine ⟨ranked_step hr h, schema_of_extends (rewriteNode_extends g k g1 h) hs, ?_⟩
  obtain ⟨rank, hr⟩ := hr
  rw [rewriteNode_eq_perform] at h
  cases hm : matchNode g k with
  | error e => rw [hm] at h; cases h
  | ok act =>
    rw [hm] at h
    simp only [Except.map] at h
    injection h with h
    subst h
    cases act with
    | skip => exact preserves_refl g
    | replace out x => exact preserves_replace hm hr hs
    | fuse mat mat1 mat2 out => exact preserves_fuse hm hr hs

/-- The traversal keeps the values. -/
theorem PeepholeOptimizeBlock_sound (fuel : Nat) (g : Graph) (b : BlockId) (g1 : Graph)
    (h : PeepholeOptimizeBlock fuel g b = .ok g1) (hr : ∃ rank, Ranked g rank)
    (hs : g.Schema) :
    (∃ rank1, Ranked g1 rank1) ∧ g1.Schema ∧ Preserves g g1 := by
  have key := PeepholeOptimizeBlock_rel
    (fun g g1 => g.nodes.length ≤ g1.nodes.length ∧
      ((∃ rank, Ranked g rank) → g.Schema →
        (∃ rank1, Ranked g1 rank1) ∧ g1.Schema ∧ Preserves g g1))
    (fun g => ⟨Nat.le_refl _, fun hr hs => ⟨hr, hs, preserves_refl g⟩⟩)
    (fun g g1 g2 h1 h2 => ⟨Nat.le_trans h1.1 h2.1, fun hr hs => by
      obtain ⟨hr1, hs1, hp1⟩ := h1.2 hr hs
      obtain ⟨hr2, hs2, hp2⟩ := h2.2 hr1 hs1
      exact ⟨hr2, hs2, preserves_trans h1.1 hp1 hp2⟩⟩)
    (fun g n g1 h => ⟨(rewriteNode_extends g n g1 h).length_le,
      fun hr hs => rewriteNode_sound h hr hs⟩)
    fuel g b g1 h
  exact key.2 hr hs

theorem block_purge_ret (g : Graph) (live : List Bool) (b : BlockId) :
    ((g.purge live).block b).ret = (g.block b).ret := by
  simp only [Graph.block, List.getD_eq_getElem?_getD, purge_blocks_getElem?]
  cases g.blocks[b]? <;> simp [Block.absent]

theorem evaluates_purge {g : Graph} {ops : NodeId → Nat → List Tensor → Tensor}
    {env : Value → Tensor} (live : List Bool)
    (he : Evaluates g ops env) : Evaluates (g.purge live) ops env := by
  refine ⟨?_, ?_⟩
  · intro n r hd
    rw [node_purge] at hd
    split at hd
    · exact he.known n r hd
    · simp [denote, Node.absent] at hd
  · intro n tag j hk hj
    rw [node_purge] at hk hj ⊢
    split at hk
    · next hl =>
      rw [if_pos hl] at hj ⊢
      exact he.other n tag j hk hj
    · next hl =>
      rw [if_neg hl] at hj
      simp [Node.absent] at hj

theorem wellTyped_purge {g : Graph} {env : Value → Tensor} (live : List Bool)
    (ht : WellTyped g env) : WellTyped (g.purge live) env := by
  intro v sc dv sz st hty
  unfold Graph.typeOf at hty
  rw [node_purge] at hty
  split at hty
  · exact ht v sc dv sz st hty
  · simp [Node.absent] at hty

/-- Removing the nodes that are not marked keeps the ranks when the marks are
closed under marking: the producer of a value read by a marked node is
marked. -/
theorem ranked_purge {g : Graph} {rank : NodeId → Nat} {live : List Bool}
    (hr : Ranked g rank) (hfix : markStep g live = live) : Ranked (g.purge live) rank := by
  intro m _ v hv
  rw [purge_length]
  rw [node_purge] at hv
  by_cases hl : isLive live m = true
  · rw [if_pos hl] at hv
    have hv1 := hr.apply m v hv
    have hc : g.consumes m v.node = true := by
      unfold Graph.consumes
      rw [List.any_eq_true]
      exact ⟨v, hv, by simp⟩
    have hlv := live_of_consumes hfix hl hc hv1.1
    rw [node_purge, if_pos hlv]
    exact hv1
  · rw [if_neg hl] at hv
    simp [Node.absent] at hv

/-- The return node of the root block is live. -/
theorem root_return_live {g : Graph} {live : List Bool} (hb : 0 < g.blocks.length)
    (hret : (g.block 0).ret < g.nodes.length)
    (h : markLive (g.nodes.length + 1) g (liveRoots g 0) = .ok live) :
    isLive live (g.block 0).ret = true := by
  apply (markLive_ok _ g _ live (liveRoots_length g 0) h).2.2
  rw [isLive_liveRoots]
  refine ⟨hret, ?_⟩
  simp [Graph.delimitsBlock, Graph.block, List.getD_eq_getElem?_getD,
    List.getElem?_eq_getElem hb]

/-- C19 (semantic equivalence).  Let `g` be a graph whose consumed values are
outputs of arena nodes of smaller rank, in which `t` and `mm` nodes follow
their schema, and which has a root block with a return node.  Let `env` be an
evaluation of `g` that agrees with the static tensor types: the six operators
`expand`, `t`, `type_as`, `add` (with broadcasting), `mm` and `addmm` are
those of the reference evaluation, in exact arithmetic, and every node of
another kind computes any function `ops` of the tensors it reads.  If
`PeepholeOptimize` ends in `g2`, there is an evaluation of `g2` for the same
`ops`, again agreeing with the static types, that gives every value of `g`
(inputs included) the tensor it had, in which every node of `g` that is left
in `g2` reads in every input position the tensor it read in `g`, and that
gives the graph outputs the same tensors; and every value read in `g2` is
still the output of a node of `g2` of smaller rank, so that no producer of a
value that is read has been removed.  The four identities behind the rules
hold in the reference evaluation. -/
theorem semantic_equivalence (g g2 : Graph) (fuel : Nat) (rank : NodeId → Nat)
    (ops : NodeId → Nat → List Tensor → Tensor) (env : Value → Tensor)
    (hr : Ranked g rank) (hs : g.Schema) (hb : 0 < g.blocks.length)
    (hret : (g.block 0).ret < g.nodes.length)
    (he : Evaluates g ops env) (ht : WellTyped g env)
    (h : PeepholeOptimize fuel g = .ok g2) :
    (∃ env2, Evaluates g2 ops env2 ∧ WellTyped g2 env2 ∧
      (∀ v, v.node < g.nodes.length → env2 v = env v) ∧
      (∀ m, m < g.nodes.length → g2.node m ≠ Node.absent →
        (g2.node m).inputs.map env2 = (g.node m).inputs.map env) ∧
      graphOutputs g2 env2 = graphOutputs g env) ∧
    (∃ rank2, Ranked g2 rank2) ∧
    (∀ x : Tensor, x.expand x.sizes = some x) ∧
    (∀ x y z : Tensor, x.t = some y → y.t = some z → z = x) ∧
    (∀ a b : Tensor, a.scalarType = b.scalarType → a.device = b.device → a.type_as b = a) ∧
    (∀ bias m1 m2 y : Tensor, m1.mm m2 = some y → bias.add y 1 = bias.addmm m1 m2 1 1) := by
  obtain ⟨g1, live, h1, hlive, _, hg2⟩ := PeepholeOptimize_ok h
  obtain ⟨⟨rank1, hr1⟩, _, hp⟩ := PeepholeOptimizeBlock_sound fuel g 0 g1 h1 ⟨rank, hr⟩ hs
  have hext := PeepholeOptimizeBlock_extends fuel g 0 g1 h1
  have hfix := (markLive_ok _ g1 _ live (liveRoots_length g1 0) hlive).2.1
  subst hg2
  refine ⟨?_, ⟨rank1, ranked_purge hr1 hfix⟩, Tensor.expand_sizes, fun _ _ _ => Tensor.t_t,
    fun _ _ => Tensor.type_as_same, fun _ _ _ _ => Tensor.add_mm⟩
  obtain ⟨env1, he1, ht1, ha1, hs1⟩ := hp ops env he ht
  refine ⟨env1, evaluates_purge live he1, wellTyped_purge live ht1, ha1, ?_, ?_⟩
  · intro m hm hne
    rw [node_purge] at hne ⊢
    split
    · exact hs1 m hm
    · next hl =>
      rw [if_neg hl] at hne
      exact absurd rfl hne
  · unfold graphOutputs
    rw [block_purge_ret, node_purge, hext.ret_eq 0]
    have hret1 : (g1.block 0).ret < g1.nodes.length := by
      rw [hext.ret_eq 0]
      exact Nat.lt_of_lt_of_le hret hext.length_le
    have hlv := root_return_live (by rw [hext.blocks_length]; exact hb) hret1 hlive
    rw [hext.ret_eq 0] at hlv
    rw [hlv]
    exact hs1 _ hret

theorem sampleEnv_evaluates : Evaluates evalGraph sampleOps sampleEnv := by
  refine ⟨?_, ?_⟩
  · intro n r hd
    match n with
    | 0 => simp [denote, evalGraph, Graph.node, Node.op] at hd
    | 1 =>
      simp [denote, evalGraph, Graph.node, Node.op] at hd
      subst hd
      rfl
    | 2 =>
      simp [denote, evalGraph, Graph.node, Node.op] at hd
      subst hd
      rfl
    | 3 =>
      simp [denote, evalGraph, Graph.node, Node.op] at hd
      subst hd
      rfl
    | 4 =>
      simp [denote, evalGraph, Graph.node, Node.op] at hd
      subst hd
      rfl
    | 5 => simp [denote, evalGraph, Graph.node, Node.op] at hd
    | 6 => simp [denote, evalGraph, Graph.node, Node.op] at hd
    | n + 7 => simp [denote, evalGraph, Graph.node, Node.absent] at hd
  · intro n tag j hk hj
    match n with
    | 0 => simp [evalGraph, Graph.node, Node.op] at hk
    | 1 => simp [evalGraph, Graph.node, Node.op] at hk
    | 2 => simp [evalGraph, Graph.node, Node.op] at hk
    | 3 => simp [evalGraph, Graph.node, Node.op] at hk
    | 4 => simp [evalGraph, Graph.node, Node.op] at hk
    | 5 =>
      have hj0 : j = 0 := by
        simp [evalGraph, Graph.node, Node.op] at hj
        exact hj
      subst hj0
      rfl
    | 6 => simp [evalGraph, Graph.node, Node.op] at hk
    | n + 7 => simp [evalGraph, Graph.node, Node.absent] at hj

theorem sampleEnv_wellTyped : WellTyped evalGraph sampleEnv := by
  intro v sc dv sz st hty
  cases v with
  | mk n o =>
    match n, o with
    | 0, 0 =>
      simp [Graph.typeOf, evalGraph, Graph.node, Node.op, floatTensor] at hty
      obtain ⟨h1, h2, h3, _⟩ := hty
      subst h1 h2 h3
      exact ⟨rfl, rfl, rfl⟩
    | 0, 1 =>
      simp [Graph.typeOf, evalGraph, Graph.node, Node.op, floatTensor] at hty
      obtain ⟨h1, h2, h3, _⟩ := hty
      subst h1 h2 h3
      exact ⟨rfl, rfl, rfl⟩
    | 0, 2 =>
      simp [Graph.typeOf, evalGraph, Graph.node, Node.op, floatTensor] at hty
      obtain ⟨h1, h2, h3, _⟩ := hty
      subst h1 h2 h3
      exact ⟨rfl, rfl, rfl⟩
    | 0, o + 3 => simp [Graph.typeOf, evalGraph, Graph.node, Node.op] at hty
    | 1, 0 =>
      simp [Graph.typeOf, evalGraph, Graph.node, Node.op, floatTensor] at hty
      obtain ⟨h1, h2, h3, _⟩ := hty
      subst h1 h2 h3
      exact ⟨rfl, rfl, rfl⟩
    | 1, o + 1 => simp [Graph.typeOf, evalGraph, Graph.node, Node.op] at hty
    | 2, 0 =>
      simp [Graph.typeOf, evalGraph, Graph.node, Node.op, floatTensor] at hty
      obtain ⟨h1, h2, h3, _⟩ := hty
      subst h1 h2 h3
      exact ⟨rfl, rfl, rfl⟩
    | 2, o + 1 => simp [Graph.typeOf, evalGraph, Graph.node, Node.op] at hty
    | 3, 0 =>
      simp [Graph.typeOf, evalGraph, Graph.node, Node.op, floatTensor] at hty
      obtain ⟨h1, h2, h3, _⟩ := hty
      subst h1 h2 h3
      exact ⟨rfl, rfl, rfl⟩
    | 3, o + 1 => simp [Graph.typeOf, evalGraph, Graph.node, Node.op] at hty
    | 4, 0 =>
      simp [Graph.typeOf, evalGraph, Graph.node, Node.op, floatTensor] at hty
      obtain ⟨h1, h2, h3, _⟩ := hty
      subst h1 h2 h3
      exact ⟨rfl, rfl, rfl⟩
    | 4, o + 1 => simp [Graph.typeOf, evalGraph, Graph.node, Node.op] at hty
    | 5, 0 =>
      simp [Graph.typeOf, evalGraph, Graph.node, Node.op, floatTensor] at hty
      obtain ⟨h1, h2, h3, _⟩ := hty
      subst h1 h2 h3
      exact ⟨rfl, rfl, rfl⟩
    | 5, o + 1 => simp [Graph.typeOf, evalGraph, Graph.node, Node.op] at hty
    | 6, o => simp [Graph.typeOf, evalGraph, Graph.node, Node.op] at hty
    | n + 7, o => simp [Graph.typeOf, evalGraph, Graph.node, Node.absent] at hty

/-- Witness of C19 on `evalGraph` with the evaluation `sampleEnv`, in which
Rule B and Rule D fire, the `add` broadcasts its first operand, and the
operator the pass does not know returns the tensor it reads. -/
theorem semantic_equivalence_witness :
    Evaluates evalGraph sampleOps sampleEnv ∧ WellTyped evalGraph sampleEnv ∧
    sampleBias.sizes = [4] ∧ sampleY.sizes = [2, 4] ∧ sampleZ.sizes = [2, 4] ∧
    ((∃ env2, Evaluates evalOptimized sampleOps env2 ∧ WellTyped evalOptimized env2 ∧
      (∀ v, v.node < evalGraph.nodes.length → env2 v = sampleEnv v) ∧
      (∀ m, m < evalGraph.nodes.length → evalOptimized.node m ≠ Node.absent →
        (evalOptimized.node m).inputs.map env2 = (evalGraph.node m).inputs.map sampleEnv) ∧
      graphOutputs evalOptimized env2 = graphOutputs evalGraph sampleEnv) ∧
    (∃ rank2, Ranked evalOptimized rank2) ∧
    (∀ x : Tensor, x.expand x.sizes = some x) ∧
    (∀ x y z : Tensor, x.t = some y → y.t = some z → z = x) ∧
    (∀ a b : Tensor, a.scalarType = b.scalarType → a.device = b.device → a.type_as b = a) ∧
    (∀ bias m1 m2 y : Tensor, m1.mm m2 = some y → bias.add y 1 = bias.addmm m1 m2 1 1)) :=
  ⟨sampleEnv_evaluates, sampleEnv_wellTyped, rfl, rfl, rfl,
    semantic_equivalence evalGraph evalOptimized 1 id sampleOps sampleEnv (by decide) (by decide)
      (by decide) (by decide) sampleEnv_evaluates sampleEnv_wellTyped rfl⟩

/-! ## Scopes are nested -/

theorem mem_scopesSub {chk : List NodeId → BlockId → List (NodeId × List NodeId)}
    {env : List NodeId} {l : List BlockId} {e : NodeId × List NodeId} :
    e ∈ scopesSub chk env l ↔ ∃ sb ∈ l, e ∈ chk env sb := by
  induction l with
  | nil => simp [scopesSub]
  | cons sb rest ih => simp [scopesSub, ih]

theorem scopesNodes_mono {chk : List NodeId → BlockId → List (NodeId × List NodeId)}
    {sub : NodeId → List BlockId} {ret : NodeId}
    (hchk : ∀ env sb, ∀ e ∈ chk env sb, ∀ p ∈ env, p ∈ e.2) :
    ∀ (l env : List NodeId), ∀ e ∈ scopesNodes chk sub ret env l, ∀ p ∈ env, p ∈ e.2 := by
  intro l
  induction l with
  | nil =>
    intro env e he p hp
    simp only [scopesNodes, List.mem_singleton] at he
    rw [he]; exact hp
  | cons n rest ih =>
    intro env e he p hp
    simp only [scopesNodes, List.mem_cons, List.mem_append] at he
    rcases he with he | he | he
    · rw [he]; exact hp
    · obtain ⟨sb, _, h1⟩ := mem_scopesSub.mp he
      exact hchk env sb e h1 p hp
    · exact ih (n :: env) e he p (List.mem_cons_of_mem _ hp)

theorem scopesCore_mono (blocks : List Block) (sub : NodeId → List BlockId) :
    ∀ (fuel : Nat) (env : List NodeId) (b : BlockId),
      ∀ e ∈ scopesCore blocks sub fuel env b, ∀ p ∈ env, p ∈ e.2 := by
  intro fuel
  induction fuel with
  | zero => intro env b e he; simp [scopesCore] at he
  | succ fuel ih =>
    intro env b e he p hp
    simp only [scopesCore] at he
    split at he
    · simp at he
    · next blk _ =>
      rcases List.mem_cons.mp he with he | he
      · rw [he]; exact hp
      · exact scopesNodes_mono ih _ _ e he p (List.mem_cons_of_mem _ hp)

theorem scopesNodes_nested {chk : List NodeId → BlockId → List (NodeId × List NodeId)}
    {sub : NodeId → List BlockId} {ret : NodeId}
    (hmono : ∀ env sb, ∀ e ∈ chk env sb, ∀ p ∈ env, p ∈ e.2)
    (hchk : ∀ env sb, ∀ e ∈ chk env sb, ∀ p ∈ e.2,
      p ∈ env ∨ ∃ e0 ∈ chk env sb, e0.1 = p ∧ ∀ q ∈ e0.2, q ∈ e.2) :
    ∀ (l env : List NodeId), ∀ e ∈ scopesNodes chk sub ret env l, ∀ p ∈ e.2,
      p ∈ env ∨ ∃ e0 ∈ scopesNodes chk sub ret env l, e0.1 = p ∧ ∀ q ∈ e0.2, q ∈ e.2 := by
  intro l
  induction l with
  | nil =>
    intro env e he p hp
    simp only [scopesNodes, List.mem_singleton] at he
    rw [he] at hp; exact Or.inl hp
  | cons n rest ih =>
    intro env e he p hp
    simp only [scopesNodes, List.mem_cons, List.mem_append] at he
    rcases he with he | he | he
    · rw [he] at hp; exact Or.inl hp
    · obtain ⟨sb, hsb, h1⟩ := mem_scopesSub.mp he
      rcases hchk env sb e h1 p hp with h2 | ⟨e0, h3, h4⟩
      · exact Or.inl h2
      · refine Or.inr ⟨e0, ?_, h4⟩
        simp only [scopesNodes, List.mem_cons, List.mem_append]
        exact Or.inr (Or.inl (mem_scopesSub.mpr ⟨sb, hsb, h3⟩))
    · rcases ih (n :: env) e he p hp with h2 | ⟨e0, h3, h4⟩
      · rcases List.mem_cons.mp h2 with h2 | h2
        · refine Or.inr ⟨(n, env), ?_, h2.symm, ?_⟩
          · simp [scopesNodes]
          · intro q hq
            exact scopesNodes_mono hmono rest (n :: env) e he q (List.mem_cons_of_mem _ hq)
        · exact Or.inl h2
      · refine Or.inr ⟨e0, ?_, h4⟩
        simp only [scopesNodes, List.mem_cons, List.mem_append]
        exact Or.inr (Or.inr h3)

/-- A node in scope at an entry of the table was in scope at the entry of the
block, or has an entry itself, with a scope contained in that of the first. -/
theorem scopesCore_nested (blocks : List Block) (sub : NodeId → List BlockId) :
    ∀ (fuel : Nat) (env : List NodeId) (b : BlockId),
      ∀ e ∈ scopesCore blocks sub fuel env b, ∀ p ∈ e.2,
        p ∈ env ∨ ∃ e0 ∈ scopesCore blocks sub fuel env b, e0.1 = p ∧ ∀ q ∈ e0.2, q ∈ e.2 := by
  intro fuel
  induction fuel with
  | zero => intro env b e he; simp [scopesCore] at he
  | succ fuel ih =>
    intro env b e he p hp
    simp only [scopesCore] at he ⊢
    split at he
    · simp at he
    · next blk hblk =>
      rcases List.mem_cons.mp he with he | he
      · rw [he] at hp; exact Or.inl hp
      · rcases scopesNodes_nested (scopesCore_mono blocks sub fuel) ih _ _ e he p hp with
          h2 | ⟨e0, h3, h4⟩
        · rcases List.mem_cons.mp h2 with h2 | h2
          · refine Or.inr ⟨(blk.param, env), List.mem_cons_self _ _, h2.symm, ?_⟩
            intro q hq
            exact scopesNodes_mono (scopesCore_mono blocks sub fuel) _ _ e he q
              (List.mem_cons_of_mem _ hq)
          · exact Or.inl h2
        · exact Or.inr ⟨e0, List.mem_cons_of_mem _ h3, h4⟩

/-! ## Scopes after an insertion -/

theorem scopesNodes_after {chk chk1 : List NodeId → BlockId → List (NodeId × List NodeId)}
    {sub : NodeId → List BlockId} {ret k a : NodeId}
    (hchk : ∀ env env1 sb, ScopeExt k a env env1 → ∀ e1 ∈ chk1 env1 sb,
      ∃ e ∈ chk env sb, (e1.1 = e.1 ∨ (e1.1 = a ∧ e.1 = k)) ∧ ScopeExt k a e.2 e1.2) :
    ∀ (l env env1 : List NodeId), (∀ p ∈ env, p ∈ env1) → a ∈ env1 →
      ∀ e1 ∈ scopesNodes chk1 sub ret env1 l,
        ∃ e ∈ scopesNodes chk sub ret env l,
          (e1.1 = e.1 ∨ (e1.1 = a ∧ e.1 = k)) ∧ ScopeExt k a e.2 e1.2 := by
  intro l
  induction l with
  | nil =>
    intro env env1 hsubset ha e1 he1
    simp only [scopesNodes, List.mem_singleton] at he1
    subst he1
    exact ⟨(ret, env), by simp [scopesNodes], Or.inl rfl, hsubset, fun _ => ha⟩
  | cons n rest ih =>
    intro env env1 hsubset ha e1 he1
    simp only [scopesNodes, List.mem_cons, List.mem_append] at he1
    rcases he1 with he1 | he1 | he1
    · subst he1
      exact ⟨(n, env), by simp [scopesNodes], Or.inl rfl, hsubset, fun _ => ha⟩
    · obtain ⟨sb, hsb, h1⟩ := mem_scopesSub.mp he1
      obtain ⟨e, he, hrel⟩ := hchk env env1 sb ⟨hsubset, fun _ => ha⟩ e1 h1
      refine ⟨e, ?_, hrel⟩
      simp only [scopesNodes, List.mem_cons, List.mem_append]
      exact Or.inr (Or.inl (mem_scopesSub.mpr ⟨sb, hsb, he⟩))
    · obtain ⟨e, he, hrel⟩ := ih (n :: env) (n :: env1)
        (fun p hp => by
          rcases List.mem_cons.mp hp with h | h
          · rw [h]; exact List.mem_cons_self _ _
          · exact List.mem_cons_of_mem _ (hsubset p h))
        (List.mem_cons_of_mem _ ha) e1 he1
      refine ⟨e, ?_, hrel⟩
      simp only [scopesNodes, List.mem_cons, List.mem_append]
      exact Or.inr (Or.inr he)

theorem scopesNodes_insert {chk chk1 : List NodeId → BlockId → List (NodeId × List NodeId)}
    {sub : NodeId → List BlockId} {ret k a : NodeId} (hsub : sub a = [])
    (hchk : ∀ env env1 sb, ScopeExt k a env env1 → ∀ e1 ∈ chk1 env1 sb,
      ∃ e ∈ chk env sb, (e1.1 = e.1 ∨ (e1.1 = a ∧ e.1 = k)) ∧ ScopeExt k a e.2 e1.2) :
    ∀ (l env env1 : List NodeId), ScopeExt k a env env1 →
      ∀ e1 ∈ scopesNodes chk1 sub ret env1 (insertBefore a k l),
        ∃ e ∈ scopesNodes chk sub ret env l,
          (e1.1 = e.1 ∨ (e1.1 = a ∧ e.1 = k)) ∧ ScopeExt k a e.2 e1.2 := by
  intro l
  induction l with
  | nil =>
    intro env env1 hext e1 he1
    simp only [insertBefore, scopesNodes, List.mem_singleton] at he1
    subst he1
    exact ⟨(ret, env), by simp [scopesNodes], Or.inl rfl, hext⟩
  | cons m rest ih =>
    intro env env1 hext e1 he1
    by_cases hm : m = k
    · subst hm
      simp only [insertBefore, if_true] at he1
      rw [scopesNodes] at he1
      simp only [hsub, scopesSub, List.nil_append, List.mem_cons] at he1
      rcases he1 with he1 | he1
      · subst he1
        exact ⟨(m, env), by simp [scopesNodes], Or.inr ⟨rfl, rfl⟩, hext⟩
      · exact scopesNodes_after hchk (m :: rest) env (a :: env1)
          (fun p hp => List.mem_cons_of_mem _ (hext.1 p hp)) (List.mem_cons_self _ _) e1
          (by simpa [scopesNodes] using he1)
    · simp only [insertBefore, if_neg hm] at he1
      simp only [scopesNodes, List.mem_cons, List.mem_append] at he1
      rcases he1 with he1 | he1 | he1
      · subst he1
        exact ⟨(m, env), by simp [scopesNodes], Or.inl rfl, hext⟩
      · obtain ⟨sb, hsb, h1⟩ := mem_scopesSub.mp he1
        obtain ⟨e, he, hrel⟩ := hchk env env1 sb hext e1 h1
        refine ⟨e, ?_, hrel⟩
        simp only [scopesNodes, List.mem_cons, List.mem_append]
        exact Or.inr (Or.inl (mem_scopesSub.mpr ⟨sb, hsb, he⟩))
      · obtain ⟨e, he, hrel⟩ := ih (m :: env) (m :: env1)
          ⟨fun p hp => by
              rcases List.mem_cons.mp hp with h | h
              · rw [h]; exact List.mem_cons_self _ _
              · exact List.mem_cons_of_mem _ (hext.1 p h),
            fun hk => by
              rcases List.mem_cons.mp hk with h | h
              · exact absurd h.symm hm
              · exact List.mem_cons_of_mem _ (hext.2 h)⟩ e1 he1
        refine ⟨e, ?_, hrel⟩
        simp only [scopesNodes, List.mem_cons, List.mem_append]
        exact Or.inr (Or.inr he)

/-- The table after the insertion of `a` before `k` in every node list: each
entry comes from an entry of the old table, of the same node or of `k` if the
node is `a`, with the scope extended, by `a` where `k` was in scope. -/
theorem scopesCore_insert (blocks : List Block) (sub : NodeId → List BlockId) (k a : NodeId)
    (hsub : sub a = []) (hpar : ∀ blk ∈ blocks, blk.param ≠ k) :
    ∀ (fuel : Nat) (env env1 : List NodeId) (b : BlockId), ScopeExt k a env env1 →
      ∀ e1 ∈ scopesCore (blocks.map (fun blk => { blk with nodes := insertBefore a k blk.nodes }))
          sub fuel env1 b,
        ∃ e ∈ scopesCore blocks sub fuel env b,
          (e1.1 = e.1 ∨ (e1.1 = a ∧ e.1 = k)) ∧ ScopeExt k a e.2 e1.2 := by
  intro fuel
  induction fuel with
  | zero => intro env env1 b _ e1 he1; simp [scopesCore] at he1
  | succ fuel ih =>
    intro env env1 b hext e1 he1
    simp only [scopesCore, List.getElem?_map] at he1 ⊢
    cases hb : blocks[b]? with
    | none => rw [hb] at he1; simp at he1
    | some blk =>
      rw [hb] at he1
      simp only [Option.map_some'] at he1
      have hmem : blk ∈ blocks := by
        obtain ⟨hi, he⟩ := List.getElem?_eq_some.mp hb
        exact he ▸ List.getElem_mem hi
      rcases List.mem_cons.mp he1 with he1 | he1
      · subst he1
        exact ⟨(blk.param, env), List.mem_cons_self _ _, Or.inl rfl, hext⟩
      · obtain ⟨e, he, hrel⟩ := scopesNodes_insert hsub ih blk.nodes (blk.param :: env)
          (blk.param :: env1)
          ⟨fun p hp => by
              rcases List.mem_cons.mp hp with h | h
              · rw [h]; exact List.mem_cons_self _ _
              · exact List.mem_cons_of_mem _ (hext.1 p h),
            fun hk => by
              rcases List.mem_cons.mp hk with h | h
              · exact absurd h.symm (hpar blk hmem)
              · exact List.mem_cons_of_mem _ (hext.2 h)⟩ e1 he1
        exact ⟨e, List.mem_cons_of_mem _ he, hrel⟩

/-! ## Well-ordering along the traversal -/

theorem scopes_replaceAllUsesWith (g : Graph) (v w : Value) (fuel : Nat) :
    (g.replaceAllUsesWith v w).scopes fuel = g.scopes fuel := by
  unfold Graph.scopes
  have h : (fun n => ((g.replaceAllUsesWith v w).node n).blocks) = fun n => (g.node n).blocks := by
    funext n
    rw [node_replaceAllUsesWith]
  rw [h]
  rfl

theorem scopes_perform_fuse (g : Graph) (k : NodeId) (mat mat1 mat2 out : Value) (fuel : Nat) :
    (perform g k (.fuse mat mat1 mat2 out)).scopes fuel =
      scopesCore (g.blocks.map (fun blk => { blk with nodes := insertBefore g.nodes.length k blk.nodes }))
        (fun n => (g.node n).blocks) fuel [] 0 := by
  unfold Graph.scopes
  have h : (fun n => ((perform g k (.fuse mat mat1 mat2 out)).node n).blocks) =
      fun n => (g.node n).blocks := by
    funext n
    show (((_ : Graph).replaceAllUsesWith _ _).node n).blocks = _
    rw [node_replaceAllUsesWith]
    show (((g.insertAddmm k mat mat1 mat2).1.copyMetadata _ _).node n).blocks = _
    rw [node_copyMetadata_blocks]
    exact (extends_insertAddmm g k mat mat1 mat2).blocks_eq n
  rw [h]
  rfl

theorem paramKinds_of_extends {g g1 : Graph} (h : Extends g g1) (hp : ParamKinds g) :
    ParamKinds g1 := by
  intro blk1 hblk1
  obtain ⟨b, hb, rfl⟩ := block_of_mem hblk1
  rw [h.param_eq b]
  have hb0 : b < g.blocks.length := by rw [← h.blocks_length]; exact hb
  have hk := hp (g.block b) (block_mem hb0)
  have hlt : (g.block b).param < g.nodes.length :=
    lt_length_of_kind g _ (by rw [hk]; decide)
  rw [h.kind_eq _ hlt]
  exact hk

/-- In a well-ordered graph the inputs of a node in scope are in scope. -/
theorem scope_of_input {g : Graph} {fuel : Nat} (hwo : WellOrdered fuel g)
    {e : NodeId × List NodeId} (he : e ∈ g.scopes fuel) {p : NodeId} (hp : p ∈ e.2)
    {v : Value} (hv : v ∈ (g.node p).inputs) : v.node ∈ e.2 := by
  rcases scopesCore_nested _ _ fuel [] 0 e he p hp with h | ⟨e0, he0, h1, h2⟩
  · simp at h
  · exact h2 _ (hwo e0 he0 v (by rw [h1]; exact hv))

theorem wellOrdered_replace {g : Graph} {fuel : Nat} {k : NodeId} {out x : Value}
    (hm : matchNode g k = .ok (.replace out x)) (hwo : WellOrdered fuel g) :
    WellOrdered fuel (g.replaceAllUsesWith out x) := by
  obtain ⟨hout, _, hx⟩ := matchNode_replace_spec hm
  intro e he v hv
  rw [scopes_replaceAllUsesWith] at he
  rw [node_replaceAllUsesWith] at hv
  rcases mem_substInputs hv with ⟨h1, _⟩ | ⟨h1, h2⟩
  · exact hwo e he v h1
  · have hk : k ∈ e.2 := by
      have := hwo e he out h2
      rw [hout] at this
      exact this
    rw [h1]
    rcases hx with hx | ⟨y, hy, hx⟩
    · exact scope_of_input hwo he hk hx
    · exact scope_of_input hwo he (scope_of_input hwo he hk hy) hx

theorem wellOrdered_fuse {g : Graph} {fuel : Nat} {k : NodeId} {mat mat1 mat2 out : Value}
    (hm : matchNode g k = .ok (.fuse mat mat1 mat2 out)) (hwo : WellOrdered fuel g)
    (hl : Listed fuel g) (hp : ParamKinds g) :
    WellOrdered fuel (perform g k (.fuse mat mat1 mat2 out)) ∧
      Listed fuel (perform g k (.fuse mat mat1 mat2 out)) := by
  obtain ⟨hout, _, hkind, hmat, y, hy, hm1, hm2⟩ := matchNode_fuse_spec hm
  have hsub : (fun n => (g.node n).blocks) g.nodes.length = [] := by
    show (g.node g.nodes.length).blocks = []
    rw [node_absent_of_le g _ (Nat.le_refl _)]
    rfl
  have hpar : ∀ blk ∈ g.blocks, blk.param ≠ k := by
    intro blk hblk e
    have := hp blk hblk
    rw [e, hkind] at this
    cases this
  have key := scopesCore_insert g.blocks (fun n => (g.node n).blocks) k g.nodes.length hsub hpar
    fuel [] [] 0 ⟨fun _ h => h, fun h => by simp at h⟩
  have hlen : (perform g k (.fuse mat mat1 mat2 out)).nodes.length = g.nodes.length + 1 := by
    rw [length_perform]; rfl
  constructor
  · intro e1 he1 v hv
    rw [scopes_perform_fuse] at he1
    obtain ⟨e, he, hrel, hext⟩ := key e1 he1
    -- every input of the consumer, before the rewiring, is in the old scope
    have hold : ∃ u, u.node ∈ e.2 ∧ v = (if u = out then ⟨g.nodes.length, 0⟩ else u) := by
      rw [perform_fuse, node_replaceAllUsesWith] at hv
      simp only [substInputs, List.mem_map] at hv
      obtain ⟨u, hu, huv⟩ := hv
      refine ⟨u, ?_, huv.symm⟩
      rcases hrel with h1 | ⟨h1, h2⟩
      · have hlt : e1.1 < g.nodes.length := by rw [h1]; exact hl e he
        rw [node_withAddmm_old g k mat mat1 mat2 out e1.1 hlt, h1] at hu
        exact hwo e he u hu
      · rw [h1, (node_withAddmm_new g k mat mat1 mat2 out).2.1] at hu
        have hk : ∀ w ∈ (g.node k).inputs, w.node ∈ e.2 := by
          intro w hw
          exact hwo e he w (by rw [h2]; exact hw)
        simp only [List.mem_cons, List.mem_singleton, List.not_mem_nil, or_false] at hu
        rcases hu with h | h | h
        · rw [h]; exact hk mat hmat
        · rw [h]; exact scope_of_input hwo he (hk y hy) hm1
        · rw [h]; exact scope_of_input hwo he (hk y hy) hm2
    obtain ⟨u, hu, hvu⟩ := hold
    rw [hvu]
    split
    · next h =>
      apply hext.2
      rw [h, hout] at hu
      exact hu
    · exact hext.1 _ hu
  · intro e1 he1
    rw [scopes_perform_fuse] at he1
    obtain ⟨e, he, hrel, _⟩ := key e1 he1
    rw [hlen]
    rcases hrel with h1 | ⟨h1, _⟩
    · rw [h1]; exact Nat.lt_succ_of_lt (hl e he)
    · rw [h1]; exact Nat.lt_succ_self _

/-- One application of the switch keeps the graph well-ordered. -/
theorem rewriteNode_wellOrdered {g g1 : Graph} {k : NodeId} (h : rewriteNode g k = .ok g1)
    (fuel : Nat) (hwo : WellOrdered fuel g) (hl : Listed fuel g) (hp : ParamKinds g) :
    WellOrdered fuel g1 ∧ Listed fuel g1 ∧ ParamKinds g1 := by
  have hp1 := paramKinds_of_extends (rewriteNode_extends g k g1 h) hp
  rw [rewriteNode_eq_perform] at h
  cases hm : matchNode g k with
  | error e => rw [hm] at h; cases h
  | ok act =>
    rw [hm] at h
    simp only [Except.map] at h
    injection h with h
    subst h
    cases act with
    | skip => exact ⟨hwo, hl, hp1⟩
    | replace out x =>
      refine ⟨wellOrdered_replace hm hwo, ?_, hp1⟩
      intro e he
      show e.1 < (g.replaceAllUsesWith out x).nodes.length
      change e ∈ (g.replaceAllUsesWith out x).scopes fuel at he
      rw [scopes_replaceAllUsesWith] at he
      rw [replaceAllUsesWith_length]
      exact hl e he
    | fuse mat mat1 mat2 out =>
      exact ⟨(wellOrdered_fuse hm hwo hl hp).1, (wellOrdered_fuse hm hwo hl hp).2, hp1⟩

/-- C15 (well-ordering).  Let `g` be a graph in which every value used by a
node is defined by a node, or is an input of a block, that occurs earlier in
the same block or in an enclosing block (checked in the blocks nested up to
depth `depth`), the nodes listed in the blocks being nodes of the arena and
the inputs of the blocks nodes of kind `Param`.  If the traversal of a block
ends in `g1`, the same holds of `g1`: for every node of its blocks, the fused
nodes inserted by Rule D and the rewired consumers included. -/
theorem well_ordering_preserved (g g1 : Graph) (depth fuel : Nat) (b : BlockId)
    (hwo : WellOrdered depth g) (hl : Listed depth g) (hp : ParamKinds g)
    (h : PeepholeOptimizeBlock fuel g b = .ok g1) :
    WellOrdered depth g1 ∧ Listed depth g1 ∧ ParamKinds g1 :=
  PeepholeOptimizeBlock_rel
    (fun g g1 => WellOrdered depth g ∧ Listed depth g ∧ ParamKinds g →
      WellOrdered depth g1 ∧ Listed depth g1 ∧ ParamKinds g1)
    (fun _ h => h) (fun _ _ _ h1 h2 h => h2 (h1 h))
    (fun _ _ _ h hinv => rewriteNode_wellOrdered h depth hinv.1 hinv.2.1 hinv.2.2)
    fuel g b g1 h ⟨hwo, hl, hp⟩

/-- Witness of C15 on `sampleGraph`: the table of the result lists the fused
node 11 with the block parameter and the nodes 1, 2, 3 in scope. -/
theorem well_ordering_preserved_witness :
    WellOrdered 2 sampleGraph ∧
    ∃ g1, PeepholeOptimizeBlock 2 sampleGraph 0 = .ok g1 ∧
      (11, [3, 2, 1, 0]) ∈ g1.scopes 2 ∧
      (WellOrdered 2 g1 ∧ Listed 2 g1 ∧ ParamKinds g1) :=
  ⟨by decide, _, rfl, by decide,
    well_ordering_preserved sampleGraph _ 2 2 0 (by decide) (by decide) (by decide) rfl⟩

/-! ## Chains of transposes -/

theorem TransposeChain.lt_length {g : Graph} {c : Nat → NodeId} {k : Nat} {x : Value}
    (hc : TransposeChain g c k x) {i : Nat} (hi : i < k) : c i < g.nodes.length :=
  lt_length_of_kind g (c i) (by rw [hc.kind i hi]; decide)

theorem TransposeChain.rank_succ {g : Graph} {rank : NodeId → Nat} {c : Nat → NodeId} {k : Nat}
    {x : Value} (hc : TransposeChain g c k x) (hr : Ranked g rank) {i : Nat} (hi : i < k - 1) :
    rank (c i) < rank (c (i + 1)) := by
  have h := hr.apply (c (i + 1)) ⟨c i, 0⟩ (by rw [hc.next i hi]; simp)
  exact h.2.2

theorem TransposeChain.rank_lt {g : Graph} {rank : NodeId → Nat} {c : Nat → NodeId} {k : Nat}
    {x : Value} (hc : TransposeChain g c k x) (hr : Ranked g rank) :
    ∀ {i j : Nat}, i < j → j < k → rank (c i) < rank (c j) := by
  intro i j hij
  induction j with
  | zero => exact absurd hij (Nat.not_lt_zero _)
  | succ j ih =>
    intro hj
    have h1 := hc.rank_succ hr (by omega : j < k - 1)
    rcases Nat.lt_succ_iff_lt_or_eq.mp hij with h | h
    · exact Nat.lt_trans (ih h (by omega)) h1
    · rw [h]; exact h1

theorem TransposeChain.inj {g : Graph} {rank : NodeId → Nat} {c : Nat → NodeId} {k : Nat}
    {x : Value} (hc : TransposeChain g c k x) (hr : Ranked g rank) {i j : Nat}
    (hi : i < k) (hj : j < k) (h : c i = c j) : i = j := by
  rcases Nat.lt_trichotomy i j with h1 | h1 | h1
  · have := hc.rank_lt hr h1 hj
    rw [h] at this
    exact absurd this (Nat.lt_irrefl _)
  · exact h1
  · have := hc.rank_lt hr h1 hi
    rw [h] at this
    exact absurd this (Nat.lt_irrefl _)

theorem TransposeChain.source_ne {g : Graph} {c : Nat → NodeId} {k : Nat} {x : Value}
    (hc : TransposeChain g c k x) {i : Nat} (hi : i < k) : x.node ≠ c i := by
  intro h
  have := hc.kind i hi
  rw [← h] at this
  exact hc.source this

theorem chainInput_nil {g : Graph} {c : Nat → NodeId} {k : Nat} {x : Value}
    (hc : TransposeChain g c k x) {i : Nat} (hi : i < k) :
    (g.node (c i)).inputs = [chainInput c x [] i] := by
  unfold chainInput
  cases i with
  | zero => simpa using hc.first
  | succ i =>
    simp only [Nat.add_one_ne_zero, if_false, List.not_mem_nil, and_false, Nat.add_sub_cancel]
    exact hc.next i (by omega)

/-- Before any visit the chain is in its initial state. -/
theorem chainInv_init {g : Graph} {rank : NodeId → Nat} {c : Nat → NodeId} {k : Nat}
    {x : Value} (hc : TransposeChain g c k x) (hr : Ranked g rank) :
    ChainInv g rank c k x [] g where
  ext := extends_refl g
  ranked := ⟨rank, hr, fun _ _ => rfl⟩
  inputs := fun i hi => chainInput_nil hc hi
  slots := fun m s h => by simpa using h
  only := fun i hi m v hv hvn => by
    have hm : m < g.nodes.length := by
      by_contra hlt
      rw [node_absent_of_le g m (Nat.le_of_not_lt hlt)] at hv
      simp [Node.absent] at hv
    exact hc.only i hi m hm v hv hvn
  unused := fun i _ _ h => by simp at h

/-! ## The state of a chain along the traversal -/

theorem reads_replaceAllUsesWith_of_ne {g : Graph} {m : NodeId} {s : Nat} {v out w : Value}
    (h : g.reads m s v) (hv : v ≠ out) : (g.replaceAllUsesWith out w).reads m s v := by
  unfold Graph.reads at h ⊢
  rw [node_replaceAllUsesWith]
  simp [substInputs_getElem?, h, hv]

theorem substInputs_singleton_of_ne {v out w : Value} (h : v ≠ out) :
    substInputs out w [v] = [v] := by
  simp [substInputs, h]

theorem chainInput_ne_of {c : Nat → NodeId} {x : Value} {pre : List NodeId} {i : Nat}
    {out : Value} (hx : x ≠ out) (hc : ∀ j, j + 1 = i → out ≠ ⟨c j, 0⟩) :
    chainInput c x pre i ≠ out := by
  unfold chainInput
  split
  · exact hx
  · next hi =>
    split
    · exact hx
    · exact fun e => hc (i - 1) (by omega) e.symm

theorem chainInput_congr {c : Nat → NodeId} {x : Value} {pre pre1 : List NodeId} {k i : Nat}
    (hmem : ∀ j, j < k → j % 2 = 1 → (c j ∈ pre1 ↔ c j ∈ pre)) (hi : i < k) :
    chainInput c x pre1 i = chainInput c x pre i := by
  unfold chainInput
  by_cases h0 : i = 0
  · simp [h0]
  · by_cases h2 : i % 2 = 0
    · have := hmem (i - 1) (by omega) (by omega)
      simp only [this]
    · simp [h0, h2]

/-- Visiting a node that is not an even-numbered transpose of the chain does
not change which state the chain is said to be in. -/
theorem chainInv_append {g : Graph} {rank : NodeId → Nat} {c : Nat → NodeId} {k : Nat}
    {x : Value} {pre : List NodeId} {g1 : Graph} {n : NodeId} (hk : 0 < k)
    (hinv : ChainInv g rank c k x pre g1)
    (hodd : ∀ j, j < k → j % 2 = 1 → c j ≠ n) :
    ChainInv g rank c k x (pre ++ [n]) g1 := by
  have hmem : ∀ j, j < k → j % 2 = 1 → (c j ∈ pre ++ [n] ↔ c j ∈ pre) := by
    intro j hj hp
    simp only [List.mem_append, List.mem_singleton]
    constructor
    · rintro (h | h)
      · exact h
      · exact absurd h (hodd j hj hp)
    · exact Or.inl
  refine ⟨hinv.ext, hinv.ranked, ?_, ?_, hinv.only, ?_⟩
  · intro i hi
    rw [hinv.inputs i hi, chainInput_congr hmem hi]
  · intro m s h
    have := hinv.slots m s h
    by_cases h2 : k % 2 = 0
    · have := hmem (k - 1) (by omega) (by omega)
      simp only [this]
      assumption
    · simpa [h2] using this
  · intro i hi hp hmem1
    exact hinv.unused i hi hp ((hmem i hi hp).mp hmem1)

theorem ranked_after {g g1 g2 : Graph} {rank : NodeId → Nat} {n : NodeId}
    (hext : Extends g g1)
    (hr : ∃ rank1, Ranked g1 rank1 ∧ ∀ m, m < g.nodes.length → rank1 m = rank m)
    (hn : n < g1.nodes.length) (h : rewriteNode g1 n = .ok g2) :
    ∃ rank2, Ranked g2 rank2 ∧ ∀ m, m < g.nodes.length → rank2 m = rank m := by
  obtain ⟨rank1, hr1, hag⟩ := hr
  obtain ⟨rank2, hr2, hag2, _⟩ := @settle_step g1 g2 rank1 n [] hr1 hn (by simp) h
  exact ⟨rank2, hr2, fun m hm => by
    rw [hag2 m (Nat.lt_of_lt_of_le hm hext.length_le), hag m hm]⟩

/-- The visit of an even-numbered transpose of the chain: Rule B fires and the
consumers of its output read `x`. -/
theorem chainInv_fire {g : Graph} {rank : NodeId → Nat} {c : Nat → NodeId} {k : Nat}
    {x : Value} {pre : List NodeId} {g1 : Graph} {i : Nat}
    (hc : TransposeChain g c k x) (hr0 : Ranked g rank)
    (hinv : ChainInv g rank c k x pre g1) (hi : i < k) (hodd : i % 2 = 1)
    (hnpre : c i ∉ pre) (hout : (g1.node (c i)).outputs.length = 1)
    (hrk : ∃ rank2, Ranked (g1.replaceAllUsesWith ⟨c i, 0⟩ x) rank2 ∧
      ∀ m, m < g.nodes.length → rank2 m = rank m) :
    ChainInv g rank c k x (pre ++ [c i]) (g1.replaceAllUsesWith ⟨c i, 0⟩ x) := by
  have hxne : ∀ j, j < k → x ≠ (⟨c j, 0⟩ : Value) := by
    intro j hj e
    exact hc.source_ne hj (by rw [e])
  have hcne : ∀ j, j < k → j ≠ i → (⟨c j, 0⟩ : Value) ≠ ⟨c i, 0⟩ := by
    intro j hj hne e
    exact hne (hc.inj hr0 hj hi (congrArg Value.node e))
  have hmem : ∀ j, j < k → j ≠ i → (c j ∈ pre ++ [c i] ↔ c j ∈ pre) := by
    intro j hj hne
    simp only [List.mem_append, List.mem_singleton]
    constructor
    · rintro (h | h)
      · exact h
      · exact absurd (hc.inj hr0 hj hi h) hne
    · exact Or.inl
  obtain ⟨rank1, hr1, _⟩ := hinv.ranked
  refine ⟨extends_trans hinv.ext (extends_replaceAllUsesWith _ _ _), hrk, ?_, ?_, ?_, ?_⟩
  · intro j hj
    rw [node_replaceAllUsesWith, hinv.inputs j hj]
    show substInputs _ _ [_] = _
    by_cases hji : j = i + 1
    · subst hji
      have h1 : chainInput c x pre (i + 1) = ⟨c i, 0⟩ := by
        unfold chainInput
        simp [hnpre]
      have h2 : chainInput c x (pre ++ [c i]) (i + 1) = x := by
        unfold chainInput
        have : (i + 1) % 2 = 0 := by omega
        simp [this]
      rw [h1, h2]
      simp [substInputs]
    · have h1 : chainInput c x (pre ++ [c i]) j = chainInput c x pre j := by
        unfold chainInput
        by_cases h0 : j = 0
        · simp [h0]
        · have := hmem (j - 1) (by omega) (by omega)
          simp only [this]
      rw [h1]
      apply substInputs_singleton_of_ne
      apply chainInput_ne_of (hxne i hi)
      intro j' hj' e
      have : i = j' := hc.inj hr0 hi (by omega) (congrArg Value.node e)
      omega
  · intro m s h
    have h1 := hinv.slots m s h
    by_cases hik : i = k - 1
    · have hk2 : k % 2 = 0 := by omega
      have hnp : c (k - 1) ∉ pre := by rw [← hik]; exact hnpre
      simp only [hk2, hnp, and_false, if_false] at h1
      have hin : c (k - 1) ∈ pre ++ [c i] := by rw [hik]; simp
      simp only [hk2, hin, and_self, if_true]
      rw [hik]
      exact rewired_slot g1 _ _ m s h1
    · have := hmem (k - 1) (by omega) (fun e => hik e.symm)
      simp only [this]
      apply reads_replaceAllUsesWith_of_ne h1
      split
      · exact hxne i hi
      · exact hcne (k - 1) (by omega) (fun e => hik e.symm)
  · intro j hj m v hv hvn
    rw [node_replaceAllUsesWith] at hv
    rcases mem_substInputs hv with ⟨h1, _⟩ | ⟨h1, _⟩
    · exact hinv.only j hj m v h1 hvn
    · rw [h1] at hvn
      exact absurd hvn (hc.source_ne (by omega))
  · intro j hj hp hjm
    by_cases hji : j = i
    · subst hji
      exact unused_self_replaceAllUsesWith hr1 hout (hc.source_ne hi)
    · exact unused_replaceAllUsesWith (hinv.unused j hj hp ((hmem j hj hji).mp hjm))
        (hc.source_ne hj)

theorem kind_of_replace {g : Graph} {n : NodeId} {out w : Value}
    (hm : matchNode g n = .ok (.replace out w)) :
    (g.node n).kind = .expand ∨ (g.node n).kind = .t ∨ (g.node n).kind = .type_as := by
  obtain ⟨_, _, h | h | h⟩ := matchNode_replace_inv hm
  · exact Or.inl h.1
  · exact Or.inr (Or.inl h.1)
  · exact Or.inr (Or.inr h.1)

/-- A chain is not disturbed by Rule A, B or C firing on a node outside it. -/
theorem chainInv_replace {g : Graph} {rank : NodeId → Nat} {c : Nat → NodeId} {k : Nat}
    {x : Value} {pre : List NodeId} {g1 : Graph} {n : NodeId} {out w : Value}
    (hc : TransposeChain g c k x) (hr0 : Ranked g rank)
    (hinv : ChainInv g rank c k x pre g1) (hn : n < g.nodes.length)
    (hnc : ∀ j, j < k → c j ≠ n)
    (hord : ∀ i, i < k → rank (c i) < rank n → c i ∈ pre)
    (hm : matchNode g1 n = .ok (.replace out w))
    (hidle : n = x.node → matchNode g1 n = .ok .skip)
    (hrk : ∃ rank2, Ranked (g1.replaceAllUsesWith out w) rank2 ∧
      ∀ m, m < g.nodes.length → rank2 m = rank m) :
    ChainInv g rank c k x pre (g1.replaceAllUsesWith out w) := by
  obtain ⟨hout, _, hw⟩ := matchNode_replace_spec hm
  obtain ⟨rank1, hr1, hag⟩ := hinv.ranked
  have hxlt : x.node < g.nodes.length :=
    (hr0.apply (c 0) x (by rw [hc.first]; simp)).1
  have hxout : x ≠ out := by
    intro e
    have hskip := hidle (by rw [e, hout])
    rw [hm] at hskip
    cases hskip
  have hcout : ∀ j, j < k → (⟨c j, 0⟩ : Value) ≠ out := by
    intro j hj e
    rw [hout] at e
    exact hnc j hj (congrArg Value.node e)
  -- the replacement is consumed in `g1`, by `n` or by the producer of its input
  have hwcons : ∃ q, w ∈ (g1.node q).inputs := by
    rcases hw with h | ⟨y, _, h⟩
    · exact ⟨n, h⟩
    · exact ⟨y.node, h⟩
  have hwne : ∀ j, j < k - 1 → w.node ≠ c j := by
    intro j hj hwj
    rcases hw with h | ⟨y, hy, h⟩
    · exact hnc (j + 1) (by omega) (hinv.only j hj n w h hwj).symm
    · have hq := hinv.only j hj y.node w h hwj
      by_cases hj2 : j + 1 < k - 1
      · exact hnc (j + 2) (by omega) (hinv.only (j + 1) hj2 n y hy hq).symm
      · have hjk : j + 1 = k - 1 := by omega
        -- `n` consumes the output of the last transpose, which ranks below it
        have hrank : rank (c (j + 1)) < rank n := by
          have h1 := (hr1.apply n y hy).2.2
          rw [hq, hag _ (hc.lt_length (by omega)), hag n hn] at h1
          exact h1
        have hlast : c (j + 1) ∈ pre := hord (j + 1) (by omega) hrank
        have hprev : c j ∈ pre :=
          hord j (by omega) (Nat.lt_trans (hc.rank_lt hr0 (Nat.lt_succ_self j) (by omega)) hrank)
        have hin := hinv.inputs (j + 1) (by omega)
        rw [hq] at h
        rw [hin] at h
        have hwv : w = chainInput c x pre (j + 1) := by simpa using h
        by_cases hpar : (j + 1) % 2 = 0
        · have : chainInput c x pre (j + 1) = x := by
            unfold chainInput
            simp [hpar, hprev]
          rw [this] at hwv
          rw [hwv] at hwj
          exact hc.source_ne (by omega) hwj
        · have hu := hinv.unused (j + 1) (by omega) (by omega) hlast
          exact hu n y hy hq
  refine ⟨extends_trans hinv.ext (extends_replaceAllUsesWith _ _ _), hrk, ?_, ?_, ?_, ?_⟩
  · intro j hj
    rw [node_replaceAllUsesWith, hinv.inputs j hj]
    apply substInputs_singleton_of_ne
    apply chainInput_ne_of hxout
    intro j' hj' e
    exact hcout j' (by omega) e.symm
  · intro m s h
    apply reads_replaceAllUsesWith_of_ne (hinv.slots m s h)
    split
    · exact hxout
    · exact hcout (k - 1) (by have := hc.pos; omega)
  · intro j hj m v hv hvn
    rw [node_replaceAllUsesWith] at hv
    rcases mem_substInputs hv with ⟨h1, _⟩ | ⟨h1, _⟩
    · exact hinv.only j hj m v h1 hvn
    · rw [h1] at hvn
      exact absurd hvn (hwne j hj)
  · intro j hj hp hjm
    apply unused_replaceAllUsesWith (hinv.unused j hj hp hjm)
    obtain ⟨q, hq⟩ := hwcons
    intro e
    exact hinv.unused j hj hp hjm q w hq e

/-- A chain is not disturbed by Rule D firing on a node outside it. -/
theorem chainInv_fuse {g : Graph} {rank : NodeId → Nat} {c : Nat → NodeId} {k : Nat}
    {x : Value} {pre : List NodeId} {g1 : Graph} {n : NodeId} {mat mat1 mat2 out : Value}
    (hc : TransposeChain g c k x) (hr0 : Ranked g rank)
    (hinv : ChainInv g rank c k x pre g1)
    (hnc : ∀ j, j < k → c j ≠ n)
    (hm : matchNode g1 n = .ok (.fuse mat mat1 mat2 out))
    (hidle : n = x.node → matchNode g1 n = .ok .skip)
    (hext : Extends g1 (perform g1 n (.fuse mat mat1 mat2 out)))
    (hrk : ∃ rank2, Ranked (perform g1 n (.fuse mat mat1 mat2 out)) rank2 ∧
      ∀ m, m < g.nodes.length → rank2 m = rank m) :
    ChainInv g rank c k x pre (perform g1 n (.fuse mat mat1 mat2 out)) := by
  obtain ⟨hout, _, hkind, _, y, rest, hin, hk2, hin2⟩ := matchNode_fuse_inv hm
  have hlen := hinv.ext.length_le
  have hxlt : x.node < g.nodes.length :=
    (hr0.apply (c 0) x (by rw [hc.first]; simp)).1
  have hclt : ∀ j, j < k → c j < g1.nodes.length := fun j hj =>
    Nat.lt_of_lt_of_le (hc.lt_length hj) hlen
  have hxout : x ≠ out := by
    intro e
    have hskip := hidle (by rw [e, hout])
    rw [hm] at hskip
    cases hskip
  have hcout : ∀ j, j < k → (⟨c j, 0⟩ : Value) ≠ out := by
    intro j hj e
    rw [hout] at e
    exact hnc j hj (congrArg Value.node e)
  have hmat : mat ∈ (g1.node n).inputs := by rw [hin]; simp
  have hy : y ∈ (g1.node n).inputs := by rw [hin]; simp
  have hm1 : mat1 ∈ (g1.node y.node).inputs := by rw [hin2]; simp
  have hm2 : mat2 ∈ (g1.node y.node).inputs := by rw [hin2]; simp
  have hopne : ∀ j, j < k - 1 → ∀ v, v = mat ∨ v = mat1 ∨ v = mat2 → v.node ≠ c j := by
    intro j hj v hv hvn
    have hmm : ∀ u, u ∈ (g1.node y.node).inputs → u.node = c j → False := by
      intro u hu hun
      have hq := hinv.only j hj y.node u hu hun
      rw [hq, hinv.ext.kind_eq _ (hc.lt_length (by omega)), hc.kind (j + 1) (by omega)] at hk2
      cases hk2
    rcases hv with h | h | h
    · rw [h] at hvn
      exact hnc (j + 1) (by omega) (hinv.only j hj n mat hmat hvn).symm
    · rw [h] at hvn; exact hmm mat1 hm1 hvn
    · rw [h] at hvn; exact hmm mat2 hm2 hvn
  rw [perform_fuse] at hext hrk ⊢
  refine ⟨extends_trans hinv.ext hext, hrk, ?_, ?_, ?_, ?_⟩
  · intro j hj
    rw [node_replaceAllUsesWith, node_withAddmm_old g1 n mat mat1 mat2 out (c j) (hclt j hj),
      hinv.inputs j hj]
    apply substInputs_singleton_of_ne
    apply chainInput_ne_of hxout
    intro j' hj' e
    exact hcout j' (by omega) e.symm
  · intro m s h
    have h1 := hinv.slots m s h
    have hmlt : m < g1.nodes.length := (reads_mem h1).1
    have h2 : (g1.withAddmm n mat mat1 mat2 out).reads m s
        (if k % 2 = 0 ∧ c (k - 1) ∈ pre then x else ⟨c (k - 1), 0⟩) := by
      unfold Graph.reads
      rw [node_withAddmm_old g1 n mat mat1 mat2 out m hmlt]
      exact h1
    apply reads_replaceAllUsesWith_of_ne h2
    split
    · exact hxout
    · exact hcout (k - 1) (by have := hc.pos; omega)
  · intro j hj m v hv hvn
    rw [node_replaceAllUsesWith] at hv
    rcases mem_substInputs hv with ⟨h1, _⟩ | ⟨h1, _⟩
    · rcases node_withAddmm_inputs g1 n mat mat1 mat2 out m v h1 with ⟨_, h2⟩ | ⟨_, h2⟩
      · exact hinv.only j hj m v h2 hvn
      · exact absurd hvn (hopne j hj v h2)
    · rw [h1] at hvn
      exact absurd hvn (Nat.ne_of_gt (hclt j (by omega)))
  · intro j hj hp hjm
    apply unused_replaceAllUsesWith
    · exact unused_withAddmm (hinv.unused j hj hp hjm) hmat hm1 hm2
    · exact Nat.ne_of_gt (hclt j hj)

theorem matchNode_t_skip {g : Graph} {n : NodeId} {x : Value} (hk : (g.node n).kind = .t)
    (hin : (g.node n).inputs = [x]) (hx : (g.node x.node).kind ≠ .t) :
    matchNode g n = .ok .skip := by
  simp [matchNode, hk, Node.input, hin, hx]

/-- One visit keeps the state of the chain in step with the visited nodes. -/
theorem chain_step {g : Graph} {rank : NodeId → Nat} {c : Nat → NodeId} {k : Nat}
    {x : Value} {pre : List NodeId} {g1 g2 : Graph} {n : NodeId}
    (hc : TransposeChain g c k x) (hr0 : Ranked g rank) (ha : g.ArityOK)
    (hinv : ChainInv g rank c k x pre g1) (hn : n < g.nodes.length) (hnpre : n ∉ pre)
    (hord : ∀ i, i < k → rank (c i) < rank n → c i ∈ pre)
    (hidle : n = x.node → matchNode g1 n = .ok .skip)
    (h : rewriteNode g1 n = .ok g2) :
    ChainInv g rank c k x (pre ++ [n]) g2 := by
  have hn1 : n < g1.nodes.length := Nat.lt_of_lt_of_le hn hinv.ext.length_le
  have hrk := ranked_after hinv.ext hinv.ranked hn1 h
  have hxlt : x.node < g.nodes.length :=
    (hr0.apply (c 0) x (by rw [hc.first]; simp)).1
  have hkind1 : ∀ j, j < k → (g1.node (c j)).kind = .t := fun j hj => by
    rw [hinv.ext.kind_eq _ (hc.lt_length hj)]; exact hc.kind j hj
  by_cases hch : ∃ j, j < k ∧ c j = n
  · obtain ⟨j, hj, rfl⟩ := hch
    have hprev : ∀ i, i < j → c i ∈ pre := fun i hi => hord i (by omega) (hc.rank_lt hr0 hi hj)
    by_cases hpar : j % 2 = 1
    · -- an even-numbered transpose: Rule B fires
      have hin : (g1.node (c j)).inputs = [⟨c (j - 1), 0⟩] := by
        rw [hinv.inputs j hj]
        unfold chainInput
        have h0 : j ≠ 0 := by omega
        have h2 : ¬ j % 2 = 0 := by omega
        simp [h0, h2]
      have hin2 : (g1.node (c (j - 1))).inputs = [x] := by
        rw [hinv.inputs (j - 1) (by omega)]
        unfold chainInput
        by_cases h0 : j - 1 = 0
        · simp [h0]
        · have h2 : (j - 1) % 2 = 0 := by omega
          have h3 : c (j - 1 - 1) ∈ pre := hprev _ (by omega)
          simp [h0, h2, h3]
      have hout : (g1.node (c j)).outputs.length = 1 := by
        rw [hinv.ext.outputs_length _ (hc.lt_length hj)]
        exact (ha.node (c j)).2.2.2.2 (Or.inr (Or.inl (hc.kind j hj)))
      have hfire := rewriteNode_t_fires g1 (c j) ⟨c (j - 1), 0⟩ x (hkind1 j hj) hin
        (hkind1 (j - 1) (by omega)) hin2 hout
      rw [hfire] at h
      injection h with h
      subst h
      exact chainInv_fire hc hr0 hinv hj hpar hnpre hout hrk
    · -- an odd-numbered transpose reads `x`: nothing to do
      have hin : (g1.node (c j)).inputs = [x] := by
        rw [hinv.inputs j hj]
        unfold chainInput
        by_cases h0 : j = 0
        · simp [h0]
        · have h2 : j % 2 = 0 := by omega
          have h3 : c (j - 1) ∈ pre := hprev _ (by omega)
          simp [h0, h2, h3]
      have hx : (g1.node x.node).kind ≠ .t := by
        rw [hinv.ext.kind_eq _ hxlt]; exact hc.source
      rw [rewriteNode_of_skip (matchNode_t_skip (hkind1 j hj) hin hx)] at h
      injection h with h
      subst h
      apply chainInv_append hc.pos hinv
      intro i hi hip e
      have := hc.inj hr0 hi hj e
      omega
  · have hnc : ∀ j, j < k → c j ≠ n := fun j hj e => hch ⟨j, hj, e⟩
    have hext := rewriteNode_extends g1 n g2 h
    rw [rewriteNode_eq_perform] at h
    cases hm : matchNode g1 n with
    | error e => rw [hm] at h; cases h
    | ok act =>
      rw [hm] at h
      simp only [Except.map] at h
      injection h with h
      subst h
      apply chainInv_append hc.pos _ (fun j hj _ => hnc j hj)
      cases act with
      | skip => exact hinv
      | replace out w => exact chainInv_replace hc hr0 hinv hn hnc hord hm hidle hrk
      | fuse mat mat1 mat2 out => exact chainInv_fuse hc hr0 hinv hnc hm hidle hext hrk

theorem rewritesAt_cons {p n : NodeId} {rest : List NodeId} {g1 g3 : Graph}
    (h : rewriteNode g1 n = .ok g3) (hrw : rewritesAt p (n :: rest) g1 = false) :
    (n = p → matchNode g1 n = .ok .skip) ∧ rewritesAt p rest g3 = false := by
  rw [rewriteNode_eq_perform] at h
  cases hm : matchNode g1 n with
  | error e => rw [hm] at h; cases h
  | ok act =>
    rw [hm] at h
    simp only [Except.map] at h
    injection h with h
    subst h
    simp only [rewritesAt, hm, Bool.or_eq_false_iff, Bool.and_eq_false_iff,
      decide_eq_false_iff_not, ne_eq, not_not] at hrw
    refine ⟨fun e => ?_, hrw.2⟩
    rcases hrw.1 with h1 | h1
    · exact absurd e h1
    · rw [h1]

/-- The state of the chain along a run of the switch over nodes in the order
of their rank, in which no rule fires on the producer of `x`. -/
theorem chain_fold {g : Graph} {rank : NodeId → Nat} {c : Nat → NodeId} {k : Nat}
    {x : Value} (hc : TransposeChain g c k x) (hr0 : Ranked g rank) (ha : g.ArityOK) :
    ∀ (post pre : List NodeId) (g1 g2 : Graph), ChainInv g rank c k x pre g1 →
      (pre ++ post).Pairwise (fun a b => rank a < rank b) →
      (∀ n ∈ post, n < g.nodes.length) →
      (∀ i, i < k → c i ∈ pre ++ post) →
      rewritesAt x.node post g1 = false →
      rewriteNodes post g1 = .ok g2 → ChainInv g rank c k x (pre ++ post) g2 := by
  intro post
  induction post with
  | nil =>
    intro pre g1 g2 hinv _ _ _ _ h
    simp only [rewriteNodes] at h
    injection h with h
    subst h
    simpa using hinv
  | cons n rest ih =>
    intro pre g1 g2 hinv hpw hlt hall hrw h
    simp only [rewriteNodes] at h
    split at h
    · cases h
    · next g3 h3 =>
      obtain ⟨hidle, hrw3⟩ := rewritesAt_cons h3 hrw
      have hpw2 := List.pairwise_append.mp hpw
      have hhead := List.pairwise_cons.mp hpw2.2.1
      have hnpre : n ∉ pre := fun hmem =>
        Nat.lt_irrefl _ (hpw2.2.2 n hmem n (List.mem_cons_self _ _))
      have hord : ∀ i, i < k → rank (c i) < rank n → c i ∈ pre := by
        intro i hi hr
        rcases List.mem_append.mp (hall i hi) with h1 | h1
        · exact h1
        · rcases List.mem_cons.mp h1 with h2 | h2
          · rw [h2] at hr; exact absurd hr (Nat.lt_irrefl _)
          · exact absurd (hhead.1 _ h2) (Nat.lt_asymm hr)
      have hstep := chain_step hc hr0 ha hinv (hlt n (List.mem_cons_self _ _)) hnpre hord
        hidle h3
      have := ih (pre ++ [n]) g3 g2 hstep (by simpa using hpw)
        (fun m hm => hlt m (List.mem_cons_of_mem _ hm)) (by simpa using hall) hrw3 h
      simpa using this

/-! ## A second traversal -/

theorem under_of_extends {g g1 : Graph} (h : Extends g g1) {b : BlockId} (hu : Under g b) :
    Under g1 b := by
  induction hu with
  | root => exact Under.root
  | nested _ hm hsb ih =>
    exact Under.nested ih (h.mem_nodes _ _ hm) (by rw [h.blocks_eq]; exact hsb)

theorem reach_of_under {g : Graph} {b : BlockId} (hu : Under g b) :
    ∀ {n : NodeId}, Reach g b n → Reach g 0 n := by
  induction hu with
  | root => intro n h; exact h
  | nested _ hm hsb ih => intro n h; exact ih (Reach.nested hm hsb h)

theorem optimizeSubBlocks_reached (I : Graph → Prop)
    (opt : Graph → BlockId → Except Failure Graph)
    (hopt : ∀ g sb g1, I g → Under g sb → opt g sb = .ok g1 → I g1)
    (hext : ∀ g sb g1, opt g sb = .ok g1 → Extends g g1) :
    ∀ (l : List BlockId) (g g1 : Graph), I g → (∀ sb ∈ l, Under g sb) →
      optimizeSubBlocks opt l g = .ok g1 → I g1 := by
  intro l
  induction l with
  | nil =>
    intro g g1 hI _ h
    simp only [optimizeSubBlocks] at h
    injection h with h
    subst h
    exact hI
  | cons sb rest ih =>
    intro g g1 hI hU h
    simp only [optimizeSubBlocks] at h
    split at h
    · cases h
    · next g2 h2 =>
      exact ih g2 g1 (hopt g sb g2 hI (hU sb (by simp)) h2)
        (fun sb1 hsb1 => under_of_extends (hext _ _ _ h2) (hU sb1 (by simp [hsb1]))) h

theorem visitNodes_reached (I : Graph → Prop)
    (opt : Graph → BlockId → Except Failure Graph)
    (hopt : ∀ g sb g1, I g → Under g sb → opt g sb = .ok g1 → I g1)
    (hext : ∀ g sb g1, opt g sb = .ok g1 → Extends g g1)
    (hstep : ∀ g n g1, I g → Reach g 0 n → rewriteNode g n = .ok g1 → I g1)
    (b : BlockId) :
    ∀ (l : List NodeId) (g g1 : Graph), I g → Under g b → (∀ n ∈ l, n ∈ (g.block b).nodes) →
      visitNodes opt l g = .ok g1 → I g1 := by
  intro l
  induction l with
  | nil =>
    intro g g1 hI _ _ h
    simp only [visitNodes] at h
    injection h with h
    subst h
    exact hI
  | cons n rest ih =>
    intro g g1 hI hU hl h
    simp only [visitNodes] at h
    split at h
    · cases h
    · next g3 h3 =>
      simp only [visitNode] at h3
      split at h3
      · cases h3
      · next g2 h2 =>
        have hn : n ∈ (g.block b).nodes := hl n (by simp)
        have hI2 := optimizeSubBlocks_reached I opt hopt hext _ g g2 hI
          (fun sb hsb => Under.nested hU hn hsb) h2
        have he2 : Extends g g2 := optimizeSubBlocks_rel Extends extends_refl
          (fun _ _ _ => extends_trans) opt hext _ _ _ h2
        have hr : Reach g2 0 n :=
          reach_of_under (under_of_extends he2 hU) (Reach.here (he2.mem_nodes _ _ hn))
        have hI3 := hstep g2 n g3 hI2 hr h3
        have he3 : Extends g g3 := extends_trans he2 (rewriteNode_extends _ _ _ h3)
        exact ih g3 g1 hI3 (under_of_extends he3 hU)
          (fun m hm => he3.mem_nodes _ _ (hl m (by simp [hm]))) h

/-- A property of graphs that is kept by the switch on every node that the
traversal of the root block can meet is kept by the traversal of every block
under the root. -/
theorem PeepholeOptimizeBlock_reached (I : Graph → Prop)
    (hstep : ∀ g n g1, I g → Reach g 0 n → rewriteNode g n = .ok g1 → I g1) :
    ∀ (fuel : Nat) (g : Graph) (b : BlockId) (g1 : Graph), I g → Under g b →
      PeepholeOptimizeBlock fuel g b = .ok g1 → I g1 := by
  intro fuel
  induction fuel with
  | zero => intro g b g1 _ _ h; cases h
  | succ fuel ih =>
    intro g b g1 hI hU h
    simp only [PeepholeOptimizeBlock] at h
    exact visitNodes_reached I (PeepholeOptimizeBlock fuel) (fun g sb g1 hI hU h => ih g sb g1 hI hU h)
      (PeepholeOptimizeBlock_extends fuel) hstep b _ g g1 hI hU (fun _ hn => hn) h

theorem replaceAllUsesWith_of_unused {g : Graph} {v w : Value}
    (h : ∀ m, v ∉ (g.node m).inputs) : g.replaceAllUsesWith v w = g := by
  unfold Graph.replaceAllUsesWith
  have : g.nodes.map (fun nd => { nd with inputs := substInputs v w nd.inputs }) = g.nodes := by
    conv_rhs => rw [← List.map_id g.nodes]
    apply List.map_congr_left
    intro nd hnd
    obtain ⟨m, hm, rfl⟩ := List.getElem_of_mem hnd
    have hnode : g.node m = g.nodes[m] := by
      simp [Graph.node, List.getD_eq_getElem?_getD, List.getElem?_eq_getElem hm]
    have := h m
    rw [hnode] at this
    rw [substInputs_of_not_mem this]
    rfl
  rw [this]

/-- The switch on a settled node rewires nothing: every node of the arena
keeps its record, the graph stays ranked and settled nodes stay settled. -/
theorem settled_step {g g1 : Graph} {n : NodeId} (hr : ∃ rank, Ranked g rank)
    (hs : Settled g n) (h : rewriteNode g n = .ok g1) :
    (∃ rank1, Ranked g1 rank1) ∧ (∀ m, m < g.nodes.length → g1.node m = g.node m) ∧
      (∀ a, a < g.nodes.length → Settled g a → Settled g1 a) := by
  obtain ⟨rank, hr⟩ := hr
  have hsame : g1 = g → (∃ rank1, Ranked g1 rank1) ∧
      (∀ m, m < g.nodes.length → g1.node m = g.node m) ∧
      (∀ a, a < g.nodes.length → Settled g a → Settled g1 a) := by
    intro e
    subst e
    exact ⟨⟨rank, hr⟩, fun _ _ => rfl, fun _ _ h => h⟩
  rcases hs with hs | hs
  · rw [rewriteNode_of_skip hs] at h
    injection h with h
    exact hsame h.symm
  · rw [rewriteNode_eq_perform] at h
    cases hm : matchNode g n with
    | error e => rw [hm] at h; cases h
    | ok act =>
      rw [hm] at h
      simp only [Except.map] at h
      injection h with h
      cases act with
      | skip => exact hsame h.symm
      | replace out w =>
        have hout := (matchNode_replace_spec hm).1
        apply hsame
        rw [← h]
        apply replaceAllUsesWith_of_unused
        intro m hmem
        exact hs m out hmem (by rw [hout])
      | fuse mat mat1 mat2 out =>
        obtain ⟨hout, _, _, hmat, y, hy, hm1, hm2⟩ := matchNode_fuse_spec hm
        have hun : Unused (g.withAddmm n mat mat1 mat2 out) n := unused_withAddmm hs hmat hm1 hm2
        have hg1 : g1 = g.withAddmm n mat mat1 mat2 out := by
          rw [← h, perform_fuse]
          apply replaceAllUsesWith_of_unused
          intro m hmem
          exact hun m out hmem (by rw [hout])
        subst hg1
        refine ⟨⟨_, ranked_withAddmm hr hmat hy hm1 hm2⟩,
          fun m hm => node_withAddmm_old g n mat mat1 mat2 out m hm, ?_⟩
        intro a ha hsa
        rcases hsa with hsa | hsa
        · exact Or.inl (skip_withAddmm hr hsa ha)
        · exact Or.inr (unused_withAddmm hsa hmat hm1 hm2)

theorem skip_of_new {g g1 : Graph} (h : Extends g g1) {a : NodeId} (ha : g.nodes.length ≤ a) :
    matchNode g1 a = .ok .skip := by
  by_cases hn1 : a < g1.nodes.length
  · have hk := h.new_kind a ha hn1
    apply matchNode_skip_of_kind <;> · rw [hk]; decide
  · have hk := node_absent_of_le g1 a (Nat.le_of_not_lt hn1)
    apply matchNode_skip_of_kind <;> · rw [hk]; decide

/-- After the traversal of a well-formed graph every node that a traversal of
the root block can meet is settled. -/
theorem settled_after {g g1 : Graph} {fuel : Nat} {rank : NodeId → Nat}
    {depth : BlockId → Nat} (hwf : WellFormed g fuel rank depth)
    (h : PeepholeOptimizeBlock fuel g 0 = .ok g1) :
    (∃ rank1, Ranked g1 rank1) ∧ ∀ a, Reach g1 0 a → Settled g1 a := by
  have he : Extends g g1 := PeepholeOptimizeBlock_extends fuel g 0 g1 h
  have hnd : (visitOrder fuel g 0).Nodup :=
    List.Pairwise.imp (fun hlt heq => absurd hlt (by rw [heq]; exact Nat.lt_irrefl _)) hwf.ordered
  have hflat := PeepholeOptimizeBlock_flatten fuel g 0 g1 h hnd
  obtain ⟨rank1, hr1, hset⟩ := settle_fold (visitOrder fuel g 0) [] g rank g1 hwf.ranked
    (fun a ha => by simp at ha) hwf.listed (fun a ha => by simp at ha) hwf.ordered hflat
  refine ⟨⟨rank1, hr1⟩, ?_⟩
  intro a hreach
  cases reach_old_or_new he hreach with
  | inl hold =>
    exact hset a (by simpa using mem_visitOrder_of_reach hwf.nested hold fuel hwf.fuel_ok)
  | inr hnew => exact Or.inl (skip_of_new he hnew)

/-- A second traversal completes and rewires nothing: every node of the arena
keeps its record. -/
theorem second_traversal {g g1 : Graph} {fuel : Nat} {rank : NodeId → Nat}
    {depth : BlockId → Nat} (hwf : WellFormed g fuel rank depth) (ha : g.ArityOK)
    (h : PeepholeOptimizeBlock fuel g 0 = .ok g1) :
    ∃ g2, PeepholeOptimizeBlock fuel g1 0 = .ok g2 ∧
      ∀ m, m < g1.nodes.length → g2.node m = g1.node m := by
  have he : Extends g g1 := PeepholeOptimizeBlock_extends fuel g 0 g1 h
  obtain ⟨hr1, hset1⟩ := settled_after hwf h
  obtain ⟨g2, h2⟩ := PeepholeOptimizeBlock_ok_of_arity g1 depth fuel 0
    (arityOK_of_extends he ha) (nestedBelow_of_extends depth he hwf.nested) hwf.fuel_ok
  refine ⟨g2, h2, ?_⟩
  have key := PeepholeOptimizeBlock_reached
    (fun gc => Extends g1 gc ∧ (∃ rank, Ranked gc rank) ∧ (∀ a, Reach gc 0 a → Settled gc a) ∧
      ∀ m, m < g1.nodes.length → gc.node m = g1.node m)
    (fun gc n gd hI hreach hrw => by
      obtain ⟨hext, hrk, hset, hsame⟩ := hI
      obtain ⟨hrk2, hrec, hkeep⟩ := settled_step hrk (hset n hreach) hrw
      have hext2 := rewriteNode_extends gc n gd hrw
      refine ⟨extends_trans hext hext2, hrk2, ?_, ?_⟩
      · intro a hra
        by_cases halt : a < gc.nodes.length
        · cases reach_old_or_new hext2 hra with
          | inl hold => exact hkeep a halt (hset a hold)
          | inr hnew => exact absurd halt (Nat.not_lt.mpr hnew)
        · exact Or.inl (skip_of_new hext2 (Nat.le_of_not_lt halt))
      · intro m hm
        rw [hrec m (Nat.lt_of_lt_of_le hm hext.length_le), hsame m hm])
    fuel g1 0 g2 ⟨extends_refl g1, hr1, hset1, fun _ _ => rfl⟩ Under.root h2
  exact key.2.2.2

/-- C20, as stated, fails.  In `chainBreakGraph` the chain is the single
transpose `t1` (node 3), reading `x` (the output of node 2), which is produced
by an `aten::expand` node and not by an `aten::t` node.  After the traversal
the consumer of `t1` (node 4) reads the block parameter (node 0): Rule A has
replaced `x` by the output of the transpose `s` before `t1` was visited, and
Rule B then fired on `t1` itself.  The graph is a chain in the sense of
`TransposeChain`; what sets it apart is that a rule fires on the producer of
`x` (node 2) during the traversal. -/
theorem chain_source_rewired :
    TransposeChain chainBreakGraph (fun i => i + 3) 1 ⟨2, 0⟩ ∧
    (chainBreakGraph.node 2).kind ≠ .t ∧ chainBreakGraph.reads 4 0 ⟨3, 0⟩ ∧
    rewritesAt 2 (visitOrder 1 chainBreakGraph 0) chainBreakGraph = true ∧
    ∃ g1, PeepholeOptimizeBlock 1 chainBreakGraph 0 = .ok g1 ∧
      g1.reads 4 0 ⟨0, 0⟩ ∧ ¬ g1.reads 4 0 ⟨3, 0⟩ ∧ (g1.node 0).kind = .Param :=
  ⟨⟨by decide, by decide, by decide, by decide, by decide, by decide⟩, by decide, by decide,
    by decide, _, rfl, by decide, by decide, by decide⟩

/-- C20, amended.  Let `g` be a well-formed graph with the operator arities,
holding a chain `t_1 = t(x), ..., t_k = t(t_{k-1})` (`c i` is the node of
`t_{i+1}`) met by the traversal, where `x` is not produced by an `aten::t`
node, no rule fires on the node that produces `x` during the traversal, and
each `t_i` with `i < k` is consumed by `t_{i+1}` only.  After one traversal: when `k` is even every consumer of
`t_k` reads `x`; when `k` is odd every consumer of `t_k` still reads `t_k`,
which is a transpose of `x`; every even-numbered transpose has no consumer
left and every odd-numbered one reads `x`, so no transpose of a transpose is
consumed; and a second traversal completes and changes no node of the
arena. -/
theorem transpose_chain_collapses (g g1 : Graph) (fuel : Nat) (rank : NodeId → Nat)
    (depth : BlockId → Nat) (c : Nat → NodeId) (k : Nat) (x : Value)
    (hwf : WellFormed g fuel rank depth) (ha : g.ArityOK) (hc : TransposeChain g c k x)
    (hvis : ∀ i, i < k → c i ∈ visitOrder fuel g 0)
    (hidle : rewritesAt x.node (visitOrder fuel g 0) g = false)
    (h : PeepholeOptimizeBlock fuel g 0 = .ok g1) :
    (k % 2 = 0 → ∀ m s, g.reads m s ⟨c (k - 1), 0⟩ → g1.reads m s x) ∧
    (k % 2 = 1 → (∀ m s, g.reads m s ⟨c (k - 1), 0⟩ → g1.reads m s ⟨c (k - 1), 0⟩) ∧
      (g1.node (c (k - 1))).kind = .t ∧ (g1.node (c (k - 1))).inputs = [x]) ∧
    (∀ i, i < k → i % 2 = 1 → Unused g1 (c i)) ∧
    (∀ i, i < k → i % 2 = 0 → (g1.node (c i)).inputs = [x]) ∧
    (∃ g2, PeepholeOptimizeBlock fuel g1 0 = .ok g2 ∧
      ∀ m, m < g1.nodes.length → g2.node m = g1.node m) := by
  have hnd : (visitOrder fuel g 0).Nodup :=
    List.Pairwise.imp (fun hlt heq => absurd hlt (by rw [heq]; exact Nat.lt_irrefl _)) hwf.ordered
  have hflat := PeepholeOptimizeBlock_flatten fuel g 0 g1 h hnd
  have hinv := chain_fold hc hwf.ranked ha (visitOrder fuel g 0) [] g g1
    (chainInv_init hc hwf.ranked) (by simpa using hwf.ordered) hwf.listed
    (by simpa using hvis) hidle hflat
  simp only [List.nil_append] at hinv
  have hk := hc.pos
  have heven : ∀ i, i < k → i % 2 = 0 → (g1.node (c i)).inputs = [x] := by
    intro i hi hp
    rw [hinv.inputs i hi]
    unfold chainInput
    by_cases h0 : i = 0
    · simp [h0]
    · have := hvis (i - 1) (by omega)
      simp [h0, hp, this]
  refine ⟨?_, ?_, ?_, heven, second_traversal hwf ha h⟩
  · intro hp m s hrd
    have := hinv.slots m s hrd
    simpa [hp, hvis (k - 1) (by omega)] using this
  · intro hp
    refine ⟨?_, ?_, heven (k - 1) (by omega) (by omega)⟩
    · intro m s hrd
      have := hinv.slots m s hrd
      have hne : ¬ k % 2 = 0 := by omega
      simpa [hne] using this
    · rw [hinv.ext.kind_eq _ (hc.lt_length (by omega))]
      exact hc.kind (k - 1) (by omega)
  · intro i hi hp
    exact hinv.unused i hi hp (hvis i hi)

/-- Witness of the amended C20 on `idleExpandChain`, a chain of four
transposes of the output `x` of an `expand` that changes the sizes of its
input, so that Rule A does not fire on it: the consumer of `t4` reads `x`. -/
theorem transpose_chain_collapses_witness :
    rewritesAt 1 (visitOrder 1 idleExpandChain 0) idleExpandChain = false ∧
    (idleExpandChain.node 1).kind = .expand ∧
    ∃ g1, PeepholeOptimizeBlock 1 idleExpandChain 0 = .ok g1 ∧
      (g1.node 6).inputs = [⟨1, 0⟩] ∧
      ((4 % 2 = 0 → ∀ m s, idleExpandChain.reads m s ⟨5, 0⟩ → g1.reads m s ⟨1, 0⟩) ∧
      (4 % 2 = 1 → (∀ m s, idleExpandChain.reads m s ⟨5, 0⟩ → g1.reads m s ⟨5, 0⟩) ∧
        (g1.node 5).kind = .t ∧ (g1.node 5).inputs = [⟨1, 0⟩]) ∧
      (∀ i, i < 4 → i % 2 = 1 → Unused g1 (i + 2)) ∧
      (∀ i, i < 4 → i % 2 = 0 → (g1.node (i + 2)).inputs = [⟨1, 0⟩]) ∧
      (∃ g2, PeepholeOptimizeBlock 1 g1 0 = .ok g2 ∧
        ∀ m, m < g1.nodes.length → g2.node m = g1.node m)) :=
  ⟨by decide, by decide, _, rfl, by decide,
    transpose_chain_collapses idleExpandChain _ 1 id (fun _ => 0) (fun i => i + 2) 4 ⟨1, 0⟩
      ⟨by decide, by decide, by decide, by decide, by decide, by decide⟩ (by decide)
      ⟨by decide, by decide, by decide, by decide, by decide, by decide⟩ (by decide)
      (by decide) rfl⟩

/-! ## The fused pair along the traversal -/

theorem reads_replaceAllUsesWith_inv {g : Graph} {m : NodeId} {s : Nat} {v out w : Value}
    (h : (g.replaceAllUsesWith out w).reads m s v) :
    ∃ u, g.reads m s u ∧ v = if u = out then w else u := by
  unfold Graph.reads at h ⊢
  rw [node_replaceAllUsesWith] at h
  simp only [substInputs_getElem?] at h
  cases hu : (g.node m).inputs[s]? with
  | none => rw [hu] at h; cases h
  | some u =>
    rw [hu] at h
    simp only [Option.map_some'] at h
    injection h with h
    exact ⟨u, rfl, h.symm⟩

theorem only_replaceAllUsesWith {g : Graph} {n a : NodeId} {out w : Value}
    (honly : ∀ m s v, g.reads m s v → v.node = a → m = n ∧ s = 1) (hw : w.node ≠ a) :
    ∀ m s v, (g.replaceAllUsesWith out w).reads m s v → v.node = a → m = n ∧ s = 1 := by
  intro m s v h hv
  obtain ⟨u, hu, hvu⟩ := reads_replaceAllUsesWith_inv h
  by_cases hc : u = out
  · rw [if_pos hc] at hvu
    rw [hvu] at hv
    exact absurd hv hw
  · rw [if_neg hc] at hvu
    rw [hvu] at hv
    exact honly m s u hu hv

theorem only_withAddmm {g : Graph} {n k a : NodeId} {mat mat1 mat2 out : Value}
    (honly : ∀ m s v, g.reads m s v → v.node = a → m = n ∧ s = 1)
    (hmat : mat.node ≠ a) (h1 : mat1.node ≠ a) (h2 : mat2.node ≠ a) :
    ∀ m s v, (g.withAddmm k mat mat1 mat2 out).reads m s v → v.node = a → m = n ∧ s = 1 := by
  intro m s v h hv
  rcases node_withAddmm_inputs g k mat mat1 mat2 out m v (reads_mem h).2 with
    ⟨hm, _⟩ | ⟨_, hb | hb | hb⟩
  · unfold Graph.reads at h
    rw [node_withAddmm_old g k mat mat1 mat2 out m hm] at h
    exact honly m s v h hv
  · rw [hb] at hv; exact absurd hv hmat
  · rw [hb] at hv; exact absurd hv h1
  · rw [hb] at hv; exact absurd hv h2

theorem reads_of_inputs {g : Graph} {m : NodeId} {l : List Value} {s : Nat} {v : Value}
    (hin : (g.node m).inputs = l) (h : l[s]? = some v) : g.reads m s v := by
  unfold Graph.reads
  rw [hin]
  exact h

/-- Rule D firing on any node keeps the state of the pair. -/
theorem fusedPair_fuse {g : Graph} {rank : NodeId → Nat} {n : NodeId} {y : Value}
    {pre : List NodeId} {g1 : Graph} {k : NodeId} {mat mat1 mat2 out : Value}
    (hkind : (g.node n).kind = .add) (hkind2 : (g.node y.node).kind = .mm)
    (hinv : FusedPair g rank n y pre g1) (hk : k < g.nodes.length)
    (hm : matchNode g1 k = .ok (.fuse mat mat1 mat2 out))
    (hext : Extends g1 (perform g1 k (.fuse mat mat1 mat2 out)))
    (hrk : ∃ rank2, Ranked (perform g1 k (.fuse mat mat1 mat2 out)) rank2 ∧
      ∀ m, m < g.nodes.length → rank2 m = rank m) :
    FusedPair g rank n y (pre ++ [k]) (perform g1 k (.fuse mat mat1 mat2 out)) := by
  obtain ⟨hout, houtlen, hkk, _, y1, rest, hin, hk2, hin2⟩ := matchNode_fuse_inv hm
  have hn : n < g.nodes.length := lt_length_of_kind g n (by rw [hkind]; decide)
  have hy : y.node < g.nodes.length := lt_length_of_kind g y.node (by rw [hkind2]; decide)
  have hlen := hinv.ext.length_le
  have hn1 : n < g1.nodes.length := Nat.lt_of_lt_of_le hn hlen
  have hk1 : k < g1.nodes.length := Nat.lt_of_lt_of_le hk hlen
  have hy1 : y.node < g1.nodes.length := Nat.lt_of_lt_of_le hy hlen
  have hkn1 : (g1.node n).kind = .add := by rw [hinv.ext.kind_eq _ hn]; exact hkind
  have hky1 : (g1.node y.node).kind = .mm := by rw [hinv.ext.kind_eq _ hy]; exact hkind2
  have hyk : y.node ≠ k := by
    intro e
    rw [e, hkk] at hky1
    cases hky1
  have hy1n : y1.node ≠ n := by
    intro e
    rw [e, hkn1] at hk2
    cases hk2
  have hmat : mat.node ≠ y.node := by
    intro e
    have := hinv.only k 0 mat (reads_of_inputs hin rfl) e
    omega
  have hmat1 : mat1.node ≠ y.node := by
    intro e
    exact hy1n (hinv.only y1.node 0 mat1 (reads_of_inputs hin2 rfl) e).1
  have hmat2 : mat2.node ≠ y.node := by
    intro e
    exact hy1n (hinv.only y1.node 1 mat2 (reads_of_inputs hin2 (by simp)) e).1
  have hmatm : mat ∈ (g1.node k).inputs := by rw [hin]; simp
  have hy1m : y1 ∈ (g1.node k).inputs := by rw [hin]; simp
  have hm1m : mat1 ∈ (g1.node y1.node).inputs := by rw [hin2]; simp
  have hm2m : mat2 ∈ (g1.node y1.node).inputs := by rw [hin2]; simp
  obtain ⟨rank1, hr1, _⟩ := hinv.ranked
  rw [perform_fuse] at hext hrk ⊢
  refine ⟨extends_trans hinv.ext hext, hrk, ?_, ?_, ?_, ?_⟩
  · rw [node_replaceAllUsesWith, node_withAddmm_old g1 k mat mat1 mat2 out n hn1]
    exact hinv.alpha
  · apply reads_replaceAllUsesWith_of_ne
    · unfold Graph.reads
      rw [node_withAddmm_old g1 k mat mat1 mat2 out n hn1]
      exact hinv.slot
    · intro e
      rw [hout] at e
      exact hyk (congrArg Value.node e)
  · apply only_replaceAllUsesWith (only_withAddmm hinv.only hmat hmat1 hmat2)
    exact Nat.ne_of_gt hy1
  · intro hmem
    by_cases hkn : k = n
    · subst hkn
      rw [hout]
      have hr2 := @ranked_withAddmm g1 rank1 k mat mat1 mat2 ⟨k, 0⟩ y1 hr1 hmatm hy1m hm1m hm2m
      refine unused_self_replaceAllUsesWith hr2 ?_ (Nat.ne_of_gt hk1)
      rw [node_withAddmm_old g1 k _ _ _ _ k hk1]
      exact houtlen
    · have hpre : n ∈ pre := by
        rcases List.mem_append.mp hmem with h | h
        · exact h
        · exact absurd (List.mem_singleton.mp h).symm hkn
      exact unused_replaceAllUsesWith (unused_withAddmm (hinv.unused hpre) hmatm hm1m hm2m)
        (Nat.ne_of_gt hn1)

/-- Rule A, B or C firing on a node keeps the state of the pair. -/
theorem fusedPair_replace {g : Graph} {rank : NodeId → Nat} {n : NodeId} {y : Value}
    {pre : List NodeId} {g1 : Graph} {k : NodeId} {out w : Value}
    (hkind : (g.node n).kind = .add) (hkind2 : (g.node y.node).kind = .mm)
    (hinv : FusedPair g rank n y pre g1)
    (hm : matchNode g1 k = .ok (.replace out w))
    (hrk : ∃ rank2, Ranked (g1.replaceAllUsesWith out w) rank2 ∧
      ∀ m, m < g.nodes.length → rank2 m = rank m) :
    FusedPair g rank n y (pre ++ [k]) (g1.replaceAllUsesWith out w) := by
  obtain ⟨hout, _, hcases⟩ := matchNode_replace_inv hm
  obtain ⟨_, _, hw⟩ := matchNode_replace_spec hm
  have hn : n < g.nodes.length := lt_length_of_kind g n (by rw [hkind]; decide)
  have hy : y.node < g.nodes.length := lt_length_of_kind g y.node (by rw [hkind2]; decide)
  have hkn1 : (g1.node n).kind = .add := by rw [hinv.ext.kind_eq _ hn]; exact hkind
  have hky1 : (g1.node y.node).kind = .mm := by rw [hinv.ext.kind_eq _ hy]; exact hkind2
  have hkk := kind_of_replace hm
  have hkn : k ≠ n := by
    intro e
    rw [e, hkn1] at hkk
    rcases hkk with h | h | h <;> cases h
  have hyk : y.node ≠ k := by
    intro e
    rw [← e, hky1] at hkk
    rcases hkk with h | h | h <;> cases h
  have hwy : w.node ≠ y.node := by
    intro e
    rcases hcases with ⟨_, hin, _⟩ | ⟨_, y1, hin, hk1, hin1⟩ | ⟨_, rhs, _, _, _, _, _, _, hin, _⟩
    · exact hkn (hinv.only k 0 w (reads_of_inputs hin rfl) e).1
    · have := (hinv.only y1.node 0 w (reads_of_inputs hin1 rfl) e).1
      rw [this, hkn1] at hk1
      cases hk1
    · exact hkn (hinv.only k 0 w (reads_of_inputs hin rfl) e).1
  refine ⟨extends_trans hinv.ext (extends_replaceAllUsesWith _ _ _), hrk, ?_, ?_, ?_, ?_⟩
  · rw [node_replaceAllUsesWith]
    exact hinv.alpha
  · apply reads_replaceAllUsesWith_of_ne hinv.slot
    intro e
    rw [hout] at e
    exact hyk (congrArg Value.node e)
  · exact only_replaceAllUsesWith hinv.only hwy
  · intro hmem
    have hpre : n ∈ pre := by
      rcases List.mem_append.mp hmem with h | h
      · exact h
      · exact absurd (List.mem_singleton.mp h).symm hkn
    have hu := hinv.unused hpre
    apply unused_replaceAllUsesWith hu
    rcases hw with h | ⟨y1, _, h⟩
    · exact hu k w h
    · exact hu y1.node w h

/-- The switch decides Rule D on the `add` of the pair, in every state of the
pair. -/
theorem fusedPair_fires {g : Graph} {rank : NodeId → Nat} {n : NodeId} {y : Value}
    {pre : List NodeId} {g1 : Graph}
    (hkind : (g.node n).kind = .add) (hkind2 : (g.node y.node).kind = .mm) (ha : g.ArityOK)
    (hlen2 : (g.node n).inputs.length = 2)
    (hinv : FusedPair g rank n y pre g1) : matchNode g1 n ≠ .ok .skip := by
  have hn : n < g.nodes.length := lt_length_of_kind g n (by rw [hkind]; decide)
  have hy : y.node < g.nodes.length := lt_length_of_kind g y.node (by rw [hkind2]; decide)
  have hkn1 : (g1.node n).kind = .add := by rw [hinv.ext.kind_eq _ hn]; exact hkind
  have hky1 : (g1.node y.node).kind = .mm := by rw [hinv.ext.kind_eq _ hy]; exact hkind2
  have hl : (g1.node n).inputs.length = 2 := by rw [hinv.ext.inputs_length _ hn]; exact hlen2
  obtain ⟨a, b, hab⟩ := List.length_eq_two.mp hl
  have hb : b = y := by
    have := hinv.slot
    unfold Graph.reads at this
    rw [hab] at this
    simpa using this
  subst hb
  have hl2 : 2 ≤ (g1.node b.node).inputs.length := by
    rw [hinv.ext.inputs_length _ hy]
    exact (ha.node b.node).2.2.2.1 hkind2
  have hout : (g1.node n).outputs.length = 1 := by
    rw [hinv.ext.outputs_length _ hn]
    exact (ha.node n).2.2.2.2 (Or.inr (Or.inr (Or.inr hkind)))
  match hmm : (g1.node b.node).inputs, hl2 with
  | m1 :: m2 :: rest, _ =>
    simp [matchNode, hkn1, Node.inputAt, hab, hinv.alpha, hky1, hmm, Graph.output, hout]

/-- One visit keeps the state of the pair in step with the visited nodes. -/
theorem fusedPair_step {g : Graph} {rank : NodeId → Nat} {n : NodeId} {y : Value}
    {pre : List NodeId} {g1 g2 : Graph} {k : NodeId}
    (hkind : (g.node n).kind = .add) (hkind2 : (g.node y.node).kind = .mm) (ha : g.ArityOK)
    (hlen2 : (g.node n).inputs.length = 2)
    (hinv : FusedPair g rank n y pre g1) (hk : k < g.nodes.length)
    (h : rewriteNode g1 k = .ok g2) :
    FusedPair g rank n y (pre ++ [k]) g2 := by
  have hk1 : k < g1.nodes.length := Nat.lt_of_lt_of_le hk hinv.ext.length_le
  have hrk := ranked_after hinv.ext hinv.ranked hk1 h
  have hext := rewriteNode_extends g1 k g2 h
  rw [rewriteNode_eq_perform] at h
  cases hm : matchNode g1 k with
  | error e => rw [hm] at h; cases h
  | ok act =>
    rw [hm] at h
    simp only [Except.map] at h
    injection h with h
    subst h
    cases act with
    | skip =>
      have hkn : k ≠ n := by
        intro e
        rw [e] at hm
        exact fusedPair_fires hkind hkind2 ha hlen2 hinv hm
      refine ⟨hinv.ext, hinv.ranked, hinv.alpha, hinv.slot, hinv.only, ?_⟩
      intro hmem
      rcases List.mem_append.mp hmem with h1 | h1
      · exact hinv.unused h1
      · exact absurd (List.mem_singleton.mp h1).symm hkn
    | replace out w => exact fusedPair_replace hkind hkind2 hinv hm hrk
    | fuse mat mat1 mat2 out => exact fusedPair_fuse hkind hkind2 hinv hk hm hext hrk

/-- The state of the pair along a run of the switch over nodes of the arena. -/
theorem fusedPair_fold {g : Graph} {rank : NodeId → Nat} {n : NodeId} {y : Value}
    (hkind : (g.node n).kind = .add) (hkind2 : (g.node y.node).kind = .mm) (ha : g.ArityOK)
    (hlen2 : (g.node n).inputs.length = 2) :
    ∀ (post pre : List NodeId) (g1 g2 : Graph), FusedPair g rank n y pre g1 →
      (∀ k ∈ post, k < g.nodes.length) →
      rewriteNodes post g1 = .ok g2 → FusedPair g rank n y (pre ++ post) g2 := by
  intro post
  induction post with
  | nil =>
    intro pre g1 g2 hinv _ h
    simp only [rewriteNodes] at h
    injection h with h
    subst h
    simpa using hinv
  | cons k rest ih =>
    intro pre g1 g2 hinv hlt h
    simp only [rewriteNodes] at h
    split at h
    · cases h
    · next g3 h3 =>
      have hstep := fusedPair_step hkind hkind2 ha hlen2 hinv (hlt k (List.mem_cons_self _ _)) h3
      have := ih (pre ++ [k]) g3 g2 hstep (fun m hm => hlt m (List.mem_cons_of_mem _ hm)) h
      simpa using this

/-- C12, amended.  Let `g` be a well-formed graph with the operator arities
and `n` an `aten::add` node met by the traversal, with inputs `(bias, y)` and
`alpha = 1`, where `y` is an output of an `aten::mm` node, `bias` is not an
output of that `mm` node, and `n` is the only consumer of the outputs of the
`mm` node.  Then the traversal completes and in its result no node consumes
an output of `n`, while input slot 1 of `n` still holds `y` and no other
input slot of the arena holds an output of the `mm` node: the `mm` is left
with exactly the dead `add` as its consumer.  Both nodes keep their kind and
`n` is still listed in its block.  (The first input of `n` may have been
rewired by another rule in the meantime.) -/
theorem add_mm_leaves_dead_add (g : Graph) (fuel : Nat) (rank : NodeId → Nat)
    (depth : BlockId → Nat) (n : NodeId) (bias y : Value)
    (hwf : WellFormed g fuel rank depth) (ha : g.ArityOK)
    (hvis : n ∈ visitOrder fuel g 0)
    (hkind : (g.node n).kind = .add)
    (hin : (g.node n).inputs = [bias, y])
    (halpha : (g.node n).alpha = some 1)
    (hkind2 : (g.node y.node).kind = .mm)
    (hbias : bias.node ≠ y.node)
    (honly : ∀ m, m < g.nodes.length → ∀ v ∈ (g.node m).inputs, v.node = y.node → m = n) :
    ∃ g1, PeepholeOptimizeBlock fuel g 0 = .ok g1 ∧
      Unused g1 n ∧
      g1.reads n 1 y ∧
      (∀ m s v, g1.reads m s v → v.node = y.node → m = n ∧ s = 1) ∧
      (g1.node n).kind = .add ∧ (g1.node y.node).kind = .mm ∧
      (∀ b, n ∈ (g.block b).nodes → n ∈ (g1.block b).nodes) := by
  obtain ⟨g1, h⟩ := PeepholeOptimizeBlock_ok_of_arity g depth fuel 0 ha hwf.nested hwf.fuel_ok
  have hnd : (visitOrder fuel g 0).Nodup :=
    List.Pairwise.imp (fun hlt heq => absurd hlt (by rw [heq]; exact Nat.lt_irrefl _)) hwf.ordered
  have hflat := PeepholeOptimizeBlock_flatten fuel g 0 g1 h hnd
  have hn : n < g.nodes.length := lt_length_of_kind g n (by rw [hkind]; decide)
  have hy : y.node < g.nodes.length := lt_length_of_kind g y.node (by rw [hkind2]; decide)
  have hinit : FusedPair g rank n y [] g := by
    refine ⟨extends_refl g, ⟨rank, hwf.ranked, fun _ _ => rfl⟩, halpha,
      reads_of_inputs hin rfl, ?_, fun hmem => by simp at hmem⟩
    intro m s v hrd hv
    have hm := honly m (reads_mem hrd).1 v (reads_mem hrd).2 hv
    subst hm
    refine ⟨rfl, ?_⟩
    unfold Graph.reads at hrd
    rw [hin] at hrd
    match s, hrd with
    | 0, hrd =>
      simp only [List.getElem?_cons_zero, Option.some.injEq] at hrd
      rw [← hrd] at hv
      exact absurd hv hbias
    | 1, _ => rfl
    | s + 2, hrd => simp at hrd
  have hinv := fusedPair_fold hkind hkind2 ha (by rw [hin]; rfl) (visitOrder fuel g 0) [] g g1
    hinit hwf.listed hflat
  simp only [List.nil_append] at hinv
  refine ⟨g1, h, hinv.unused hvis, hinv.slot, hinv.only, ?_, ?_, fun b hb => hinv.ext.mem_nodes b n hb⟩
  · rw [hinv.ext.kind_eq _ hn]; exact hkind
  · rw [hinv.ext.kind_eq _ hy]; exact hkind2

/-- Witness of the amended C12 on `biasExpandGraph`, where Rule A fires on the
producer of `bias` before the `add` (node 3) is visited: after the traversal
the `add` reads `(b, y)`, its consumer reads the fused node 6, and the `mm`
(node 2) is read by slot 1 of the `add` only. -/
theorem add_mm_leaves_dead_add_witness :
    (biasExpandGraph.node 3).inputs = [⟨1, 0⟩, ⟨2, 0⟩] ∧
    (∃ g1, PeepholeOptimizeBlock 1 biasExpandGraph 0 = .ok g1 ∧
      (g1.node 3).inputs = [⟨0, 2⟩, ⟨2, 0⟩] ∧ (g1.node 4).inputs = [⟨6, 0⟩] ∧
      (g1.node 6).kind = .addmm ∧ (g1.node 6).inputs = [⟨0, 2⟩, ⟨0, 0⟩, ⟨0, 1⟩]) ∧
    ∃ g1, PeepholeOptimizeBlock 1 biasExpandGraph 0 = .ok g1 ∧
      Unused g1 3 ∧
      g1.reads 3 1 ⟨2, 0⟩ ∧
      (∀ m s v, g1.reads m s v → v.node = (⟨2, 0⟩ : Value).node → m = 3 ∧ s = 1) ∧
      (g1.node 3).kind = .add ∧ (g1.node (⟨2, 0⟩ : Value).node).kind = .mm ∧
      (∀ b, 3 ∈ (biasExpandGraph.block b).nodes → 3 ∈ (g1.block b).nodes) :=
  ⟨by decide, ⟨_, rfl, by decide, by decide, by decide, by decide⟩,
    add_mm_leaves_dead_add biasExpandGraph 1 id (fun _ => 0) 3 ⟨1, 0⟩ ⟨2, 0⟩
      ⟨by decide, by decide, by decide, by decide, by decide, by decide⟩ (by decide)
      (by decide) (by decide) (by decide) (by decide) (by decide) (by decide) (by decide)⟩

end Peephole
